import Mathlib

/-!
Shallow embedding of the CNIC OCR text-parsing core of this repository
(src/services/vision_service.py, methods `_clean_text`,
`_parse_cnic_text_enhanced`, `_extract_with_patterns`,
`_extract_with_positions`, `_extract_with_context`, `_fallback_extraction`,
`_is_valid_name`, `_format_name`, `_format_date`, `_cleanup_extracted_data`,
and src/app.py's confidence-score computation in `extract_cnic_data`).

Strings are modelled by their character sequences.  Python `re.search` is
modelled by an explicit backtracking matcher that follows Python semantics:
leftmost match position wins, alternatives are tried in written order,
counted repetition is greedy (or lazy for `+?`) with backtracking, and
lookahead consumes nothing.  Character classes and case conversion are
modelled over the ASCII range; Python additionally treats some non-ASCII
letters as word characters, which the parser's inputs relevant to the
properties proved here never exercise.
-/

namespace CNIC

/-- The apostrophe character (used by the father-name patterns). -/
def apos : Char := Char.ofNat 39

/-- Python regex `\s` / `str.split()` whitespace, over the ASCII range. -/
def isPySpace (c : Char) : Bool :=
  c = ' ' || c = '\t' || c = '\n' || c = '\r' || c = '\x0b' || c = '\x0c'

/-- Python regex `\w` (word character), over the ASCII range. -/
def isPyWordC (c : Char) : Bool :=
  c.isAlpha || c.isDigit || c = '_'

/-- The class `[A-Za-z\s]` used by the name/father/country capture groups. -/
def isAlSp (c : Char) : Bool := c.isAlpha || isPySpace c

/-- The class `[:\s]` used after labels. -/
def isColonSp (c : Char) : Bool := c = ':' || isPySpace c

/-- The class given in source as colon, whitespace or apostrophe
(father pattern 1). -/
def isColonSpAp (c : Char) : Bool := c = ':' || isPySpace c || c = apos

/-- The class `[-\s]` of separators inside a CNIC number. -/
def isCnicSep (c : Char) : Bool := c = '-' || isPySpace c

/-- The class of date separators: dash, slash or dot. -/
def isDateSep (c : Char) : Bool := c = '-' || c = '/' || c = '.'

/-- Substring test: does the second list occur inside the first?
Models Python's `needle in hay` for strings. -/
def containsSub (needle : List Char) : List Char → Bool
  | [] => needle.isPrefixOf []
  | c :: t => needle.isPrefixOf (c :: t) || containsSub needle t

/-- Case-insensitive substring test (ASCII lowering), modelling
`re.search(word, s, re.IGNORECASE)` for a literal `word`. -/
def containsCI (hay needle : String) : Bool :=
  containsSub (needle.data.map Char.toLower) (hay.data.map Char.toLower)

/-- Does `hay` contain (case-insensitively) any word of the list?  Models
`re.search(w1 + "|" + w2 + ..., hay, re.IGNORECASE)` for literal words. -/
def containsAnyCI (hay : String) (words : List String) : Bool :=
  words.any (fun w => containsCI hay w)

/-- Python `str.lower()` (ASCII). -/
def pyLowerS (s : String) : String := String.mk (s.data.map Char.toLower)

/-- Python `str.upper()` (ASCII). -/
def pyUpperS (s : String) : String := String.mk (s.data.map Char.toUpper)

/-- Python `str.strip()` on a character list. -/
def pyStripL (l : List Char) : List Char :=
  ((l.dropWhile isPySpace).reverse.dropWhile isPySpace).reverse

/-- Python `str.strip()`. -/
def pyStripS (s : String) : String := String.mk (pyStripL s.data)

/-- Helper for `pyWords`: accumulate the current token (reversed). -/
def splitWsAux (cur : List Char) : List Char → List (List Char)
  | [] => if cur.isEmpty then [] else [cur.reverse]
  | c :: rest =>
    if isPySpace c then
      if cur.isEmpty then splitWsAux [] rest
      else cur.reverse :: splitWsAux [] rest
    else splitWsAux (c :: cur) rest

/-- Python `str.split()` with no argument: split on whitespace runs,
dropping empty tokens. -/
def pyWords (l : List Char) : List (List Char) := splitWsAux [] l

/-- Python `str.split()` on a string. -/
def pySplitWs (s : String) : List String := (pyWords s.data).map String.mk

/-- Join a list of tokens with single spaces (Python `' '.join`). -/
def joinSp : List (List Char) → List Char
  | [] => []
  | [w] => w
  | w :: ws => w ++ ' ' :: joinSp ws

/-- `' '.join(s.split())` on a character list. -/
def joinSplitL (l : List Char) : List Char := joinSp (pyWords l)

/-- `' '.join(s.split())` on a string. -/
def joinSplitS (s : String) : String := String.mk (joinSplitL s.data)

/-- Python `' '.join(strings)`. -/
def joinSpS (ws : List String) : String := String.mk (joinSp (ws.map String.data))

/-- Helper for `collapseWsL`: `inSpace` records whether the previous
character was whitespace. -/
def collapseWsAux (inSpace : Bool) : List Char → List Char
  | [] => []
  | c :: rest =>
    if isPySpace c then
      if inSpace then collapseWsAux true rest
      else ' ' :: collapseWsAux true rest
    else c :: collapseWsAux false rest

/-- `re.sub` of one-or-more whitespace by a single space. -/
def collapseWsL (l : List Char) : List Char := collapseWsAux false l

/-- `re.sub` of one-or-more whitespace by a single space, on strings. -/
def collapseWsS (s : String) : String := String.mk (collapseWsL s.data)

/-- Python `str.replace(pat, rep)` (all occurrences, left to right), with
fuel bounded by the input length; `pat` is nonempty at every use site. -/
def replaceAllAux (pat rep : List Char) : Nat → List Char → List Char
  | 0, l => l
  | _ + 1, [] => []
  | fuel + 1, c :: rest =>
    if pat.isPrefixOf (c :: rest) && !pat.isEmpty then
      rep ++ replaceAllAux pat rep fuel (rest.drop (pat.length - 1))
    else
      c :: replaceAllAux pat rep fuel rest

/-- Python `str.replace` on strings. -/
def pyReplace (s pat rep : String) : String :=
  String.mk (replaceAllAux pat.data rep.data s.data.length s.data)

/-- Python `str.istitle()` helper; `prevCased` tells whether the previous
character was cased, `seenCased` whether any cased character occurred. -/
def pyIsTitleAux : Bool → Bool → List Char → Bool
  | _, seenCased, [] => seenCased
  | prevCased, seenCased, c :: rest =>
    if c.isAlpha then
      (if prevCased then c.isLower else c.isUpper) && pyIsTitleAux true true rest
    else pyIsTitleAux false seenCased rest

/-- Python `str.istitle()` (ASCII cased characters). -/
def pyIsTitle (s : String) : Bool := pyIsTitleAux false false s.data

/-- Python `str.title()` helper. -/
def pyTitleAux (prevCased : Bool) : List Char → List Char
  | [] => []
  | c :: rest =>
    (if c.isAlpha then (if prevCased then c.toLower else c.toUpper) else c)
      :: pyTitleAux c.isAlpha rest

/-- Python `str.title()` (ASCII). -/
def pyTitleL (l : List Char) : List Char := pyTitleAux false l

/-- Python `str.isalpha()` (ASCII): nonempty and all letters. -/
def pyIsAlphaStr (s : String) : Bool := !s.data.isEmpty && s.data.all Char.isAlpha

/-- Python `str.endswith`. -/
def pyEndsWith (s suffix : String) : Bool := suffix.data.isSuffixOf s.data

/-! ### The regular-expression matcher -/

/-- Abstract syntax of the regular expressions the parser uses.
`lit s ci` is a literal (case-insensitive when `ci`); `cls p lo hi` is a
counted greedy repetition of a one-character class (`hi = none` meaning
unbounded); `clsLazy` is its lazy variant; `look`/`nlook` are positive and
negative lookahead; `bos` is the start anchor, `bom` the multiline
start-of-line, `eos` the `$` anchor (end, or before a final newline);
`wb` is the word boundary; `grp` is the single capturing group. -/
inductive RE where
  | lit (s : List Char) (ci : Bool)
  | cls (p : Char → Bool) (lo : Nat) (hi : Option Nat)
  | clsLazy (p : Char → Bool) (lo : Nat) (hi : Option Nat)
  | alt (xs : List RE)
  | seq (xs : List RE)
  | grp (x : RE)
  | look (x : RE)
  | nlook (x : RE)
  | wb
  | bos
  | bom
  | eos

/-- One way a regular expression can match at the current position:
the remaining input, the character just before that remainder (for
anchors and word boundaries), and the contents of the capturing group
if it participated. -/
structure MRes where
  rest : List Char
  prev : Option Char
  cap : Option (List Char)

/-- First-some combination of captures (at most one group per pattern). -/
def capOr : Option (List Char) → Option (List Char) → Option (List Char)
  | some c, _ => some c
  | none, c => c

/-- Case-insensitive-or-exact literal match; returns the rest on success. -/
def litMatch (ci : Bool) : List Char → List Char → Option (List Char)
  | [], input => some input
  | _ :: _, [] => none
  | c :: cs, d :: ds =>
    if (if ci then c.toLower = d.toLower else c = d) then litMatch ci cs ds
    else none

/-- The character that precedes the position after consuming `k` characters
of `input`, given the character `prev` preceding `input`. -/
def prevAfter (prev : Option Char) (input : List Char) (k : Nat) : Option Char :=
  if k = 0 then prev else input.get? (k - 1)

/-- Outcomes of a counted class repetition consuming exactly `k` chars. -/
def clsRes (prev : Option Char) (input : List Char) (k : Nat) : MRes :=
  ⟨input.drop k, prevAfter prev input k, none⟩

/-- Candidate repetition counts in greedy order: `hi`, `hi - 1`, ..., `lo`. -/
def greedyCounts (lo hi : Nat) : List Nat :=
  (List.range (hi + 1 - lo)).map (fun t => hi - t)

/-- Candidate repetition counts in lazy order: `lo`, ..., `hi`. -/
def lazyCounts (lo hi : Nat) : List Nat :=
  (List.range (hi + 1 - lo)).map (fun t => lo + t)

/-- Is there a word character at the head (for word boundaries)? -/
def headIsWord : List Char → Bool
  | [] => false
  | c :: _ => isPyWordC c

/-- Is the optional previous character a word character? -/
def prevIsWord : Option Char → Bool
  | none => false
  | some c => isPyWordC c

/-- Dispatch kind for the fuel-based matcher: a single expression, the
tail of an alternation, or the tail of a sequence. -/
inductive MKind where
  | one (r : RE)
  | altK (rs : List RE)
  | seqK (rs : List RE)

/-- The backtracking matcher.  Returns every way the expression can match
starting at the current position, in Python's backtracking priority order
(first element = the match `re.search` would commit to at this position).
`prev` is the character immediately before the current position (`none` at
the start of the subject).  Structural recursion on `fuel`; every
recursive call decreases it by one, so any fuel at least the size of the
expression is enough, and all patterns below are fixed and small. -/
def mrun : Nat → MKind → Option Char → List Char → List MRes
  | 0, _, _, _ => []
  | fuel + 1, .one r, prev, input =>
    match r with
    | .lit s ci =>
      match litMatch ci s input with
      | some rest => [⟨rest, prevAfter prev input s.length, none⟩]
      | none => []
    | .cls p lo hi =>
      let run := (input.takeWhile p).length
      let hi' := min run (hi.getD run)
      if lo ≤ hi' then (greedyCounts lo hi').map (clsRes prev input) else []
    | .clsLazy p lo hi =>
      let run := (input.takeWhile p).length
      let hi' := min run (hi.getD run)
      if lo ≤ hi' then (lazyCounts lo hi').map (clsRes prev input) else []
    | .alt xs => mrun fuel (.altK xs) prev input
    | .seq xs => mrun fuel (.seqK xs) prev input
    | .grp x =>
      (mrun fuel (.one x) prev input).map fun m =>
        ⟨m.rest, m.prev, some (input.take (input.length - m.rest.length))⟩
    | .look x =>
      if (mrun fuel (.one x) prev input).isEmpty then []
      else [⟨input, prev, none⟩]
    | .nlook x =>
      if (mrun fuel (.one x) prev input).isEmpty then [⟨input, prev, none⟩]
      else []
    | .wb =>
      if prevIsWord prev ≠ headIsWord input then [⟨input, prev, none⟩] else []
    | .bos =>
      if prev = none then [⟨input, prev, none⟩] else []
    | .bom =>
      if prev = none || prev = some '\n' then [⟨input, prev, none⟩] else []
    | .eos =>
      if input.isEmpty || input = ['\n'] then [⟨input, prev, none⟩] else []
  | _ + 1, .altK [], _, _ => []
  | fuel + 1, .altK (x :: xs), prev, input =>
    mrun fuel (.one x) prev input ++ mrun fuel (.altK xs) prev input
  | _ + 1, .seqK [], prev, input => [⟨input, prev, none⟩]
  | fuel + 1, .seqK (x :: xs), prev, input =>
    (mrun fuel (.one x) prev input).flatMap fun m =>
      (mrun fuel (.seqK xs) m.prev m.rest).map fun m2 =>
        ⟨m2.rest, m2.prev, capOr m.cap m2.cap⟩

/-- Fuel that is ample for every pattern used by the parser. -/
def mfuel : Nat := 500

/-- `re.search` scanning: try the pattern at each position from the left;
at the first position with a match, commit to the highest-priority one. -/
def researchAux (r : RE) : Option Char → List Char → Option MRes
  | prev, [] =>
    match mrun mfuel (.one r) prev [] with
    | m :: _ => some m
    | [] => none
  | prev, c :: rest =>
    match mrun mfuel (.one r) prev (c :: rest) with
    | m :: _ => some m
    | [] => researchAux r (some c) rest

/-- `re.search(pattern, s)`: the leftmost match, if any. -/
def research (r : RE) (s : String) : Option MRes :=
  researchAux r none s.data

/-- `match.group(1)` of a search result (empty when the group is absent). -/
def group1 (m : MRes) : String := String.mk (m.cap.getD [])

/-- `re.findall` with one group: all non-overlapping matches left to right,
continuing after each match end.  Fuel bounded by the input length plus
one suffices because every pattern it is used with consumes at least one
character. -/
def refindallAux (r : RE) : Nat → Option Char → List Char → List String
  | 0, _, _ => []
  | fuel + 1, prev, input =>
    match researchAux r prev input with
    | none => []
    | some m =>
      if m.rest.length < input.length then
        group1 m :: refindallAux r fuel m.prev m.rest
      else
        [group1 m]

/-- `re.findall(pattern, s)` for a pattern with one group. -/
def refindall (r : RE) (s : String) : List String :=
  refindallAux r (s.data.length + 1) none s.data

/-! ### Date formatting (`_format_date`, CPython `strptime`/`strftime`) -/

/-- Gregorian leap year (as Python's `datetime`). -/
def isLeap (y : Nat) : Bool := y % 4 = 0 && (y % 100 ≠ 0 || y % 400 = 0)

/-- Days in a month (as Python's `datetime`). -/
def daysInMonth (y m : Nat) : Nat :=
  if m = 2 then (if isLeap y then 29 else 28)
  else if m = 4 || m = 6 || m = 9 || m = 11 then 30 else 31

/-- Decimal value of a digit run. -/
def natVal (l : List Char) : Nat := l.foldl (fun a c => a * 10 + (c.toNat - 48)) 0

/-- Split `l` as exactly `digits sep digits sep digits`; the token
constraints of the `strptime` directives are checked by the caller. -/
def scanDMY (sep : Char) (l : List Char) : Option (List Char × List Char × List Char) :=
  let r1 := l.takeWhile Char.isDigit
  match l.dropWhile Char.isDigit with
  | c :: rest =>
    if c = sep then
      let r2 := rest.takeWhile Char.isDigit
      match rest.dropWhile Char.isDigit with
      | d :: rest2 =>
        if d = sep then
          let r3 := rest2.takeWhile Char.isDigit
          if (rest2.dropWhile Char.isDigit).isEmpty then some (r1, r2, r3) else none
        else none
      | [] => none
    else none
  | [] => none

/-- `strptime` directives `%d`, `%m`, `%Y`. -/
inductive DTok where
  | D
  | M
  | Y

/-- The digit-run shapes CPython's `_strptime` regexes accept for each
directive: `%d` is one or two digits valued 1..31, `%m` one or two digits
valued 1..12, `%Y` exactly four digits. -/
def tokOK : DTok → List Char → Bool
  | .D, l => (l.length = 1 || l.length = 2) && 1 ≤ natVal l && natVal l ≤ 31
  | .M, l => (l.length = 1 || l.length = 2) && 1 ≤ natVal l && natVal l ≤ 12
  | .Y, l => l.length = 4

/-- Read a `(day, month, year)` out of the three runs according to the
directive order of the format. -/
def assignDMY : DTok × DTok × DTok → List Char × List Char × List Char → Nat × Nat × Nat
  | (.D, _, _), (a, b, c) => (natVal a, natVal b, natVal c)
  | (.M, _, _), (a, b, c) => (natVal b, natVal a, natVal c)
  | (.Y, _, _), (a, b, c) => (natVal c, natVal b, natVal a)

/-- `datetime.strptime(s, fmt)` for the three-token formats
`_format_date` tries, followed by `datetime`'s own calendar validation
(a `ValueError` is modelled as `none`). -/
def strptime3 (t : DTok × DTok × DTok) (sep : Char) (l : List Char) : Option (Nat × Nat × Nat) :=
  match scanDMY sep l with
  | none => none
  | some (a, b, c) =>
    let (t1, t2, t3) := t
    if tokOK t1 a && tokOK t2 b && tokOK t3 c then
      let (d, m, y) := assignDMY t (a, b, c)
      if 1 ≤ y && 1 ≤ d && d ≤ daysInMonth y m then some (d, m, y) else none
    else none

/-- The format list of `_format_date`, in source order. -/
def dateFormats : List ((DTok × DTok × DTok) × Char) :=
  [((.D, .M, .Y), '/'), ((.D, .M, .Y), '-'), ((.D, .M, .Y), '.'),
   ((.M, .D, .Y), '/'), ((.M, .D, .Y), '-'),
   ((.Y, .M, .D), '/'), ((.Y, .M, .D), '-')]

/-- Try the formats in order, as the `for fmt in formats` loop does. -/
def tryFormats (l : List Char) : List ((DTok × DTok × DTok) × Char) → Option (Nat × Nat × Nat)
  | [] => none
  | (t, sep) :: rest =>
    match strptime3 t sep l with
    | some r => some r
    | none => tryFormats l rest

/-- The decimal digit character for `n < 10`. -/
def digitChar (n : Nat) : Char := Char.ofNat (48 + n)

/-- Two-digit zero-padded decimal (for `%d` and `%m` in `strftime`). -/
def pad2 (n : Nat) : List Char := [digitChar (n / 10 % 10), digitChar (n % 10)]

/-- Four-digit zero-padded decimal (for `%Y` in `strftime`). -/
def pad4 (n : Nat) : List Char :=
  [digitChar (n / 1000 % 10), digitChar (n / 100 % 10), digitChar (n / 10 % 10),
   digitChar (n % 10)]

/-- `date_obj.strftime(dd/mm/YYYY)`. -/
def strftimeDMY (d m y : Nat) : String :=
  String.mk (pad2 d ++ '/' :: (pad2 m ++ '/' :: pad4 y))

/-- `_format_date`: normalize a date string; if no format parses, the
original string is returned unchanged. -/
def formatDate (dateStr : String) : Option String :=
  if dateStr = "" then none
  else
    match tryFormats dateStr.data dateFormats with
    | some (d, m, y) => some (strftimeDMY d m y)
    | none => some dateStr

/-! ### Name formatting and validation -/

/-- `_format_name`: drop characters that are neither word characters nor
whitespace, strip, collapse inner whitespace, then title-case.  Python
returns `None` only for a falsy argument. -/
def formatName (name : String) : Option String :=
  if name = "" then none
  else
    let n1 := name.data.filter (fun c => isPyWordC c || isPySpace c)
    let n2 := collapseWsL (pyStripL n1)
    some (String.mk (pyTitleL n2))

/-- Number of ASCII letters (`sum(1 for c in name if c.isalpha())`). -/
def letterCount (l : List Char) : Nat := (l.filter Char.isAlpha).length

/-- `re.search` of the anchored all-digits pattern (caret, one-or-more
digits, dollar): true iff the string is a nonempty digit run, possibly
followed by one final newline (the dollar may stop before it). -/
def isAllDigitsRe (s : String) : Bool :=
  let core := if s.data.getLast? = some '\n' then s.data.dropLast else s.data
  !core.isEmpty && core.all Char.isDigit

/-- `re.search` of the anchored no-letters pattern (caret, zero-or-more
non-letters, dollar): since the class also matches newlines, this holds
iff the string contains no ASCII letter. -/
def noLettersRe (s : String) : Bool := s.data.all (fun c => !c.isAlpha)

/-- The boilerplate word list of `_is_valid_name` (and of the name filter
in `_extract_with_patterns`). -/
def nameBoiler : List String :=
  ["PAKISTAN", "IDENTITY", "CARD", "REPUBLIC", "GOVERNMENT", "NATIONAL", "COMPUTERIZED"]

/-- The boilerplate word list of the father-name filter in
`_extract_with_patterns`. -/
def fatherBoiler : List String :=
  ["PAKISTAN", "IDENTITY", "CARD", "REPUBLIC", "GOVERNMENT", "NATIONAL"]

/-- The field-keyword list of `_is_valid_name`. -/
def nameKeywords : List String := ["DATE", "BIRTH", "ISSUE", "EXPIRY", "GENDER", "COUNTRY"]

/-- `_is_valid_name`.  The 70 percent letter threshold is Python's
`letter_count >= len(name) * 0.7`; over the lengths that occur here the
float comparison agrees with the exact rational one used below. -/
def isValidName (name : String) : Bool :=
  if name = "" || (pyStripS name).length < 2 then false
  else if containsAnyCI name nameBoiler then false
  else if isAllDigitsRe name then false
  else if noLettersRe name then false
  else if containsAnyCI name nameKeywords then false
  else 10 * letterCount name.data ≥ 7 * name.length

/-! ### The record and the text normalizer -/

/-- The extracted record (`cnic_data` in `_parse_cnic_text_enhanced`):
eight fields, each a string or `None`. -/
structure CnicData where
  identity_number : Option String
  name : Option String
  father_name : Option String
  gender : Option String
  country_of_stay : Option String
  date_of_birth : Option String
  date_of_issue : Option String
  date_of_expiry : Option String
deriving DecidableEq, Repr

/-- The freshly initialized record: every field `None`. -/
def initData : CnicData := ⟨none, none, none, none, none, none, none, none⟩

/-- Field names of the record, for field-generic statements. -/
inductive Field where
  | identity_number
  | name
  | father_name
  | gender
  | country_of_stay
  | date_of_birth
  | date_of_issue
  | date_of_expiry
deriving DecidableEq

/-- Project a field out of a record. -/
def CnicData.get (r : CnicData) : Field → Option String
  | .identity_number => r.identity_number
  | .name => r.name
  | .father_name => r.father_name
  | .gender => r.gender
  | .country_of_stay => r.country_of_stay
  | .date_of_birth => r.date_of_birth
  | .date_of_issue => r.date_of_issue
  | .date_of_expiry => r.date_of_expiry

/-- Python truthiness of an optional string (`not result[field]` is true
for `None` and for the empty string). -/
def isFalsy : Option String → Bool
  | none => true
  | some s => s = ""

/-- The OCR-misread replacement table of `_clean_text`, in source order. -/
def replacements : List (String × String) :=
  [("Identily", "Identity"), ("ldentity", "Identity"), ("ldenity", "Identity"),
   ("Countly", "Country"), ("Fathel", "Father"), ("Gendet", "Gender"),
   ("Expily", "Expiry"), ("lssue", "Issue"), ("Blrth", "Birth"),
   ("Blth", "Birth"), ("Nalional", "National"), ("Natlonal", "National"),
   ("Paklstan", "Pakistan"), ("PAKLSTAN", "PAKISTAN"), ("S/o", "S/O"),
   ("D/o", "D/O"), ("W/o", "W/O")]

/-- `_clean_text`: collapse whitespace, then apply the replacement table. -/
def cleanText (text : String) : String :=
  replacements.foldl (fun acc pr => pyReplace acc pr.1 pr.2) (collapseWsS text)

/-! ### The regular expressions of the extraction strategies

All searches in `_extract_with_patterns` run with `re.IGNORECASE` (the
name patterns additionally with `re.MULTILINE`), so literals are
case-insensitive and the class `[A-Z]` of name pattern 3 matches any
ASCII letter.  The subject of these searches is always the output of
`_clean_text`, which contains no newline; the `$` and start anchors are
therefore modelled by `eos`, `bos` and `bom` above, whose behaviour
agrees with Python's on newline-free subjects. -/

/-- Case-insensitive literal. -/
def litci (s : String) : RE := .lit s.data true

/-- `\s*`. -/
def sp0 : RE := .cls isPySpace 0 none

/-- `\s+`. -/
def sp1 : RE := .cls isPySpace 1 none

/-- `[:\s]*`. -/
def colsp0 : RE := .cls isColonSp 0 none

/-- `[:\s]+`. -/
def colsp1 : RE := .cls isColonSp 1 none

/-- The empty expression, for the optional pieces written `(?:X)?`. -/
def eps : RE := .seq []

/-- The 13-digit CNIC shape: five digits, optional separator, seven
digits, optional separator, one digit. -/
def cnicCore : RE :=
  .seq [.cls Char.isDigit 5 (some 5), .cls isCnicSep 0 (some 1),
        .cls Char.isDigit 7 (some 7), .cls isCnicSep 0 (some 1),
        .cls Char.isDigit 1 (some 1)]

/-- `cnic_patterns`, in source order. -/
def cnicPatterns : List RE :=
  [.grp cnicCore,
   .grp (.cls Char.isDigit 13 (some 13)),
   .seq [.alt [.seq [litci "Identity", sp1, litci "Number"],
               .seq [litci "شناختی", sp1, litci "نمبر"]],
         colsp0, .grp cnicCore],
   .seq [.alt [litci "CNIC", litci "NIC"], colsp0, .grp cnicCore],
   .seq [litci "ID", colsp0, .grp cnicCore]]

/-- The name capture `[A-Za-z\s]` repeated 2 to 40 times. -/
def nameCap : RE := .grp (.cls isAlSp 2 (some 40))

/-- `name_patterns`, in source order. -/
def namePatterns : List RE :=
  [.seq [.alt [litci "Name", litci "اسم"], colsp0, nameCap,
         .look (.seq [sp0, .alt [litci "Father", litci "والد",
                                 litci "Gender", litci "جنس", .eos]])],
   .seq [.alt [litci "Holder", litci "Bearer"], colsp0, nameCap,
         .look (.seq [sp0, .alt [litci "Father", litci "والد", .eos]])],
   .seq [.alt [.bom, .lit ['\n'] false],
         .grp (.seq [.cls (fun c => c.isAlpha) 1 (some 1), .cls isAlSp 2 (some 39)]),
         .look (.seq [sp0, .alt [litci "Father", litci "والد",
                                 litci "S/O", litci "D/O"]])],
   .seq [litci "نام", colsp0, nameCap]]

/-- `father_patterns`, in source order. -/
def fatherPatterns : List RE :=
  [.seq [.alt [litci "Father", litci "والد"], .cls isColonSpAp 0 none,
         .alt [litci "Name", eps], colsp0, nameCap,
         .look (.seq [sp0, .alt [litci "Gender", litci "جنس",
                                 litci "Date", litci "Country", .eos]])],
   .seq [.alt [litci "S/O", litci "D/O", litci "W/O"], colsp0, nameCap,
         .look (.seq [sp0, .alt [litci "Gender", litci "Date",
                                 litci "Country", .eos]])],
   .seq [litci "والد", sp0, litci "کا", sp0, litci "نام", colsp0, nameCap],
   .seq [litci "Father", .cls (fun c => c = apos) 0 none, .alt [litci "s", eps],
         sp0, litci "Name", colsp0, nameCap]]

/-- `gender_patterns`, in source order. -/
def genderPatterns : List RE :=
  [.seq [.alt [litci "Gender", litci "جنس", litci "Sex"], colsp0,
         .grp (.alt [litci "Male", litci "Female", litci "M", litci "F",
                     litci "مرد", litci "عورت"]), .wb],
   .seq [.alt [.bos, .cls isPySpace 1 (some 1)],
         .grp (.alt [litci "Male", litci "Female"]), sp0,
         .alt [.eos, .cls isPySpace 1 (some 1)]],
   .seq [.alt [litci "Gender", litci "Sex"], colsp0,
         .grp (.alt [litci "MALE", litci "FEMALE"])]]

/-- A country pattern together with its Python source text, because the
country loop inspects `pattern.endswith` on the source text. -/
structure PatEntry where
  src : String
  re : RE

/-- `country_patterns`, in source order; the stored `src` strings are the
raw pattern texts from the source file. -/
def countryPatterns : List PatEntry :=
  [⟨"(?:Country\\s+of\\s+Stay|Country)[:\\s]*([A-Za-z\\s]+?)(?=\\s*(?:Identity|Date|Gender|$))",
    .seq [.alt [.seq [litci "Country", sp1, litci "of", sp1, litci "Stay"],
                litci "Country"],
          colsp0, .grp (.clsLazy isAlSp 1 none),
          .look (.seq [sp0, .alt [litci "Identity", litci "Date",
                                  litci "Gender", .eos]])]⟩,
   ⟨"(?:ملک)[:\\s]*([A-Za-z\\s]+?)(?=\\s*(?:شناختی|تاریخ|$))",
    .seq [litci "ملک", colsp0, .grp (.clsLazy isAlSp 1 none),
          .look (.seq [sp0, .alt [litci "شناختی", litci "تاریخ", .eos]])]⟩,
   ⟨"(?:Nationality)[:\\s]*([A-Za-z\\s]+)",
    .seq [litci "Nationality", colsp0, .grp (.cls isAlSp 1 none)]⟩,
   ⟨"(?:PAKISTAN|Pakistan|پاکستان)",
    .alt [litci "PAKISTAN", litci "Pakistan", litci "پاکستان"]⟩]

/-- The date token: one or two digits, separator, one or two digits,
separator, four digits. -/
def dateTok : RE :=
  .seq [.cls Char.isDigit 1 (some 2), .cls isDateSep 1 (some 1),
        .cls Char.isDigit 1 (some 2), .cls isDateSep 1 (some 1),
        .cls Char.isDigit 4 (some 4)]

/-- The captured date token. -/
def dateCap : RE := .grp dateTok

/-- `date_patterns` for `date_of_birth`, in source order. -/
def dobPatterns : List RE :=
  [.seq [.alt [.seq [litci "Date", sp1, litci "of", sp1, litci "Birth"],
               litci "Birth", .seq [litci "تاریخ", sp1, litci "پیدائش"],
               litci "DOB"], colsp0, dateCap],
   .seq [.alt [litci "Born", litci "B"], colsp0, dateCap]]

/-- `date_patterns` for `date_of_issue`, in source order. -/
def doiPatterns : List RE :=
  [.seq [.alt [.seq [litci "Date", sp1, litci "of", sp1, litci "Issue"],
               litci "Issue", .seq [litci "تاریخ", sp1, litci "اجراء"],
               litci "DOI"], colsp0, dateCap],
   .seq [.alt [litci "Issued", litci "I"], colsp0, dateCap]]

/-- `date_patterns` for `date_of_expiry`, in source order. -/
def doePatterns : List RE :=
  [.seq [.alt [.seq [litci "Date", sp1, litci "of", sp1, litci "Expiry"],
               litci "Expiry", .seq [litci "تاریخ", sp1, litci "ختم"],
               litci "DOE", .seq [litci "Valid", sp1, litci "Until"]],
         colsp0, dateCap],
   .seq [.alt [litci "Expires", litci "E"], colsp0, dateCap]]

/-- The label-anchored name pattern of `_extract_with_positions`. -/
def posNameRE : RE :=
  .seq [.alt [litci "name", litci "اسم", litci "holder"], colsp0,
        .grp (.cls isAlSp 1 none)]

/-- The label-anchored father pattern of `_extract_with_positions`. -/
def posFatherRE : RE :=
  .seq [.alt [litci "father", litci "والد", litci "s/o", litci "d/o"], colsp0,
        .grp (.cls isAlSp 1 none)]

/-- The same-line name pattern of `_extract_with_context`. -/
def ctxNameRE : RE :=
  .seq [litci "name", colsp1, .grp (.cls isAlSp 1 none)]

/-- The same-line father pattern of `_extract_with_context`. -/
def ctxFatherRE : RE :=
  .seq [litci "father", colsp1, .grp (.cls isAlSp 1 none)]

/-! ### Strategy 1: `_extract_with_patterns` -/

/-- `re.sub` removing dashes and whitespace (`[-\s]`). -/
def stripSeps (s : String) : String :=
  String.mk (s.data.filter (fun c => !isCnicSep c))

/-- The 5-7-1 dash formatting of a 13-digit number, on character lists
(`number[:5]`, `number[5:12]`, `number[12]` for a string of length 13). -/
def formatCnicL (l : List Char) : List Char :=
  l.take 5 ++ '-' :: ((l.drop 5).take 7 ++ '-' :: l.drop 12)

/-- The 5-7-1 dash formatting on strings. -/
def formatCnicS (s : String) : String := String.mk (formatCnicL s.data)

/-- The CNIC-number loop.  The `break` sits inside `if match and not
result`, outside the 13-digit test, so the first pattern that matches
while the field is falsy ends the loop whether or not it yields 13
digits; a match while the field is truthy does not break. -/
def cnicLoop (text : String) : List RE → Option String → Option String
  | [], cur => cur
  | p :: rest, cur =>
    match research p text with
    | some m =>
      if isFalsy cur then
        let number := stripSeps (group1 m)
        if number.length = 13 then some (formatCnicS number) else cur
      else cnicLoop text rest cur
    | none => cnicLoop text rest cur

/-- The name loop.  The `break` sits inside the boilerplate filter, so a
match whose candidate fails the filter lets the loop continue with the
next pattern; a passing candidate is assigned (whatever `_format_name`
returns) and the loop breaks. -/
def nameLoop (text : String) : List RE → Option String → Option String
  | [], cur => cur
  | p :: rest, cur =>
    match research p text with
    | some m =>
      if isFalsy cur then
        let name := pyStripS (group1 m)
        if !containsAnyCI name nameBoiler then formatName name
        else nameLoop text rest cur
      else nameLoop text rest cur
    | none => nameLoop text rest cur

/-- The father-name loop (same shape as the name loop, smaller filter). -/
def fatherLoop (text : String) : List RE → Option String → Option String
  | [], cur => cur
  | p :: rest, cur =>
    match research p text with
    | some m =>
      if isFalsy cur then
        let fatherName := pyStripS (group1 m)
        if !containsAnyCI fatherName fatherBoiler then formatName fatherName
        else fatherLoop text rest cur
      else fatherLoop text rest cur
    | none => fatherLoop text rest cur

/-- The gender loop: uppercase the captured token, then map the male and
the female token sets; the loop breaks after the first match while the
field is falsy, assigning nothing if the token fell in neither set. -/
def genderLoop (text : String) : List RE → Option String → Option String
  | [], cur => cur
  | p :: rest, cur =>
    match research p text with
    | some m =>
      if isFalsy cur then
        let g := pyUpperS (group1 m)
        if g = "MALE" || g = "M" || g = "مرد" then some "Male"
        else if g = "FEMALE" || g = "F" || g = "عورت" then some "Female"
        else cur
      else genderLoop text rest cur
    | none => genderLoop text rest cur

/-- The country loop: for a matching pattern whose source text ends in a
closing parenthesis (meant for the bare PAKISTAN pattern, but true of
every pattern in the list) the literal "Pakistan" is assigned; otherwise
the captured group is cleaned and assigned if it passes the filter.  The
loop breaks after the first match while the field is falsy. -/
def countryLoop (text : String) : List PatEntry → Option String → Option String
  | [], cur => cur
  | e :: rest, cur =>
    match research e.re text with
    | some m =>
      if isFalsy cur then
        if pyEndsWith e.src ")" then some "Pakistan"
        else
          let country := pyStripS (group1 m)
          if country ≠ "" && !containsAnyCI country ["IDENTITY", "NUMBER", "CARD"] then
            formatName country
          else cur
      else countryLoop text rest cur
    | none => countryLoop text rest cur

/-- A date-field loop: the first pattern that matches while the field is
falsy assigns `_format_date` of the capture and breaks. -/
def dateLoop (text : String) : List RE → Option String → Option String
  | [], cur => cur
  | p :: rest, cur =>
    match research p text with
    | some m =>
      if isFalsy cur then formatDate (group1 m)
      else dateLoop text rest cur
    | none => dateLoop text rest cur

/-- `_extract_with_patterns`: the six field loops in source order. -/
def extractWithPatterns (text : String) (r : CnicData) : CnicData :=
  let r := { r with identity_number := cnicLoop text cnicPatterns r.identity_number }
  let r := { r with name := nameLoop text namePatterns r.name }
  let r := { r with father_name := fatherLoop text fatherPatterns r.father_name }
  let r := { r with gender := genderLoop text genderPatterns r.gender }
  let r := { r with country_of_stay := countryLoop text countryPatterns r.country_of_stay }
  let r := { r with date_of_birth := dateLoop text dobPatterns r.date_of_birth }
  let r := { r with date_of_issue := dateLoop text doiPatterns r.date_of_issue }
  { r with date_of_expiry := dateLoop text doePatterns r.date_of_expiry }

/-! ### Strategy 2: `_extract_with_positions` -/

/-- The name half of one block-loop iteration. -/
def posStepName (blocks : List String) (i : Nat) (block : String) (r : CnicData) : CnicData :=
  let bl := pyLowerS block
  if (containsCI bl "name" || containsCI bl "اسم" || containsCI bl "holder")
      && isFalsy r.name then
    match research posNameRE block with
    | some m =>
      let name := pyStripS (group1 m)
      if isValidName name then { r with name := formatName name } else r
    | none =>
      if i + 1 < blocks.length then
        let nextBlock := pyStripS (blocks.getD (i + 1) "")
        if isValidName nextBlock then { r with name := formatName nextBlock } else r
      else r
  else r

/-- The father half of one block-loop iteration. -/
def posStepFather (blocks : List String) (i : Nat) (block : String) (r : CnicData) : CnicData :=
  let bl := pyLowerS block
  if (containsCI bl "father" || containsCI bl "والد" || containsCI bl "s/o"
      || containsCI bl "d/o") && isFalsy r.father_name then
    match research posFatherRE block with
    | some m =>
      let fatherName := pyStripS (group1 m)
      if isValidName fatherName then { r with father_name := formatName fatherName } else r
    | none =>
      if i + 1 < blocks.length then
        let nextBlock := pyStripS (blocks.getD (i + 1) "")
        if isValidName nextBlock then { r with father_name := formatName nextBlock } else r
      else r
  else r

/-- One iteration of the block loop: the name paragraph, then the father
paragraph on the possibly-updated record. -/
def posStep (blocks : List String) (i : Nat) (block : String) (r : CnicData) : CnicData :=
  posStepFather blocks i block (posStepName blocks i block r)

/-- The enumerated block loop. -/
def posLoop (blocks : List String) : Nat → List String → CnicData → CnicData
  | _, [], r => r
  | i, b :: rest, r => posLoop blocks (i + 1) rest (posStep blocks i b r)

/-- `_extract_with_positions`. -/
def extractWithPositions (blocks : List String) (r : CnicData) : CnicData :=
  posLoop blocks 0 blocks r

/-! ### Strategy 3: `_extract_with_context` -/

/-- Split a string at newline characters (Python `split` with a newline
argument: empty pieces are kept). -/
def splitNlAux (cur : List Char) : List Char → List String
  | [] => [String.mk cur.reverse]
  | c :: rest =>
    if c = '\n' then String.mk cur.reverse :: splitNlAux [] rest
    else splitNlAux (c :: cur) rest

/-- The line list of `_extract_with_context`: split at newlines, strip,
keep nonempty lines. -/
def ctxLines (text : String) : List String :=
  ((splitNlAux [] text.data).map pyStripS).filter (fun l => l ≠ "")

/-- The name half of one line-loop iteration. -/
def ctxStepName (lines : List String) (i : Nat) (line : String) (r : CnicData) : CnicData :=
  let ll := pyLowerS line
  if containsCI ll "name" && !containsCI ll "father" && isFalsy r.name then
    match research ctxNameRE line with
    | some m =>
      let name := pyStripS (group1 m)
      if isValidName name then { r with name := formatName name } else r
    | none =>
      if i + 1 < lines.length then
        let nextLine := lines.getD (i + 1) ""
        if isValidName nextLine then { r with name := formatName nextLine } else r
      else r
  else r

/-- The father half of one line-loop iteration. -/
def ctxStepFather (lines : List String) (i : Nat) (line : String) (r : CnicData) : CnicData :=
  let ll := pyLowerS line
  if containsCI ll "father" && isFalsy r.father_name then
    match research ctxFatherRE line with
    | some m =>
      let fatherName := pyStripS (group1 m)
      if isValidName fatherName then { r with father_name := formatName fatherName } else r
    | none =>
      if i + 1 < lines.length then
        let nextLine := lines.getD (i + 1) ""
        if isValidName nextLine then { r with father_name := formatName nextLine } else r
      else r
  else r

/-- One iteration of the line loop. -/
def ctxStep (lines : List String) (i : Nat) (line : String) (r : CnicData) : CnicData :=
  ctxStepFather lines i line (ctxStepName lines i line r)

/-- The enumerated line loop. -/
def ctxLoop (lines : List String) : Nat → List String → CnicData → CnicData
  | _, [], r => r
  | i, l :: rest, r => ctxLoop lines (i + 1) rest (ctxStep lines i l r)

/-- `_extract_with_context`. -/
def extractWithContext (text : String) (r : CnicData) : CnicData :=
  let lines := ctxLines text
  ctxLoop lines 0 lines r

/-! ### Strategy 4: `_fallback_extraction` -/

/-- Helper for `dedupKeepFirst`: `seen` holds the values already kept. -/
def dedupAux (seen : List String) : List String → List String
  | [] => []
  | x :: xs =>
    if seen.contains x then dedupAux seen xs
    else x :: dedupAux (x :: seen) xs

/-- Remove duplicates keeping the first occurrence
(`list(dict.fromkeys(xs))`). -/
def dedupKeepFirst (xs : List String) : List String := dedupAux [] xs

/-- The date fields in the fixed order of `date_fields`. -/
def dateFieldOrder : List Field := [.date_of_birth, .date_of_issue, .date_of_expiry]

/-- Set one field of the record. -/
def CnicData.set (r : CnicData) : Field → Option String → CnicData
  | .identity_number, v => { r with identity_number := v }
  | .name, v => { r with name := v }
  | .father_name, v => { r with father_name := v }
  | .gender, v => { r with gender := v }
  | .country_of_stay, v => { r with country_of_stay := v }
  | .date_of_birth, v => { r with date_of_birth := v }
  | .date_of_issue, v => { r with date_of_issue := v }
  | .date_of_expiry, v => { r with date_of_expiry := v }

/-- Positional assignment of fallback dates: the i-th still-empty date
field receives `_format_date` of the i-th unique date. -/
def assignFallbackDates (r : CnicData) : List Field → List String → CnicData
  | [], _ => r
  | _, [] => r
  | f :: fs, d :: ds => assignFallbackDates (r.set f (formatDate d)) fs ds

/-- The stoplist of the fallback name heuristic. -/
def fallbackStop : List String :=
  ["name", "father", "gender", "country", "identity", "date", "issue",
   "birth", "expiry", "pakistan", "card", "national"]

/-- Is a token a fallback name candidate (`word.istitle() and
len(word) > 2 and word.isalpha() and word.lower() not in stoplist`)? -/
def isNameWord (w : String) : Bool :=
  pyIsTitle w && w.length > 2 && pyIsAlphaStr w && !fallbackStop.contains (pyLowerS w)

/-- Is a token a fallback father-name candidate (`istitle`, `isalpha`,
length above 2)? -/
def isFatherWord (w : String) : Bool :=
  pyIsTitle w && pyIsAlphaStr w && w.length > 2

/-- The inner window scan of the father heuristic: collect consecutive
candidates; a non-candidate is skipped while nothing has been collected
and ends the run otherwise. -/
def collectRun (acc : List String) : List String → List String
  | [] => acc
  | w :: rest =>
    if isFatherWord w then collectRun (acc ++ [w]) rest
    else if !acc.isEmpty then acc
    else collectRun acc rest

/-- The outer scan of the father heuristic: at each position whose token
lower-cases to the first name word, scan the five tokens after the name
span; the first position yielding candidates wins. -/
def fatherScan (allWords : List String) (nw0lower : String) (nameLen : Nat) :
    List String → Nat → Option String
  | [], _ => none
  | w :: rest, i =>
    if pyLowerS w = nw0lower then
      let startPos := i + nameLen
      let window := (allWords.drop startPos).take 5
      let got := collectRun [] window
      if !got.isEmpty then some (joinSpS (got.take 3))
      else fatherScan allWords nw0lower nameLen rest (i + 1)
    else fatherScan allWords nw0lower nameLen rest (i + 1)

/-- The date phase of `_fallback_extraction`. -/
def fallbackDates (text : String) (r : CnicData) : CnicData :=
  let dateMatches := refindall dateCap text
  let uniqueDates := dedupKeepFirst dateMatches
  let emptyDateFields := dateFieldOrder.filter (fun f => isFalsy (r.get f))
  assignFallbackDates r emptyDateFields uniqueDates

/-- The name heuristic of `_fallback_extraction`. -/
def fallbackName (text : String) (r : CnicData) : CnicData :=
  if isFalsy r.name then
    let potentialNames := (pySplitWs text).filter isNameWord
    if !potentialNames.isEmpty then
      { r with name := some (joinSpS (potentialNames.take 3)) }
    else r
  else r

/-- The father heuristic of `_fallback_extraction`. -/
def fallbackFather (text : String) (r : CnicData) : CnicData :=
  if isFalsy r.father_name && !isFalsy r.name then
    let nameWords := pySplitWs ((r.name).getD "")
    match nameWords with
    | [] => r
    | nw0 :: _ =>
      let textWords := pySplitWs text
      match fatherScan textWords (pyLowerS nw0) nameWords.length textWords 0 with
      | some v => { r with father_name := some v }
      | none => r
  else r

/-- `_fallback_extraction`: positional dates, then the name heuristic,
then the father heuristic. -/
def fallbackExtraction (text : String) (r : CnicData) : CnicData :=
  fallbackFather text (fallbackName text (fallbackDates text r))

/-! ### `_cleanup_extracted_data` -/

/-- `re.sub` keeping only digits (the class of non-digits is removed). -/
def digitsOnly (s : String) : String := String.mk (s.data.filter Char.isDigit)

/-- Cleanup of one value: falsy values are left alone; otherwise the
value is whitespace-normalized, nulled when shorter than 2 or longer
than 50, and then subjected to the field-specific check. -/
def cleanupValue (key : Field) (v : Option String) : Option String :=
  match v with
  | none => none
  | some s =>
    if s = "" then some s
    else
      let s1 := pyStripS (joinSplitS s)
      let s2 : Option String :=
        if s1.length < 2 || s1.length > 50 then none else some s1
      match key with
      | .identity_number =>
        match s2 with
        | some t =>
          let numbersOnly := digitsOnly t
          if numbersOnly.length = 13 then some (formatCnicS numbersOnly) else none
        | none => none
      | .name =>
        match s2 with
        | some t => if isValidName t then some t else none
        | none => none
      | .father_name =>
        match s2 with
        | some t => if isValidName t then some t else none
        | none => none
      | _ => s2

/-- `_cleanup_extracted_data` over the whole record. -/
def cleanupExtractedData (r : CnicData) : CnicData :=
  ⟨cleanupValue .identity_number r.identity_number,
   cleanupValue .name r.name,
   cleanupValue .father_name r.father_name,
   cleanupValue .gender r.gender,
   cleanupValue .country_of_stay r.country_of_stay,
   cleanupValue .date_of_birth r.date_of_birth,
   cleanupValue .date_of_issue r.date_of_issue,
   cleanupValue .date_of_expiry r.date_of_expiry⟩

/-! ### The full parse and the confidence score -/

/-- `_parse_cnic_text_enhanced`: normalize, run the four strategies in
order on the accumulating record, then clean up. -/
def parseCnicTextEnhanced (text : String) (textBlocks : List String) : CnicData :=
  let text := cleanText text
  let r := initData
  let r := extractWithPatterns text r
  let r := extractWithPositions textBlocks r
  let r := extractWithContext text r
  let r := fallbackExtraction text r
  cleanupExtractedData r

/-- The keys of `parsed_data` as `extract_cnic_data` in src/app.py sees
them (the record built by `_parse_cnic_text_enhanced`). -/
def parsedKeys : List String :=
  ["identity_number", "name", "father_name", "gender", "country_of_stay",
   "date_of_birth", "date_of_issue", "date_of_expiry"]

/-- `total_fields`: every key except the excluded `signature_present`. -/
def totalFields : Nat := (parsedKeys.filter (fun k => k ≠ "signature_present")).length

/-- All field names, in record order. -/
def allFields : List Field :=
  [.identity_number, .name, .father_name, .gender, .country_of_stay,
   .date_of_birth, .date_of_issue, .date_of_expiry]

/-- `filled_fields`: values that are neither `None` nor the empty string. -/
def filledFields (r : CnicData) : Nat :=
  (allFields.filter (fun f => !isFalsy (r.get f))).length

/-- Round-half-to-even to an integer (Python `round` on our exactly
representable inputs). -/
def rhe (q : ℚ) : ℤ :=
  let f := ⌊q⌋
  if q - f < 1 / 2 then f
  else if q - f > 1 / 2 then f + 1
  else if f % 2 = 0 then f else f + 1

/-- Python `round(x, 2)` on the exactly representable scores that occur. -/
def pyRound2 (q : ℚ) : ℚ := (rhe (q * 100) : ℚ) / 100

/-- The confidence score computed by `extract_cnic_data` in src/app.py. -/
def confidenceScore (r : CnicData) : ℚ :=
  if 0 < totalFields then pyRound2 (((filledFields r : ℚ) / totalFields) * 100) else 0

/-! ### Proof-support definitions -/

/-- No whitespace characters at all. -/
def noWs (l : List Char) : Bool := l.all (fun c => !isPySpace c)

/-- Scanner for whitespace-normal form; `prevSpace` is true at the start
and right after a space, where a further space is not allowed.  A
whitespace character other than a plain space is never allowed, and the
list may not end right after a space. -/
def normAux : Bool → List Char → Bool
  | prevSpace, [] => !prevSpace
  | prevSpace, c :: rest =>
    if c = ' ' then !prevSpace && normAux true rest
    else !isPySpace c && normAux false rest

/-- Whitespace-normal form: no leading or trailing whitespace, no two
adjacent spaces, and every whitespace character is a plain space.  These
are exactly the fixed points of `' '.join(s.split())`. -/
def NormalB (l : List Char) : Bool := l.isEmpty || normAux true l

/-- A canonical identity number: filtering its digits yields 13 of them,
and dash-formatting those digits reproduces the value. -/
def CanonId (v : String) : Prop :=
  (digitsOnly v).length = 13 ∧ formatCnicS (digitsOnly v) = v

/-- The values the four strategies can place in a field: nonempty,
whitespace-normal, and canonical when the field is the identity number. -/
def NiceVal (f : Field) (v : String) : Prop :=
  v ≠ "" ∧ NormalB v.data = true ∧ (f = Field.identity_number → CanonId v)

/-- Every present field of the record is a `NiceVal`. -/
def NiceRec (r : CnicData) : Prop :=
  ∀ f v, r.get f = some v → NiceVal f v

/-- Every character an expression can consume satisfies `P`; only the
class and sequence formers occur under the capture groups used here. -/
inductive ConsOnly (P : Char → Bool) : RE → Prop where
  | cls (p : Char → Bool) (lo : Nat) (hi : Option Nat)
      (h : ∀ c, p c = true → P c = true) : ConsOnly P (.cls p lo hi)
  | clsLazy (p : Char → Bool) (lo : Nat) (hi : Option Nat)
      (h : ∀ c, p c = true → P c = true) : ConsOnly P (.clsLazy p lo hi)
  | seqNil : ConsOnly P (.seq [])
  | seqCons (x : RE) (xs : List RE) (hx : ConsOnly P x)
      (hxs : ConsOnly P (.seq xs)) : ConsOnly P (.seq (x :: xs))

/-- Every character a capture group of the expression can record
satisfies `P` (captures inside lookaheads are discarded by the matcher,
so lookaheads carry no condition). -/
inductive CapOnly (P : Char → Bool) : RE → Prop where
  | lit (s : List Char) (ci : Bool) : CapOnly P (.lit s ci)
  | cls (p : Char → Bool) (lo : Nat) (hi : Option Nat) : CapOnly P (.cls p lo hi)
  | clsLazy (p : Char → Bool) (lo : Nat) (hi : Option Nat) : CapOnly P (.clsLazy p lo hi)
  | altNil : CapOnly P (.alt [])
  | altCons (x : RE) (xs : List RE) (hx : CapOnly P x)
      (hxs : CapOnly P (.alt xs)) : CapOnly P (.alt (x :: xs))
  | seqNil : CapOnly P (.seq [])
  | seqCons (x : RE) (xs : List RE) (hx : CapOnly P x)
      (hxs : CapOnly P (.seq xs)) : CapOnly P (.seq (x :: xs))
  | grp (x : RE) (hx : ConsOnly P x) : CapOnly P (.grp x)
  | look (x : RE) : CapOnly P (.look x)
  | nlook (x : RE) : CapOnly P (.nlook x)
  | wb : CapOnly P .wb
  | bos : CapOnly P .bos
  | bom : CapOnly P .bom
  | eos : CapOnly P .eos

/-- The shape DDDDD-DDDDDDD-D: thirteen digits with dashes after the
fifth and the twelfth group. -/
def CnicFormatB (v : String) : Bool :=
  match v.data with
  | [a, b, c, d, e, s1, f, g, h, i, j, k, l, s2, m] =>
    [a, b, c, d, e, f, g, h, i, j, k, l, m].all Char.isDigit
      && s1 = '-' && s2 = '-'
  | _ => false

/-- Written from the specification sentence for the fallback date
assignment: walk the three date slots in the fixed order birth, issue,
expiry; a slot that already holds a value keeps it; a null slot receives
the next date of the pool (formatted), until the pool is exhausted. -/
def specFillDates : List (Option String) → List String → List (Option String)
  | [], _ => []
  | some v :: ss, ds => some v :: specFillDates ss ds
  | none :: ss, [] => none :: specFillDates ss []
  | none :: ss, d :: rest => formatDate d :: specFillDates ss rest

/-- `lastNotSpace m`: the final character, if any, is not whitespace. -/
def lastNotSpace (m : List Char) : Prop :=
  ∀ c, m.getLast? = some c → isPySpace c = false

/-- `ConsOnly` lifted to the matcher dispatch kinds. -/
def ConsOnlyK (P : Char → Bool) : MKind → Prop
  | .one r => ConsOnly P r
  | .altK rs => ∀ x ∈ rs, ConsOnly P x
  | .seqK rs => ∀ x ∈ rs, ConsOnly P x

/-- `CapOnly` lifted to the matcher dispatch kinds. -/
def CapOnlyK (P : Char → Bool) : MKind → Prop
  | .one r => CapOnly P r
  | .altK rs => ∀ x ∈ rs, CapOnly P x
  | .seqK rs => ∀ x ∈ rs, CapOnly P x

/-- The class of characters a CNIC capture may contain. -/
def isCnicChar (c : Char) : Bool := c.isDigit || isCnicSep c

/-- The class of characters a date capture may contain. -/
def isDateChar (c : Char) : Bool := c.isDigit || isDateSep c

/-- Shape of a strategy half that may only fill one target field with a
validated, formatted name. -/
def NameHalfSpec (target : Field) (r out : CnicData) : Prop :=
  ∃ n, out = r.set target n ∧
    (n = r.get target ∨
     (isFalsy (r.get target) = true ∧ ∃ v, n = some v ∧ v ≠ "" ∧ NormalB v.data = true))

/-- The record after strategy 1 (`_extract_with_patterns` on the cleaned
text, starting from the all-null record). -/
def stage1 (text : String) : CnicData :=
  extractWithPatterns (cleanText text) initData

/-- The record after strategy 2 (`_extract_with_positions` on the blocks). -/
def stage2 (text : String) (blocks : List String) : CnicData :=
  extractWithPositions blocks (stage1 text)

/-- The record after strategy 3 (`_extract_with_context` on the cleaned text). -/
def stage3 (text : String) (blocks : List String) : CnicData :=
  extractWithContext (cleanText text) (stage2 text blocks)

/-- The record accumulated by all four strategies, before the cleanup pass. -/
def preCleanup (text : String) (blocks : List String) : CnicData :=
  fallbackExtraction (cleanText text) (stage3 text blocks)

/-! ## Character-level lemmas -/

theorem toNat_space {c : Char} (hs : isPySpace c = true) : c.toNat ≤ 32 := by
  simp only [isPySpace, Bool.or_eq_true, decide_eq_true_eq] at hs
  rcases hs with ((((h | h) | h) | h) | h) | h <;> subst h <;> decide

theorem toNat_alpha {c : Char} (h : c.isAlpha = true) :
    65 ≤ c.toNat ∧ c.toNat ≤ 122 := by
  simp only [Char.isAlpha, Char.isUpper, Char.isLower, Bool.or_eq_true,
    Bool.and_eq_true, decide_eq_true_eq] at h
  rcases h with ⟨h1, h2⟩ | ⟨h1, h2⟩
  · have ha : (65 : Nat) ≤ c.toNat := h1
    have hb : c.toNat ≤ 90 := h2
    omega
  · have ha : (97 : Nat) ≤ c.toNat := h1
    have hb : c.toNat ≤ 122 := h2
    omega

theorem space_of_alpha {c : Char} (h : c.isAlpha = true) : isPySpace c = false := by
  cases hs : isPySpace c with
  | false => rfl
  | true => exact absurd (toNat_space hs) (by have := toNat_alpha h; omega)

theorem space_ofNat_false {m : Nat} (h1 : 65 ≤ m) (h2 : m ≤ 122) :
    isPySpace (Char.ofNat m) = false := by
  interval_cases m <;> decide

theorem space_toLower {c : Char} (h : c.isAlpha = true) :
    isPySpace c.toLower = false := by
  show isPySpace (if c.toNat ≥ 65 ∧ c.toNat ≤ 90 then Char.ofNat (c.toNat + 32) else c)
      = false
  obtain ⟨ha, hb⟩ := toNat_alpha h
  by_cases hr : c.toNat ≥ 65 ∧ c.toNat ≤ 90
  · rw [if_pos hr]
    apply space_ofNat_false <;> omega
  · rw [if_neg hr]
    exact space_of_alpha h

theorem space_toUpper {c : Char} (h : c.isAlpha = true) :
    isPySpace c.toUpper = false := by
  show isPySpace (if c.toNat ≥ 97 ∧ c.toNat ≤ 122 then Char.ofNat (c.toNat - 32) else c)
      = false
  obtain ⟨ha, hb⟩ := toNat_alpha h
  by_cases hr : c.toNat ≥ 97 ∧ c.toNat ≤ 122
  · rw [if_pos hr]
    apply space_ofNat_false <;> omega
  · rw [if_neg hr]
    exact space_of_alpha h

theorem space_of_digit {c : Char} (h : c.isDigit = true) : isPySpace c = false := by
  cases hs : isPySpace c with
  | false => rfl
  | true =>
    exfalso
    simp only [Char.isDigit, Bool.and_eq_true, decide_eq_true_eq] at h
    have h1 : (48 : Nat) ≤ c.toNat := h.1
    exact absurd (toNat_space hs) (by omega)

theorem alpha_of_alSp_of_not_space {c : Char} (h : isAlSp c = true)
    (hs : isPySpace c = false) : c.isAlpha = true := by
  simp only [isAlSp, Bool.or_eq_true] at h
  rcases h with h | h
  · exact h
  · rw [h] at hs
    exact absurd hs (by simp)

/-! ## Basic list lemmas -/

theorem dropWhile_head_not {p : Char → Bool} {l : List Char} {c : Char} {t : List Char}
    (h : l.dropWhile p = c :: t) : p c = false := by
  induction l with
  | nil => simp [List.dropWhile] at h
  | cons a as ih =>
    by_cases hp : p a = true
    · rw [List.dropWhile_cons_of_pos hp] at h
      exact ih h
    · rw [List.dropWhile_cons_of_neg hp] at h
      cases h
      simpa using hp

theorem all_of_dropWhile_nil {p : Char → Bool} {l : List Char}
    (h : l.dropWhile p = []) : ∀ c ∈ l, p c = true := by
  induction l with
  | nil => intro c hc; cases hc
  | cons a as ih =>
    intro c hc
    by_cases hp : p a = true
    · rw [List.dropWhile_cons_of_pos hp] at h
      rcases List.mem_cons.mp hc with hc | hc
      · rw [hc]; exact hp
      · exact ih h c hc
    · rw [List.dropWhile_cons_of_neg hp] at h
      cases h

theorem mem_dropWhile_of_not {p : Char → Bool} {l : List Char} {c : Char}
    (hc : c ∈ l) (hp : p c = false) : c ∈ l.dropWhile p := by
  induction l with
  | nil => cases hc
  | cons a as ih =>
    by_cases hpa : p a = true
    · rw [List.dropWhile_cons_of_pos hpa]
      rcases List.mem_cons.mp hc with hc | hc
      · rw [hc] at hp
        rw [hp] at hpa
        cases hpa
      · exact ih hc
    · rw [List.dropWhile_cons_of_neg hpa]
      exact hc

theorem dropWhile_ne_nil_of_mem {p : Char → Bool} {l : List Char} {c : Char}
    (hc : c ∈ l) (hp : p c = false) : l.dropWhile p ≠ [] := by
  intro h
  have := all_of_dropWhile_nil h c hc
  rw [hp] at this
  cases this

theorem mem_of_mem_dropWhile {p : Char → Bool} {l : List Char} {c : Char}
    (hc : c ∈ l.dropWhile p) : c ∈ l := by
  induction l with
  | nil => simp [List.dropWhile] at hc
  | cons a as ih =>
    by_cases hp : p a = true
    · rw [List.dropWhile_cons_of_pos hp] at hc
      exact List.mem_cons_of_mem a (ih hc)
    · rw [List.dropWhile_cons_of_neg hp] at hc
      exact hc

theorem getLast?_dropWhile {p : Char → Bool} {l : List Char}
    (h : l.dropWhile p ≠ []) : (l.dropWhile p).getLast? = l.getLast? := by
  induction l with
  | nil => simp [List.dropWhile] at h
  | cons a as ih =>
    by_cases hp : p a = true
    · rw [List.dropWhile_cons_of_pos hp] at h ⊢
      have has : as ≠ [] := by
        intro he
        rw [he] at h
        simp [List.dropWhile] at h
      rw [ih h, List.getLast?_cons]
      rcases hx : as.getLast? with _ | c
      · exact absurd (List.getLast?_eq_none_iff.mp hx) has
      · rfl
    · rw [List.dropWhile_cons_of_neg hp]

theorem stripL_head_not_space {l : List Char} {c : Char} {t : List Char}
    (h : pyStripL l = c :: t) : isPySpace c = false := by
  unfold pyStripL at h
  set m2 := (l.dropWhile isPySpace).reverse.dropWhile isPySpace with hm2
  have hne : m2 ≠ [] := by
    intro he
    rw [he] at h
    cases h
  have hlast : m2.getLast? = some c := by
    have hh : m2.reverse.head? = some c := by rw [h]; rfl
    rwa [List.head?_reverse] at hh
  have h2 : m2.getLast? = (l.dropWhile isPySpace).reverse.getLast? :=
    getLast?_dropWhile hne
  rw [hlast, List.getLast?_reverse] at h2
  rcases hd : l.dropWhile isPySpace with _ | ⟨d, t'⟩
  · rw [hd] at h2
    cases h2
  · rw [hd] at h2
    simp only [List.head?_cons] at h2
    cases h2
    exact dropWhile_head_not hd

theorem stripL_ne_nil {l : List Char} {c : Char} (hc : c ∈ l)
    (hp : isPySpace c = false) : pyStripL l ≠ [] := by
  unfold pyStripL
  intro h
  have h1 : (l.dropWhile isPySpace).reverse.dropWhile isPySpace = [] := by
    rcases he : (l.dropWhile isPySpace).reverse.dropWhile isPySpace with _ | _
    · rfl
    · rw [he] at h
      simp at h
  have hmem : c ∈ (l.dropWhile isPySpace).reverse :=
    List.mem_reverse.mpr (mem_dropWhile_of_not hc hp)
  have := all_of_dropWhile_nil h1 c hmem
  rw [hp] at this
  cases this

theorem mem_of_mem_stripL {l : List Char} {c : Char} (hc : c ∈ pyStripL l) : c ∈ l := by
  unfold pyStripL at hc
  rw [List.mem_reverse] at hc
  have h1 := mem_of_mem_dropWhile hc
  rw [List.mem_reverse] at h1
  exact mem_of_mem_dropWhile h1

/-! ## Whitespace-normal form -/

theorem space_eq_space : isPySpace ' ' = true := rfl

theorem ne_space_of_not_space {c : Char} (h : isPySpace c = false) : c ≠ ' ' := by
  intro he
  rw [he] at h
  cases h

theorem noWs_reverse {l : List Char} (h : noWs l = true) : noWs l.reverse = true := by
  apply List.all_eq_true.mpr
  intro x hx
  exact (List.all_eq_true.mp h) x (List.mem_reverse.mp hx)

theorem normAux_cons (b : Bool) (c : Char) (rest : List Char) :
    normAux b (c :: rest) =
      if c = ' ' then !b && normAux true rest else !isPySpace c && normAux false rest := rfl

theorem normAux_nil (b : Bool) : normAux b [] = !b := rfl

theorem splitWsAux_nil (cur : List Char) :
    splitWsAux cur [] = if cur.isEmpty then [] else [cur.reverse] := rfl

theorem splitWsAux_cons (cur : List Char) (c : Char) (rest : List Char) :
    splitWsAux cur (c :: rest) =
      if isPySpace c then
        if cur.isEmpty then splitWsAux [] rest else cur.reverse :: splitWsAux [] rest
      else splitWsAux (c :: cur) rest := rfl

theorem normAux_of_noWs {l : List Char} (h : noWs l = true) (hne : l ≠ []) (b : Bool) :
    normAux b l = true := by
  induction l generalizing b with
  | nil => exact absurd rfl hne
  | cons c rest ih =>
    have hc : isPySpace c = false := by
      have := (List.all_eq_true.mp h) c (List.mem_cons_self c rest)
      simpa using this
    have hrest : noWs rest = true := by
      apply List.all_eq_true.mpr
      intro x hx
      exact (List.all_eq_true.mp h) x (List.mem_cons_of_mem c hx)
    rw [normAux_cons, if_neg (ne_space_of_not_space hc), hc]
    rcases he : rest with _ | ⟨d, t⟩
    · rfl
    · simp only [Bool.not_false, Bool.true_and]
      rw [← he]
      exact ih hrest (by rw [he]; simp) false

theorem splitWsAux_ne_nil {l cur : List Char} (hcur : cur ≠ []) :
    splitWsAux cur l ≠ [] := by
  induction l generalizing cur with
  | nil =>
    rw [splitWsAux_nil, if_neg (by simpa using hcur)]
    simp
  | cons c rest ih =>
    rw [splitWsAux_cons]
    by_cases hp : isPySpace c = true
    · rw [if_pos hp, if_neg (by simpa using hcur)]
      simp
    · rw [if_neg hp]
      exact ih (by simp)

theorem splitWsAux_good {l : List Char} :
    ∀ cur, noWs cur = true → ∀ w ∈ splitWsAux cur l, w ≠ [] ∧ noWs w = true := by
  induction l with
  | nil =>
    intro cur hcur w hw
    rw [splitWsAux_nil] at hw
    by_cases hce : cur.isEmpty = true
    · rw [if_pos hce] at hw
      cases hw
    · rw [if_neg hce] at hw
      rcases List.mem_singleton.mp hw with rfl
      refine ⟨?_, noWs_reverse hcur⟩
      intro h
      exact hce (by simpa using congrArg List.reverse h)
  | cons c rest ih =>
    intro cur hcur w hw
    rw [splitWsAux_cons] at hw
    by_cases hp : isPySpace c = true
    · rw [if_pos hp] at hw
      by_cases hce : cur.isEmpty = true
      · rw [if_pos hce] at hw
        exact ih [] (by simp [noWs]) w hw
      · rw [if_neg hce] at hw
        rcases List.mem_cons.mp hw with rfl | hw
        · refine ⟨?_, noWs_reverse hcur⟩
          intro h
          exact hce (by simpa using congrArg List.reverse h)
        · exact ih [] (by simp [noWs]) w hw
    · rw [if_neg hp] at hw
      have hgood : noWs (c :: cur) = true := by
        simp only [noWs, List.all_cons, Bool.and_eq_true]
        exact ⟨by simp [hp], hcur⟩
      exact ih (c :: cur) hgood w hw

theorem pyWords_good {l : List Char} : ∀ w ∈ pyWords l, w ≠ [] ∧ noWs w = true :=
  splitWsAux_good [] (by simp [noWs])

theorem joinSp_cons {w : List Char} {ws : List (List Char)} (h : ws ≠ []) :
    joinSp (w :: ws) = w ++ ' ' :: joinSp ws := by
  rcases ws with _ | ⟨a, t⟩
  · exact absurd rfl h
  · rfl

theorem joinSp_ne_nil {ws : List (List Char)} (hne : ws ≠ [])
    (h : ∀ w ∈ ws, w ≠ []) : joinSp ws ≠ [] := by
  rcases ws with _ | ⟨a, t⟩
  · exact absurd rfl hne
  · rcases t with _ | _
    · exact h a (by simp)
    · show a ++ ' ' :: _ ≠ []
      rcases a with _ | _ <;> simp

theorem normAux_cons_elim {b : Bool} {c : Char} {rest : List Char}
    (h : normAux b (c :: rest) = true) :
    (c = ' ' ∧ b = false ∧ normAux true rest = true) ∨
    (c ≠ ' ' ∧ isPySpace c = false ∧ normAux false rest = true) := by
  rw [normAux_cons] at h
  by_cases hc : c = ' '
  · rw [if_pos hc] at h
    left
    refine ⟨hc, ?_, ?_⟩ <;> revert h <;> cases b <;> simp
  · rw [if_neg hc] at h
    right
    refine ⟨hc, ?_, ?_⟩ <;> revert h <;> cases hx : isPySpace c <;> simp

theorem joinSp_splitWsAux {l : List Char} :
    ∀ cur : List Char,
      (cur = [] → normAux true l = true) → (cur ≠ [] → normAux false l = true) →
      joinSp (splitWsAux cur l) = cur.reverse ++ l := by
  induction l with
  | nil =>
    intro cur h1 h2
    by_cases hce : cur = []
    · have := h1 hce
      rw [normAux_nil] at this
      cases this
    · rw [splitWsAux_nil, if_neg (by simpa using hce)]
      show joinSp [cur.reverse] = cur.reverse ++ []
      simp [joinSp]
  | cons c rest ih =>
    intro cur h1 h2
    by_cases hce : cur = []
    · subst hce
      rcases normAux_cons_elim (h1 rfl) with ⟨_, hb, _⟩ | ⟨hc, hsp, hrest⟩
      · cases hb
      · rw [splitWsAux_cons, if_neg (by simp [hsp])]
        have := ih [c] (by intro h; cases h) (fun _ => hrest)
        rw [this]
        simp
    · rcases normAux_cons_elim (h2 hce) with ⟨hc, _, hrest⟩ | ⟨hc, hsp, hrest⟩
      · subst hc
        rw [splitWsAux_cons, if_pos space_eq_space, if_neg (by simpa using hce)]
        obtain ⟨d, t, hdt⟩ : ∃ d t, rest = d :: t := by
          rcases rest with _ | ⟨d, t⟩
          · rw [normAux_nil] at hrest
            cases hrest
          · exact ⟨_, _, rfl⟩
        have hinner : joinSp (splitWsAux [] rest) = rest := by
          have := ih [] (fun _ => hrest) (fun h => absurd rfl h)
          simpa using this
        have hdns : isPySpace d = false := by
          rcases normAux_cons_elim (hdt ▸ hrest) with ⟨_, hb, _⟩ | ⟨_, hsp, _⟩
          · cases hb
          · exact hsp
        have hne2 : splitWsAux [] rest ≠ [] := by
          rw [hdt, splitWsAux_cons, if_neg (by simp [hdns])]
          exact splitWsAux_ne_nil (by simp)
        rw [joinSp_cons hne2, hinner]
      · rw [splitWsAux_cons, if_neg (by simp [hsp])]
        have := ih (c :: cur) (by intro h; cases h) (fun _ => hrest)
        rw [this]
        simp

theorem joinSplit_of_normal {l : List Char} (h : NormalB l = true) : joinSplitL l = l := by
  rcases l with _ | ⟨c, rest⟩
  · rfl
  · have hna : normAux true (c :: rest) = true := by
      unfold NormalB at h
      simpa using h
    unfold joinSplitL pyWords
    have := @joinSp_splitWsAux (c :: rest) [] (fun _ => hna) (fun h => absurd rfl h)
    simpa using this

theorem collapseWsAux_nil (b : Bool) : collapseWsAux b [] = [] := rfl

theorem collapseWsAux_cons (b : Bool) (c : Char) (rest : List Char) :
    collapseWsAux b (c :: rest) =
      if isPySpace c then
        if b then collapseWsAux true rest else ' ' :: collapseWsAux true rest
      else c :: collapseWsAux false rest := rfl

theorem lastNotSpace_tail {c : Char} {rest : List Char}
    (h : lastNotSpace (c :: rest)) : lastNotSpace rest := by
  intro x hx
  apply h
  rw [List.getLast?_cons, hx]
  rfl

theorem normAux_collapse {m : List Char} (hlast : lastNotSpace m) :
    (m ≠ [] → normAux true (collapseWsAux true m) = true) ∧
    normAux false (collapseWsAux false m) = true := by
  induction m with
  | nil => exact ⟨fun h => absurd rfl h, rfl⟩
  | cons c rest ih =>
    have htail := lastNotSpace_tail hlast
    obtain ⟨ih1, ih2⟩ := ih htail
    by_cases hp : isPySpace c = true
    · have hrne : rest ≠ [] := by
        intro he
        subst he
        have := hlast c (by rfl)
        rw [hp] at this
        cases this
      constructor
      · intro _
        rw [collapseWsAux_cons, if_pos hp, if_pos rfl]
        exact ih1 hrne
      · rw [collapseWsAux_cons, if_pos hp]
        simp only [Bool.false_eq_true, if_false]
        rw [normAux_cons, if_pos rfl]
        simpa using ih1 hrne
    · have hcs : c ≠ ' ' := ne_space_of_not_space (by simpa using hp)
      constructor
      · intro _
        rw [collapseWsAux_cons, if_neg hp, normAux_cons, if_neg hcs]
        simp only [hp]
        simpa using ih2
      · rw [collapseWsAux_cons, if_neg hp, normAux_cons, if_neg hcs]
        simp only [hp]
        simpa using ih2

theorem lastNotSpace_stripL (l : List Char) : lastNotSpace (pyStripL l) := by
  intro c hc
  unfold pyStripL at hc
  rw [List.getLast?_reverse] at hc
  rcases hd : (l.dropWhile isPySpace).reverse.dropWhile isPySpace with _ | ⟨d, t⟩
  · rw [hd] at hc
    cases hc
  · rw [hd] at hc
    simp only [List.head?_cons] at hc
    cases hc
    exact dropWhile_head_not hd

theorem normal_collapse_strip (l : List Char) :
    NormalB (collapseWsL (pyStripL l)) = true := by
  rcases hm : pyStripL l with _ | ⟨c, t⟩
  · rfl
  · have hlast : lastNotSpace (c :: t) := hm ▸ lastNotSpace_stripL l
    have hhead : isPySpace c = false := stripL_head_not_space hm
    unfold collapseWsL
    rw [collapseWsAux_cons, if_neg (by simp [hhead])]
    unfold NormalB
    simp only [List.isEmpty_cons, Bool.false_or]
    rw [normAux_cons, if_neg (ne_space_of_not_space hhead), hhead]
    simpa using (normAux_collapse (lastNotSpace_tail hlast)).2

theorem normAux_title {l : List Char} :
    ∀ ps b, normAux ps (pyTitleAux b l) = normAux ps l := by
  induction l with
  | nil => intro ps b; rfl
  | cons c rest ih =>
    intro ps b
    show normAux ps
        ((if c.isAlpha then (if b then c.toLower else c.toUpper) else c)
          :: pyTitleAux c.isAlpha rest) = _
    by_cases ha : c.isAlpha = true
    · rw [if_pos ha]
      have hcs : isPySpace c = false := space_of_alpha ha
      have hds : isPySpace (if b then c.toLower else c.toUpper) = false := by
        cases b
        · simpa using space_toUpper ha
        · simpa using space_toLower ha
      rw [normAux_cons, normAux_cons, if_neg (ne_space_of_not_space hds),
        if_neg (ne_space_of_not_space hcs), hds, hcs, ih]
    · rw [if_neg ha, normAux_cons, normAux_cons]
      by_cases hc : c = ' '
      · rw [if_pos hc, if_pos hc, ih]
      · rw [if_neg hc, if_neg hc, ih]

theorem normal_title {l : List Char} (h : NormalB l = true) :
    NormalB (pyTitleL l) = true := by
  rcases l with _ | ⟨c, rest⟩
  · rfl
  · unfold NormalB at h ⊢
    simp only [List.isEmpty_cons, Bool.false_or] at h
    have hx : normAux true (pyTitleL (c :: rest)) = true := by
      unfold pyTitleL
      rw [normAux_title]
      exact h
    exact Bool.or_eq_true_iff.mpr (Or.inr hx)

theorem normal_joinSp {ws : List (List Char)}
    (h : ∀ w ∈ ws, w ≠ [] ∧ noWs w = true) : NormalB (joinSp ws) = true := by
  induction ws with
  | nil => rfl
  | cons w tail ih =>
    rcases htail : tail with _ | ⟨a, t⟩
    · show NormalB w = true
      obtain ⟨hne, hnw⟩ := h w (by simp)
      unfold NormalB
      rcases w with _ | _
      · rfl
      · simpa using normAux_of_noWs hnw (by simp) true
    · rw [← htail, joinSp_cons (by rw [htail]; simp)]
      obtain ⟨hne, hnw⟩ := h w (by simp)
      have hJ : NormalB (joinSp tail) = true := by
        apply ih
        intro x hx
        exact h x (List.mem_cons_of_mem w hx)
      have hJne : joinSp tail ≠ [] := by
        apply joinSp_ne_nil (by rw [htail]; simp)
        intro x hx
        exact (h x (List.mem_cons_of_mem w hx)).1
      have hJtrue : normAux true (joinSp tail) = true := by
        unfold NormalB at hJ
        rcases hJ' : joinSp tail with _ | _
        · exact absurd hJ' hJne
        · rw [hJ'] at hJ
          simpa using hJ
      have happ : ∀ (w' : List Char) b, noWs w' = true → w' ≠ [] →
          normAux b (w' ++ ' ' :: joinSp tail) = true := by
        intro w'
        induction w' with
        | nil => intro b _ hne'; exact absurd rfl hne'
        | cons x xs ihw =>
          intro b hnw' _
          have hx : isPySpace x = false := by
            have := (List.all_eq_true.mp hnw') x (by simp)
            simpa using this
          have hxs : noWs xs = true := by
            apply List.all_eq_true.mpr
            intro y hy
            exact (List.all_eq_true.mp hnw') y (List.mem_cons_of_mem x hy)
          show normAux b (x :: (xs ++ ' ' :: joinSp tail)) = true
          rw [normAux_cons, if_neg (ne_space_of_not_space hx), hx]
          rcases xs with _ | ⟨y, ys⟩
          · show (!false && normAux false (' ' :: joinSp tail)) = true
            rw [normAux_cons, if_pos rfl]
            simpa using hJtrue
          · simpa using ihw false hxs (by simp)
      unfold NormalB
      have := happ w true hnw hne
      rcases hw : w ++ ' ' :: joinSp tail with _ | _
      · simp at hw
      · rw [← hw]
        simp only [Bool.or_eq_true]
        right
        exact this

theorem normal_joinSplit (l : List Char) : NormalB (joinSplitL l) = true :=
  normal_joinSp pyWords_good

theorem joinSplit_idem (l : List Char) : joinSplitL (joinSplitL l) = joinSplitL l :=
  joinSplit_of_normal (normal_joinSplit l)

theorem lastNotSpace_of_normAux {l : List Char} :
    ∀ b, normAux b l = true → lastNotSpace l := by
  induction l with
  | nil => intro b _ c hc; cases hc
  | cons c rest ih =>
    intro b h x hx
    rw [List.getLast?_cons] at hx
    rcases normAux_cons_elim h with ⟨hc, _, hrest⟩ | ⟨_, hsp, hrest⟩
    · have hrne : rest ≠ [] := by
        intro he
        subst he
        rw [normAux_nil] at hrest
        cases hrest
      rcases hg : rest.getLast? with _ | y
      · exact absurd (List.getLast?_eq_none_iff.mp hg) hrne
      · rw [hg] at hx
        simp only [Option.getD_some, Option.some.injEq] at hx
        subst hx
        exact ih true hrest y hg
    · rcases hg : rest.getLast? with _ | y
      · rw [hg] at hx
        simp only [Option.getD_none, Option.some.injEq] at hx
        subst hx
        exact hsp
      · rw [hg] at hx
        simp only [Option.getD_some, Option.some.injEq] at hx
        subst hx
        exact ih false hrest y hg

theorem normal_head_not_space {c : Char} {rest : List Char}
    (h : NormalB (c :: rest) = true) : isPySpace c = false := by
  unfold NormalB at h
  simp only [List.isEmpty_cons, Bool.false_or] at h
  rcases normAux_cons_elim h with ⟨hc, hb, _⟩ | ⟨_, hsp, _⟩
  · cases hb
  · exact hsp

theorem dropWhile_of_head_neg {p : Char → Bool} {l : List Char}
    (h : ∀ c t, l = c :: t → p c = false) : l.dropWhile p = l := by
  rcases hl : l with _ | ⟨c, t⟩
  · rfl
  · rw [List.dropWhile_cons_of_neg]
    rw [h c t hl]
    simp

theorem strip_of_normal {m : List Char} (h : NormalB m = true) : pyStripL m = m := by
  unfold pyStripL
  have h1 : m.dropWhile isPySpace = m := by
    apply dropWhile_of_head_neg
    intro c t hct
    exact normal_head_not_space (hct ▸ h)
  rw [h1]
  have h2 : m.reverse.dropWhile isPySpace = m.reverse := by
    apply dropWhile_of_head_neg
    intro c t hct
    have hlast : m.getLast? = some c := by
      rw [← List.head?_reverse, hct]
      rfl
    rcases hm : m with _ | ⟨a, r⟩
    · rw [hm] at hlast
      cases hlast
    · unfold NormalB at h
      rw [hm] at h hlast
      simp only [List.isEmpty_cons, Bool.false_or] at h
      exact lastNotSpace_of_normAux true h c hlast
  rw [h2, List.reverse_reverse]

theorem noWs_normal {l : List Char} (h : noWs l = true) : NormalB l = true := by
  rcases l with _ | ⟨c, t⟩
  · rfl
  · unfold NormalB
    simpa using normAux_of_noWs h (by simp) true

theorem noWs_joinSplit_fix {l : List Char} (h : noWs l = true) : joinSplitL l = l :=
  joinSplit_of_normal (noWs_normal h)

theorem strip_joinSplit (l : List Char) : pyStripL (joinSplitL l) = joinSplitL l :=
  strip_of_normal (normal_joinSplit l)

/-! ## String bridges and producer lemmas -/

theorem data_mk (l : List Char) : (String.mk l).data = l := rfl

theorem mk_ne_empty {l : List Char} (h : l ≠ []) : String.mk l ≠ "" := by
  intro he
  exact h (congrArg String.data he)

theorem pyTitleAux_cons (b : Bool) (c : Char) (rest : List Char) :
    pyTitleAux b (c :: rest) =
      (if c.isAlpha then (if b then c.toLower else c.toUpper) else c)
        :: pyTitleAux c.isAlpha rest := rfl

theorem ne_empty_data {s : String} (h : s ≠ "") : s.data ≠ [] := by
  intro he
  apply h
  cases s
  simp only [data_mk] at he
  rw [he]

theorem formatName_some {s : String} (hne : s ≠ "")
    (hal : ∃ c ∈ s.data, c.isAlpha = true) :
    ∃ t, formatName s = some t ∧ t ≠ "" ∧ NormalB t.data = true := by
  obtain ⟨c, hc, hca⟩ := hal
  unfold formatName
  rw [if_neg hne]
  refine ⟨_, rfl, ?_, ?_⟩
  · have hc1 : c ∈ s.data.filter (fun c => isPyWordC c || isPySpace c) := by
      apply List.mem_filter.mpr
      refine ⟨hc, ?_⟩
      simp only [Bool.or_eq_true]
      left
      simp [isPyWordC, hca]
    have hcs : isPySpace c = false := space_of_alpha hca
    have hstrip : pyStripL (s.data.filter (fun c => isPyWordC c || isPySpace c)) ≠ [] :=
      stripL_ne_nil hc1 hcs
    rcases hm : pyStripL (s.data.filter (fun c => isPyWordC c || isPySpace c)) with _ | ⟨c0, t0⟩
    · exact absurd hm hstrip
    · have hc0 : isPySpace c0 = false := stripL_head_not_space hm
      apply mk_ne_empty
      unfold pyTitleL collapseWsL
      rw [collapseWsAux_cons, if_neg (by simp [hc0]), pyTitleAux_cons]
      simp
  · rw [data_mk]
    exact normal_title (normal_collapse_strip _)

theorem formatName_cases (s : String) :
    formatName s = none ∨
    ∃ t, formatName s = some t ∧ NormalB t.data = true := by
  unfold formatName
  by_cases h : s = ""
  · rw [if_pos h]
    exact Or.inl rfl
  · rw [if_neg h]
    exact Or.inr ⟨_, rfl, by rw [data_mk]; exact normal_title (normal_collapse_strip _)⟩

theorem space_ofNat_false' {m : Nat} (h1 : 33 ≤ m) (h2 : m ≤ 122) :
    isPySpace (Char.ofNat m) = false := by
  interval_cases m <;> decide

theorem digitChar_not_space (n : Nat) : isPySpace (digitChar (n % 10)) = false := by
  unfold digitChar
  have := @Nat.mod_lt n 10 (by omega)
  apply space_ofNat_false' <;> omega

theorem noWs_pad2 (n : Nat) : noWs (pad2 n) = true := by
  unfold pad2
  simp only [noWs, List.all_cons, List.all_nil, Bool.and_eq_true]
  refine ⟨?_, ?_, trivial⟩ <;> simp [digitChar_not_space]

theorem noWs_pad4 (n : Nat) : noWs (pad4 n) = true := by
  unfold pad4
  simp only [noWs, List.all_cons, List.all_nil, Bool.and_eq_true]
  refine ⟨?_, ?_, ?_, ?_, trivial⟩ <;> simp [digitChar_not_space]

theorem noWs_append {a b : List Char} (ha : noWs a = true) (hb : noWs b = true) :
    noWs (a ++ b) = true := by
  simp only [noWs, List.all_append, Bool.and_eq_true]
  exact ⟨ha, hb⟩

theorem noWs_strftime (d m y : Nat) : noWs (strftimeDMY d m y).data = true := by
  unfold strftimeDMY
  rw [data_mk]
  apply noWs_append (noWs_pad2 d)
  show noWs ('/' :: (pad2 m ++ '/' :: pad4 y)) = true
  simp only [noWs, List.all_cons, Bool.and_eq_true]
  refine ⟨by decide, ?_⟩
  have := @noWs_append (pad2 m) ('/' :: pad4 y) (noWs_pad2 m) ?_
  · simpa [noWs] using this
  · simp only [noWs, List.all_cons, Bool.and_eq_true]
    exact ⟨by decide, noWs_pad4 y⟩

theorem strftime_ne_empty (d m y : Nat) : strftimeDMY d m y ≠ "" := by
  apply mk_ne_empty
  unfold pad2
  simp

theorem formatDate_noWs {s : String} (hno : noWs s.data = true) :
    formatDate s = none ∨
    ∃ t, formatDate s = some t ∧ t ≠ "" ∧ NormalB t.data = true := by
  unfold formatDate
  by_cases h : s = ""
  · rw [if_pos h]
    exact Or.inl rfl
  · rw [if_neg h]
    rcases tryFormats s.data dateFormats with _ | ⟨d, m, y⟩
    · exact Or.inr ⟨s, rfl, h, noWs_normal hno⟩
    · exact Or.inr ⟨_, rfl, strftime_ne_empty d m y,
        noWs_normal (noWs_strftime d m y)⟩

theorem pySplitWs_good {s : String} :
    ∀ w ∈ pySplitWs s, w.data ≠ [] ∧ noWs w.data = true := by
  intro w hw
  unfold pySplitWs at hw
  rcases List.mem_map.mp hw with ⟨tok, htok, rfl⟩
  rw [data_mk]
  exact pyWords_good tok htok

theorem joinSpS_good {ws : List String} (hne : ws ≠ [])
    (h : ∀ w ∈ ws, w.data ≠ [] ∧ noWs w.data = true) :
    joinSpS ws ≠ "" ∧ NormalB (joinSpS ws).data = true := by
  unfold joinSpS
  constructor
  · apply mk_ne_empty
    apply joinSp_ne_nil
    · simpa using hne
    · intro x hx
      rcases List.mem_map.mp hx with ⟨w, hw, rfl⟩
      exact (h w hw).1
  · rw [data_mk]
    apply normal_joinSp
    intro x hx
    rcases List.mem_map.mp hx with ⟨w, hw, rfl⟩
    exact h w hw

theorem digit_ne_dash {c : Char} (h : c.isDigit = true) : ¬(c = '-') := by
  intro he
  subst he
  cases h

theorem digit_not_cnicSep {c : Char} (h : c.isDigit = true) : isCnicSep c = false := by
  unfold isCnicSep
  simp [digit_ne_dash h, space_of_digit h]

theorem filter_digits_of_all {l : List Char} (hd : ∀ c ∈ l, c.isDigit = true) :
    l.filter Char.isDigit = l :=
  List.filter_eq_self.mpr (fun c hc => hd c hc)

theorem formatCnicL_decomp (l : List Char) :
    formatCnicL l = l.take 5 ++ '-' :: ((l.drop 5).take 7 ++ '-' :: l.drop 12) := rfl

theorem take_drop_parts (l : List Char) :
    l.take 5 ++ ((l.drop 5).take 7 ++ (l.drop 5).drop 7) = l := by
  rw [List.take_append_drop, List.take_append_drop]

theorem digitsOnly_formatCnic {l : List Char}
    (hd : ∀ c ∈ l, c.isDigit = true) :
    (formatCnicL l).filter Char.isDigit = l := by
  rw [formatCnicL_decomp, List.filter_append, List.filter_cons, List.filter_append,
    List.filter_cons]
  have hdash : ('-' : Char).isDigit = false := by decide
  rw [hdash]
  simp only [Bool.false_eq_true, if_false]
  have h1 : (l.take 5).filter Char.isDigit = l.take 5 :=
    filter_digits_of_all (fun c hc => hd c (List.mem_of_mem_take hc))
  have h2 : ((l.drop 5).take 7).filter Char.isDigit = (l.drop 5).take 7 :=
    filter_digits_of_all
      (fun c hc => hd c (List.mem_of_mem_drop (List.mem_of_mem_take hc)))
  have h3 : (l.drop 12).filter Char.isDigit = l.drop 12 :=
    filter_digits_of_all (fun c hc => hd c (List.mem_of_mem_drop hc))
  rw [h1, h2, h3]
  have : (l.drop 5).drop 7 = l.drop 12 := by
    rw [List.drop_drop]
  rw [← this, take_drop_parts]

theorem noWs_formatCnicL {l : List Char} (hd : ∀ c ∈ l, c.isDigit = true) :
    noWs (formatCnicL l) = true := by
  apply List.all_eq_true.mpr
  intro c hc
  rw [formatCnicL_decomp] at hc
  have hdashns : isPySpace '-' = false := by decide
  simp only [List.mem_append, List.mem_cons] at hc
  rcases hc with hc | rfl | hc | rfl | hc
  · simpa using space_of_digit (hd c (List.mem_of_mem_take hc))
  · simpa using hdashns
  · simpa using space_of_digit (hd c (List.mem_of_mem_drop (List.mem_of_mem_take hc)))
  · simpa using hdashns
  · simpa using space_of_digit (hd c (List.mem_of_mem_drop hc))

theorem canonId_formatCnic {l : List Char} (h13 : l.length = 13)
    (hd : ∀ c ∈ l, c.isDigit = true) :
    CanonId (formatCnicS (String.mk l)) := by
  have hdig : digitsOnly (formatCnicS (String.mk l)) = String.mk l := by
    unfold digitsOnly formatCnicS
    rw [data_mk, data_mk]
    rw [digitsOnly_formatCnic hd]
  constructor
  · rw [hdig]
    show (String.mk l).data.length = 13
    rw [data_mk]
    exact h13
  · rw [hdig]

theorem formatCnicS_ne_empty (s : String) : formatCnicS s ≠ "" := by
  apply mk_ne_empty
  rw [formatCnicL_decomp]
  rcases s.data.take 5 with _ | _ <;> simp

theorem niceVal_formatCnic {l : List Char} (h13 : l.length = 13)
    (hd : ∀ c ∈ l, c.isDigit = true) (f : Field) :
    NiceVal f (formatCnicS (String.mk l)) := by
  refine ⟨formatCnicS_ne_empty _, ?_, fun _ => canonId_formatCnic h13 hd⟩
  show NormalB (formatCnicL l) = true
  exact noWs_normal (noWs_formatCnicL hd)

/-! ## Matcher lemmas: suffixes and capture classes -/

theorem litMatch_suffix {ci : Bool} :
    ∀ {s input rest : List Char}, litMatch ci s input = some rest →
      ∃ pre, input = pre ++ rest := by
  intro s
  induction s with
  | nil =>
    intro input rest h
    cases h
    exact ⟨[], rfl⟩
  | cons c cs ih =>
    intro input rest h
    rcases input with _ | ⟨d, ds⟩
    · cases h
    · unfold litMatch at h
      by_cases he : (if ci then c.toLower = d.toLower else c = d) = true
      · rw [if_pos (by simpa using he)] at h
        obtain ⟨pre, hpre⟩ := ih h
        exact ⟨d :: pre, by rw [hpre]; rfl⟩
      · rw [if_neg (by simpa using he)] at h
        cases h

theorem greedyCounts_le {lo hi x : Nat} (hx : x ∈ greedyCounts lo hi) : x ≤ hi := by
  unfold greedyCounts at hx
  rcases List.mem_map.mp hx with ⟨t, _, rfl⟩
  omega

theorem lazyCounts_le {lo hi x : Nat} (hx : x ∈ lazyCounts lo hi) : x ≤ hi := by
  unfold lazyCounts at hx
  rcases List.mem_map.mp hx with ⟨t, ht, rfl⟩
  have := List.mem_range.mp ht
  omega

/-- The remainder of every match is a suffix of the input. -/
theorem mrun_suffix :
    ∀ (fuel : Nat) (k : MKind) (prev : Option Char) (input : List Char) (m : MRes),
      m ∈ mrun fuel k prev input → ∃ pre, input = pre ++ m.rest := by
  intro fuel
  induction fuel with
  | zero => intro k prev input m hm; simp [mrun] at hm
  | succ fuel ih =>
    intro k prev input m hm
    match k with
    | .one r =>
      match r with
      | .lit s ci =>
        simp only [mrun] at hm
        rcases hl : litMatch ci s input with _ | rest
        · rw [hl] at hm
          cases hm
        · rw [hl] at hm
          rcases List.mem_singleton.mp hm with rfl
          exact litMatch_suffix hl
      | .cls p lo hi =>
        simp only [mrun] at hm
        by_cases hc : lo ≤ min (input.takeWhile p).length (hi.getD (input.takeWhile p).length)
        · rw [if_pos hc] at hm
          rcases List.mem_map.mp hm with ⟨x, _, rfl⟩
          exact ⟨input.take x, (List.take_append_drop x input).symm⟩
        · rw [if_neg hc] at hm
          cases hm
      | .clsLazy p lo hi =>
        simp only [mrun] at hm
        by_cases hc : lo ≤ min (input.takeWhile p).length (hi.getD (input.takeWhile p).length)
        · rw [if_pos hc] at hm
          rcases List.mem_map.mp hm with ⟨x, _, rfl⟩
          exact ⟨input.take x, (List.take_append_drop x input).symm⟩
        · rw [if_neg hc] at hm
          cases hm
      | .alt xs =>
        simp only [mrun] at hm
        exact ih (.altK xs) prev input m hm
      | .seq xs =>
        simp only [mrun] at hm
        exact ih (.seqK xs) prev input m hm
      | .grp x =>
        simp only [mrun] at hm
        rcases List.mem_map.mp hm with ⟨m', hm', rfl⟩
        exact ih (.one x) prev input m' hm'
      | .look x =>
        simp only [mrun] at hm
        by_cases he : (mrun fuel (.one x) prev input).isEmpty = true
        · rw [if_pos he] at hm
          cases hm
        · rw [if_neg he] at hm
          rcases List.mem_singleton.mp hm with rfl
          exact ⟨[], rfl⟩
      | .nlook x =>
        simp only [mrun] at hm
        by_cases he : (mrun fuel (.one x) prev input).isEmpty = true
        · rw [if_pos he] at hm
          rcases List.mem_singleton.mp hm with rfl
          exact ⟨[], rfl⟩
        · rw [if_neg he] at hm
          cases hm
      | .wb =>
        simp only [mrun] at hm
        by_cases he : (prevIsWord prev ≠ headIsWord input)
        · rw [if_pos he] at hm
          rcases List.mem_singleton.mp hm with rfl
          exact ⟨[], rfl⟩
        · rw [if_neg he] at hm
          cases hm
      | .bos =>
        simp only [mrun] at hm
        by_cases he : prev = none
        · rw [if_pos he] at hm
          rcases List.mem_singleton.mp hm with rfl
          exact ⟨[], rfl⟩
        · rw [if_neg he] at hm
          cases hm
      | .bom =>
        simp only [mrun] at hm
        by_cases he : (prev = none || prev = some '\n') = true
        · rw [if_pos he] at hm
          rcases List.mem_singleton.mp hm with rfl
          exact ⟨[], rfl⟩
        · rw [if_neg he] at hm
          cases hm
      | .eos =>
        simp only [mrun] at hm
        by_cases he : (input.isEmpty || input = ['\n']) = true
        · rw [if_pos he] at hm
          rcases List.mem_singleton.mp hm with rfl
          exact ⟨[], rfl⟩
        · rw [if_neg he] at hm
          cases hm
    | .altK [] =>
      simp [mrun] at hm
    | .altK (x :: xs) =>
      simp only [mrun, List.mem_append] at hm
      rcases hm with hm | hm
      · exact ih (.one x) prev input m hm
      · exact ih (.altK xs) prev input m hm
    | .seqK [] =>
      simp only [mrun] at hm
      rcases List.mem_singleton.mp hm with rfl
      exact ⟨[], rfl⟩
    | .seqK (x :: xs) =>
      simp only [mrun, List.mem_flatMap] at hm
      rcases hm with ⟨m1, hm1, hm2⟩
      rcases List.mem_map.mp hm2 with ⟨m2, hm2', rfl⟩
      obtain ⟨pre1, hpre1⟩ := ih (.one x) prev input m1 hm1
      obtain ⟨pre2, hpre2⟩ := ih (.seqK xs) m1.prev m1.rest m2 hm2'
      exact ⟨pre1 ++ pre2, by rw [hpre1, hpre2, List.append_assoc]⟩

theorem consOnly_seq_mem {P : Char → Bool} {xs : List RE}
    (h : ConsOnly P (.seq xs)) : ∀ x ∈ xs, ConsOnly P x := by
  induction xs with
  | nil => intro x hx; cases hx
  | cons a t ih =>
    intro x hx
    cases h with
    | seqCons _ _ ha ht =>
      rcases List.mem_cons.mp hx with rfl | hx
      · exact ha
      · exact ih ht x hx

theorem capOnly_alt_mem {P : Char → Bool} {xs : List RE}
    (h : CapOnly P (.alt xs)) : ∀ x ∈ xs, CapOnly P x := by
  induction xs with
  | nil => intro x hx; cases hx
  | cons a t ih =>
    intro x hx
    cases h with
    | altCons _ _ ha ht =>
      rcases List.mem_cons.mp hx with rfl | hx
      · exact ha
      · exact ih ht x hx

theorem capOnly_seq_mem {P : Char → Bool} {xs : List RE}
    (h : CapOnly P (.seq xs)) : ∀ x ∈ xs, CapOnly P x := by
  induction xs with
  | nil => intro x hx; cases hx
  | cons a t ih =>
    intro x hx
    cases h with
    | seqCons _ _ ha ht =>
      rcases List.mem_cons.mp hx with rfl | hx
      · exact ha
      · exact ih ht x hx

theorem pre_eq_take {input pre rest : List Char} (h : input = pre ++ rest) :
    pre = input.take (input.length - rest.length) := by
  subst h
  have : (pre ++ rest).length - rest.length = pre.length := by
    simp [List.length_append]
  rw [this]
  rw [List.take_left]

theorem take_takeWhile_all {p : Char → Bool} {input : List Char} {k : Nat}
    (hk : k ≤ (input.takeWhile p).length) :
    ∀ c ∈ input.take k, p c = true := by
  intro c hc
  obtain ⟨t, ht⟩ := (show List.IsPrefix (input.takeWhile p) input from List.takeWhile_prefix p)
  have h1 : input.take k = (input.takeWhile p).take k := by
    conv_lhs => rw [← ht]
    rw [List.take_append_of_le_length hk]
  rw [h1] at hc
  exact List.mem_takeWhile_imp (List.mem_of_mem_take hc)

/-- Character classes are respected by everything a `ConsOnly` expression
consumes. -/
theorem mrun_consumed_class {P : Char → Bool} :
    ∀ (fuel : Nat) (k : MKind) (prev : Option Char) (input : List Char) (m : MRes),
      m ∈ mrun fuel k prev input → ConsOnlyK P k →
      ∀ pre, input = pre ++ m.rest → ∀ c ∈ pre, P c = true := by
  intro fuel
  induction fuel with
  | zero => intro k prev input m hm; simp [mrun] at hm
  | succ fuel ih =>
    intro k prev input m hm hk
    match k with
    | .one r =>
      match r with
      | .lit s ci => exact absurd hk (by intro h; cases h)
      | .cls p lo hi =>
        simp only [mrun] at hm
        by_cases hc : lo ≤ min (input.takeWhile p).length (hi.getD (input.takeWhile p).length)
        · rw [if_pos hc] at hm
          rcases List.mem_map.mp hm with ⟨x, hx, rfl⟩
          intro pre hpre c hcpre
          have hxle : x ≤ (input.takeWhile p).length := by
            have := greedyCounts_le hx
            omega
          have hxlen : x ≤ input.length := by
            have := List.IsPrefix.length_le (show List.IsPrefix (input.takeWhile p) input from List.takeWhile_prefix p)
            omega
          have hpre' : pre = input.take x := by
            have := pre_eq_take hpre
            rw [this]
            show input.take (input.length - (input.drop x).length) = input.take x
            rw [List.length_drop]
            congr 1
            omega
          have hP : p c = true := take_takeWhile_all hxle c (hpre' ▸ hcpre)
          cases hk with
          | cls _ _ _ h => exact h c hP
        · rw [if_neg hc] at hm
          cases hm
      | .clsLazy p lo hi =>
        simp only [mrun] at hm
        by_cases hc : lo ≤ min (input.takeWhile p).length (hi.getD (input.takeWhile p).length)
        · rw [if_pos hc] at hm
          rcases List.mem_map.mp hm with ⟨x, hx, rfl⟩
          intro pre hpre c hcpre
          have hxle : x ≤ (input.takeWhile p).length := by
            have := lazyCounts_le hx
            omega
          have hxlen : x ≤ input.length := by
            have := List.IsPrefix.length_le (show List.IsPrefix (input.takeWhile p) input from List.takeWhile_prefix p)
            omega
          have hpre' : pre = input.take x := by
            have := pre_eq_take hpre
            rw [this]
            show input.take (input.length - (input.drop x).length) = input.take x
            rw [List.length_drop]
            congr 1
            omega
          have hP : p c = true := take_takeWhile_all hxle c (hpre' ▸ hcpre)
          cases hk with
          | clsLazy _ _ _ h => exact h c hP
        · rw [if_neg hc] at hm
          cases hm
      | .alt xs => exact absurd hk (by intro h; cases h)
      | .seq xs =>
        simp only [mrun] at hm
        exact ih (.seqK xs) prev input m hm (consOnly_seq_mem hk)
      | .grp x => exact absurd hk (by intro h; cases h)
      | .look x => exact absurd hk (by intro h; cases h)
      | .nlook x => exact absurd hk (by intro h; cases h)
      | .wb => exact absurd hk (by intro h; cases h)
      | .bos => exact absurd hk (by intro h; cases h)
      | .bom => exact absurd hk (by intro h; cases h)
      | .eos => exact absurd hk (by intro h; cases h)
    | .altK rs =>
      match rs with
      | [] => simp [mrun] at hm
      | x :: xs =>
        simp only [mrun, List.mem_append] at hm
        rcases hm with hm | hm
        · exact ih (.one x) prev input m hm (hk x (by simp))
        · exact ih (.altK xs) prev input m hm (fun y hy => hk y (List.mem_cons_of_mem x hy))
    | .seqK rs =>
      match rs with
      | [] =>
        simp only [mrun] at hm
        rcases List.mem_singleton.mp hm with rfl
        intro pre hpre c hcpre
        have : pre = [] := by
          have hl := congrArg List.length hpre
          simp only [List.length_append] at hl
          have : pre.length = 0 := by omega
          exact List.length_eq_zero.mp this
        rw [this] at hcpre
        cases hcpre
      | x :: xs =>
        simp only [mrun, List.mem_flatMap] at hm
        rcases hm with ⟨m1, hm1, hm2⟩
        rcases List.mem_map.mp hm2 with ⟨m2, hm2', rfl⟩
        intro pre hpre c hcpre
        obtain ⟨pre1, hpre1⟩ := mrun_suffix fuel (.one x) prev input m1 hm1
        obtain ⟨pre2, hpre2⟩ := mrun_suffix fuel (.seqK xs) m1.prev m1.rest m2 hm2'
        have hcomb : input = (pre1 ++ pre2) ++ m2.rest := by
          rw [hpre1, hpre2, List.append_assoc]
        have hpre_eq : pre = pre1 ++ pre2 := by
          have h1 : pre ++ m2.rest = (pre1 ++ pre2) ++ m2.rest := by
            rw [← hpre]
            exact hcomb
          exact List.append_inj_left' h1 rfl
        rw [hpre_eq] at hcpre
        rcases List.mem_append.mp hcpre with hc1 | hc2
        · exact ih (.one x) prev input m1 hm1 (hk x (by simp)) pre1 hpre1 c hc1
        · exact ih (.seqK xs) m1.prev m1.rest m2 hm2'
            (fun y hy => hk y (List.mem_cons_of_mem x hy)) pre2 hpre2 c hc2

/-- Character classes are respected by everything a capture group of a
`CapOnly` expression records. -/
theorem mrun_cap_class {P : Char → Bool} :
    ∀ (fuel : Nat) (k : MKind) (prev : Option Char) (input : List Char) (m : MRes),
      m ∈ mrun fuel k prev input → CapOnlyK P k →
      ∀ cap, m.cap = some cap → ∀ c ∈ cap, P c = true := by
  intro fuel
  induction fuel with
  | zero => intro k prev input m hm; simp [mrun] at hm
  | succ fuel ih =>
    intro k prev input m hm hk
    match k with
    | .one r =>
      match r with
      | .lit s ci =>
        simp only [mrun] at hm
        rcases hl : litMatch ci s input with _ | rest
        · rw [hl] at hm
          cases hm
        · rw [hl] at hm
          rcases List.mem_singleton.mp hm with rfl
          intro cap hcap
          cases hcap
      | .cls p lo hi =>
        simp only [mrun] at hm
        by_cases hc : lo ≤ min (input.takeWhile p).length (hi.getD (input.takeWhile p).length)
        · rw [if_pos hc] at hm
          rcases List.mem_map.mp hm with ⟨x, _, rfl⟩
          intro cap hcap
          cases hcap
        · rw [if_neg hc] at hm
          cases hm
      | .clsLazy p lo hi =>
        simp only [mrun] at hm
        by_cases hc : lo ≤ min (input.takeWhile p).length (hi.getD (input.takeWhile p).length)
        · rw [if_pos hc] at hm
          rcases List.mem_map.mp hm with ⟨x, _, rfl⟩
          intro cap hcap
          cases hcap
        · rw [if_neg hc] at hm
          cases hm
      | .alt xs =>
        simp only [mrun] at hm
        exact ih (.altK xs) prev input m hm (capOnly_alt_mem hk)
      | .seq xs =>
        simp only [mrun] at hm
        exact ih (.seqK xs) prev input m hm (capOnly_seq_mem hk)
      | .grp x =>
        simp only [mrun] at hm
        rcases List.mem_map.mp hm with ⟨m', hm', rfl⟩
        intro cap hcap c hc
        simp only [Option.some.injEq] at hcap
        subst hcap
        obtain ⟨pre, hpre⟩ := mrun_suffix fuel (.one x) prev input m' hm'
        have hx : ConsOnly P x := by
          cases hk with
          | grp _ hx => exact hx
        have hpre_take : input.take (input.length - m'.rest.length) = pre :=
          (pre_eq_take hpre).symm
        rw [hpre_take] at hc
        exact mrun_consumed_class fuel (.one x) prev input m' hm' hx pre hpre c hc
      | .look x =>
        simp only [mrun] at hm
        by_cases he : (mrun fuel (.one x) prev input).isEmpty = true
        · rw [if_pos he] at hm
          cases hm
        · rw [if_neg he] at hm
          rcases List.mem_singleton.mp hm with rfl
          intro cap hcap
          cases hcap
      | .nlook x =>
        simp only [mrun] at hm
        by_cases he : (mrun fuel (.one x) prev input).isEmpty = true
        · rw [if_pos he] at hm
          rcases List.mem_singleton.mp hm with rfl
          intro cap hcap
          cases hcap
        · rw [if_neg he] at hm
          cases hm
      | .wb =>
        simp only [mrun] at hm
        by_cases he : (prevIsWord prev ≠ headIsWord input)
        · rw [if_pos he] at hm
          rcases List.mem_singleton.mp hm with rfl
          intro cap hcap
          cases hcap
        · rw [if_neg he] at hm
          cases hm
      | .bos =>
        simp only [mrun] at hm
        by_cases he : prev = none
        · rw [if_pos he] at hm
          rcases List.mem_singleton.mp hm with rfl
          intro cap hcap
          cases hcap
        · rw [if_neg he] at hm
          cases hm
      | .bom =>
        simp only [mrun] at hm
        by_cases he : (prev = none || prev = some '\n') = true
        · rw [if_pos he] at hm
          rcases List.mem_singleton.mp hm with rfl
          intro cap hcap
          cases hcap
        · rw [if_neg he] at hm
          cases hm
      | .eos =>
        simp only [mrun] at hm
        by_cases he : (input.isEmpty || input = ['\n']) = true
        · rw [if_pos he] at hm
          rcases List.mem_singleton.mp hm with rfl
          intro cap hcap
          cases hcap
        · rw [if_neg he] at hm
          cases hm
    | .altK rs =>
      match rs with
      | [] => simp [mrun] at hm
      | x :: xs =>
        simp only [mrun, List.mem_append] at hm
        rcases hm with hm | hm
        · exact ih (.one x) prev input m hm (hk x (by simp))
        · exact ih (.altK xs) prev input m hm (fun y hy => hk y (List.mem_cons_of_mem x hy))
    | .seqK rs =>
      match rs with
      | [] =>
        simp only [mrun] at hm
        rcases List.mem_singleton.mp hm with rfl
        intro cap hcap
        cases hcap
      | x :: xs =>
        simp only [mrun, List.mem_flatMap] at hm
        rcases hm with ⟨m1, hm1, hm2⟩
        rcases List.mem_map.mp hm2 with ⟨m2, hm2', rfl⟩
        intro cap hcap c hc
        rcases hc1 : m1.cap with _ | cap1
        · have : capOr m1.cap m2.cap = m2.cap := by rw [hc1]; rfl
          rw [this] at hcap
          exact ih (.seqK xs) m1.prev m1.rest m2 hm2'
            (fun y hy => hk y (List.mem_cons_of_mem x hy)) cap hcap c hc
        · have : capOr m1.cap m2.cap = some cap1 := by rw [hc1]; rfl
          rw [this] at hcap
          simp only [Option.some.injEq] at hcap
          subst hcap
          exact ih (.one x) prev input m1 hm1 (hk x (by simp)) cap1 hc1 c hc

theorem researchAux_nil (r : RE) (prev : Option Char) :
    researchAux r prev [] =
      (match mrun mfuel (.one r) prev [] with
       | m :: _ => some m
       | [] => none) := by
  simp only [researchAux]

theorem researchAux_cons (r : RE) (prev : Option Char) (c : Char) (rest : List Char) :
    researchAux r prev (c :: rest) =
      (match mrun mfuel (.one r) prev (c :: rest) with
       | m :: _ => some m
       | [] => researchAux r (some c) rest) := by
  simp only [researchAux]

/-- Inversion for `researchAux`: a match comes either from the current
position or, after a failure here, from the scan of the tail. -/
theorem researchAux_mem {r : RE} {prev : Option Char} {input : List Char} {m : MRes}
    (h : researchAux r prev input = some m) :
    m ∈ mrun mfuel (.one r) prev input ∨
    ∃ c rest, input = c :: rest ∧ researchAux r (some c) rest = some m := by
  rcases input with _ | ⟨c, rest⟩
  · rw [researchAux_nil] at h
    rcases hr : mrun mfuel (.one r) prev [] with _ | ⟨m0, t⟩
    · rw [hr] at h
      exact Option.noConfusion (show (none : Option MRes) = some m from h)
    · rw [hr] at h
      have h2 : some m0 = some m := h
      cases h2
      exact Or.inl (List.mem_cons_self _ _)
  · rw [researchAux_cons] at h
    rcases hr : mrun mfuel (.one r) prev (c :: rest) with _ | ⟨m0, t⟩
    · rw [hr] at h
      exact Or.inr ⟨c, rest, rfl, h⟩
    · rw [hr] at h
      have h2 : some m0 = some m := h
      cases h2
      exact Or.inl (List.mem_cons_self _ _)

/-- The capture-class property carried through the scan of `re.search`. -/
theorem researchAux_cap_class {P : Char → Bool} {r : RE} (hc : CapOnly P r) :
    ∀ (input : List Char) (prev : Option Char) (m : MRes),
      researchAux r prev input = some m →
      ∀ cap, m.cap = some cap → ∀ c ∈ cap, P c = true := by
  intro input
  induction input with
  | nil =>
    intro prev m h
    rcases researchAux_mem h with hm | ⟨c, rest, hin, _⟩
    · exact mrun_cap_class mfuel (.one r) prev [] m hm hc
    · cases hin
  | cons c0 rest ih =>
    intro prev m h
    rcases researchAux_mem h with hm | ⟨c, rest', hin, h2⟩
    · exact mrun_cap_class mfuel (.one r) prev (c0 :: rest) m hm hc
    · cases hin
      exact ih (some c0) m h2

/-- The capture class at the `re.search` wrapper. -/
theorem research_group1_class {P : Char → Bool} {r : RE} {s : String} {m : MRes}
    (hc : CapOnly P r) (h : research r s = some m) :
    ∀ c ∈ (group1 m).data, P c = true := by
  intro c hcc
  unfold group1 at hcc
  rw [data_mk] at hcc
  rcases hcap : m.cap with _ | cap
  · rw [hcap] at hcc
    cases hcc
  · rw [hcap] at hcc
    exact researchAux_cap_class hc s.data none m h cap hcap c hcc

theorem refindallAux_succ (r : RE) (fuel : Nat) (prev : Option Char) (input : List Char) :
    refindallAux r (fuel + 1) prev input =
      (match researchAux r prev input with
       | none => []
       | some m =>
         if m.rest.length < input.length then
           group1 m :: refindallAux r fuel m.prev m.rest
         else [group1 m]) := rfl

/-- The capture class for every string `re.findall` returns. -/
theorem refindall_class {P : Char → Bool} {r : RE} (hc : CapOnly P r) :
    ∀ (fuel : Nat) (prev : Option Char) (input : List Char) (w : String),
      w ∈ refindallAux r fuel prev input → ∀ c ∈ w.data, P c = true := by
  intro fuel
  induction fuel with
  | zero => intro prev input w hw; simp [refindallAux] at hw
  | succ fuel ih =>
    intro prev input w hw
    rw [refindallAux_succ] at hw
    rcases hr : researchAux r prev input with _ | m
    · rw [hr] at hw
      have hw' : w ∈ ([] : List String) := hw
      cases hw'
    · rw [hr] at hw
      have hg : ∀ c ∈ (group1 m).data, P c = true := by
        intro c hcc
        unfold group1 at hcc
        rw [data_mk] at hcc
        rcases hcap : m.cap with _ | cap
        · rw [hcap] at hcc
          cases hcc
        · rw [hcap] at hcc
          exact researchAux_cap_class hc input prev m hr cap hcap c hcc
      have hw' : w ∈ (if m.rest.length < input.length then
          group1 m :: refindallAux r fuel m.prev m.rest else [group1 m]) := hw
      by_cases hlt : m.rest.length < input.length
      · rw [if_pos hlt] at hw'
        rcases List.mem_cons.mp hw' with rfl | hw''
        · exact hg
        · exact ih m.prev m.rest w hw''
      · rw [if_neg hlt] at hw'
        rcases List.mem_singleton.mp hw' with rfl
        exact hg

/-! ## The concrete patterns respect their capture classes -/

theorem capOnly_namePatterns : ∀ p ∈ namePatterns, CapOnly isAlSp p := by
  intro p hp
  simp only [namePatterns, nameCap, litci, colsp0, sp0, List.mem_cons,
    List.not_mem_nil, or_false] at hp
  rcases hp with rfl | rfl | rfl | rfl
  all_goals repeat' constructor
  all_goals intro c h
  all_goals first
    | exact h
    | (simp only [isAlSp, Bool.or_eq_true]; exact Or.inl h)

theorem capOnly_fatherPatterns : ∀ p ∈ fatherPatterns, CapOnly isAlSp p := by
  intro p hp
  simp only [fatherPatterns, nameCap, litci, colsp0, sp0, eps, List.mem_cons,
    List.not_mem_nil, or_false] at hp
  rcases hp with rfl | rfl | rfl | rfl
  all_goals repeat' constructor
  all_goals intro c h
  all_goals exact h

theorem capOnly_cnicPatterns : ∀ p ∈ cnicPatterns, CapOnly isCnicChar p := by
  intro p hp
  simp only [cnicPatterns, cnicCore, litci, colsp0, sp1, List.mem_cons,
    List.not_mem_nil, or_false] at hp
  rcases hp with rfl | rfl | rfl | rfl | rfl
  all_goals repeat' constructor
  all_goals intro c h
  all_goals simp only [isCnicChar, Bool.or_eq_true]
  all_goals first
    | exact Or.inl h
    | exact Or.inr h

theorem capOnly_dateCap : CapOnly isDateChar dateCap := by
  simp only [dateCap, dateTok]
  repeat' constructor
  all_goals intro c h
  all_goals simp only [isDateChar, Bool.or_eq_true]
  all_goals first
    | exact Or.inl h
    | exact Or.inr h

theorem capOnly_dobPatterns : ∀ p ∈ dobPatterns, CapOnly isDateChar p := by
  intro p hp
  simp only [dobPatterns, dateCap, dateTok, litci, colsp0, sp1, List.mem_cons,
    List.not_mem_nil, or_false] at hp
  rcases hp with rfl | rfl
  all_goals repeat' constructor
  all_goals intro c h
  all_goals simp only [isDateChar, Bool.or_eq_true]
  all_goals first
    | exact Or.inl h
    | exact Or.inr h

theorem capOnly_doiPatterns : ∀ p ∈ doiPatterns, CapOnly isDateChar p := by
  intro p hp
  simp only [doiPatterns, dateCap, dateTok, litci, colsp0, sp1, List.mem_cons,
    List.not_mem_nil, or_false] at hp
  rcases hp with rfl | rfl
  all_goals repeat' constructor
  all_goals intro c h
  all_goals simp only [isDateChar, Bool.or_eq_true]
  all_goals first
    | exact Or.inl h
    | exact Or.inr h

theorem capOnly_doePatterns : ∀ p ∈ doePatterns, CapOnly isDateChar p := by
  intro p hp
  simp only [doePatterns, dateCap, dateTok, litci, colsp0, sp1, List.mem_cons,
    List.not_mem_nil, or_false] at hp
  rcases hp with rfl | rfl
  all_goals repeat' constructor
  all_goals intro c h
  all_goals simp only [isDateChar, Bool.or_eq_true]
  all_goals first
    | exact Or.inl h
    | exact Or.inr h

theorem capOnly_posNameRE : CapOnly isAlSp posNameRE := by
  simp only [posNameRE, litci, colsp0]
  repeat' constructor
  intro c h
  exact h

theorem capOnly_posFatherRE : CapOnly isAlSp posFatherRE := by
  simp only [posFatherRE, litci, colsp0]
  repeat' constructor
  intro c h
  exact h

theorem capOnly_ctxNameRE : CapOnly isAlSp ctxNameRE := by
  simp only [ctxNameRE, litci, colsp1]
  repeat' constructor
  intro c h
  exact h

theorem capOnly_ctxFatherRE : CapOnly isAlSp ctxFatherRE := by
  simp only [ctxFatherRE, litci, colsp1]
  repeat' constructor
  intro c h
  exact h

/-! ## Values the strategies can produce -/

theorem mk_data (s : String) : String.mk s.data = s := by cases s; rfl

theorem isFalsy_some_ne {v : String} (hv : v ≠ "") : isFalsy (some v) = false := by
  simp [isFalsy, hv]

theorem validName_facts {x : String} (hv : isValidName x = true) :
    x ≠ "" ∧ noLettersRe x = false ∧ 2 ≤ (pyStripS x).length := by
  unfold isValidName at hv
  split_ifs at hv with h1 h2 h3 h4 h5
  simp only [Bool.or_eq_true, decide_eq_true_eq, not_or, not_lt] at h1
  refine ⟨h1.1, by simpa using h4, h1.2⟩

theorem exists_alpha_of_not_noLetters {x : String} (h : noLettersRe x = false) :
    ∃ c ∈ x.data, c.isAlpha = true := by
  unfold noLettersRe at h
  by_contra hc
  push_neg at hc
  have : x.data.all (fun c => !c.isAlpha) = true := by
    apply List.all_eq_true.mpr
    intro c hcm
    have := hc c hcm
    simp only [Bool.not_eq_true] at this ⊢
    simp [this]
  rw [this] at h
  cases h

/-- `_format_name` of a validated candidate always succeeds with a
nonempty whitespace-normal value. -/
theorem formatName_of_validName {x : String} (hv : isValidName x = true) :
    ∃ t, formatName x = some t ∧ t ≠ "" ∧ NormalB t.data = true := by
  obtain ⟨hne, hnl, _⟩ := validName_facts hv
  exact formatName_some hne (exists_alpha_of_not_noLetters hnl)

/-- `_format_name` of the stripped capture of a letters-and-spaces class:
either the capture strips to nothing (Python then returns `None`) or the
result is nonempty and whitespace-normal. -/
theorem formatName_strip_alSp {s : String} (hs : ∀ c ∈ s.data, isAlSp c = true) :
    formatName (pyStripS s) = none ∨
    ∃ t, formatName (pyStripS s) = some t ∧ t ≠ "" ∧ NormalB t.data = true := by
  rcases hw : pyStripL s.data with _ | ⟨c0, t0⟩
  · left
    unfold formatName
    rw [if_pos]
    show pyStripS s = ""
    unfold pyStripS
    rw [hw]
  · right
    have hc0r : isPySpace c0 = false := stripL_head_not_space hw
    have hc0m : c0 ∈ s.data := mem_of_mem_stripL (hw ▸ List.mem_cons_self c0 t0)
    have hc0a : c0.isAlpha = true := alpha_of_alSp_of_not_space (hs c0 hc0m) hc0r
    apply formatName_some
    · apply mk_ne_empty
      rw [hw]
      simp
    · refine ⟨c0, ?_, hc0a⟩
      show c0 ∈ (pyStripS s).data
      unfold pyStripS
      rw [data_mk, hw]
      exact List.mem_cons_self c0 t0

theorem niceVal_of_ne_normal {f : Field} {v : String} (hf : f ≠ Field.identity_number)
    (hne : v ≠ "") (hn : NormalB v.data = true) : NiceVal f v :=
  ⟨hne, hn, fun h => absurd h hf⟩

theorem niceVal_male (f : Field) (hf : f ≠ Field.identity_number) :
    NiceVal f "Male" :=
  niceVal_of_ne_normal hf (by decide) (by decide)

theorem niceVal_female (f : Field) (hf : f ≠ Field.identity_number) :
    NiceVal f "Female" :=
  niceVal_of_ne_normal hf (by decide) (by decide)

theorem niceVal_pakistan (f : Field) (hf : f ≠ Field.identity_number) :
    NiceVal f "Pakistan" :=
  niceVal_of_ne_normal hf (by decide) (by decide)

/-! ## Loop equations -/

theorem cnicLoop_cons_none {text : String} {p : RE} {rest : List RE} {cur : Option String}
    (hr : research p text = none) :
    cnicLoop text (p :: rest) cur = cnicLoop text rest cur := by
  conv_lhs => rw [cnicLoop]
  rw [hr]

theorem cnicLoop_cons_some {text : String} {p : RE} {rest : List RE} {cur : Option String}
    {m : MRes} (hr : research p text = some m) :
    cnicLoop text (p :: rest) cur =
      if isFalsy cur = true then
        if (stripSeps (group1 m)).length = 13 then
          some (formatCnicS (stripSeps (group1 m)))
        else cur
      else cnicLoop text rest cur := by
  conv_lhs => rw [cnicLoop]
  rw [hr]

theorem nameLoop_cons_none {text : String} {p : RE} {rest : List RE} {cur : Option String}
    (hr : research p text = none) :
    nameLoop text (p :: rest) cur = nameLoop text rest cur := by
  conv_lhs => rw [nameLoop]
  rw [hr]

theorem nameLoop_cons_some {text : String} {p : RE} {rest : List RE} {cur : Option String}
    {m : MRes} (hr : research p text = some m) :
    nameLoop text (p :: rest) cur =
      if isFalsy cur = true then
        if (!containsAnyCI (pyStripS (group1 m)) nameBoiler) = true then
          formatName (pyStripS (group1 m))
        else nameLoop text rest cur
      else nameLoop text rest cur := by
  conv_lhs => rw [nameLoop]
  rw [hr]

theorem fatherLoop_cons_none {text : String} {p : RE} {rest : List RE} {cur : Option String}
    (hr : research p text = none) :
    fatherLoop text (p :: rest) cur = fatherLoop text rest cur := by
  conv_lhs => rw [fatherLoop]
  rw [hr]

theorem fatherLoop_cons_some {text : String} {p : RE} {rest : List RE} {cur : Option String}
    {m : MRes} (hr : research p text = some m) :
    fatherLoop text (p :: rest) cur =
      if isFalsy cur = true then
        if (!containsAnyCI (pyStripS (group1 m)) fatherBoiler) = true then
          formatName (pyStripS (group1 m))
        else fatherLoop text rest cur
      else fatherLoop text rest cur := by
  conv_lhs => rw [fatherLoop]
  rw [hr]

theorem genderLoop_cons_none {text : String} {p : RE} {rest : List RE} {cur : Option String}
    (hr : research p text = none) :
    genderLoop text (p :: rest) cur = genderLoop text rest cur := by
  conv_lhs => rw [genderLoop]
  rw [hr]

theorem genderLoop_cons_some {text : String} {p : RE} {rest : List RE} {cur : Option String}
    {m : MRes} (hr : research p text = some m) :
    genderLoop text (p :: rest) cur =
      if isFalsy cur = true then
        if (pyUpperS (group1 m) = "MALE" || pyUpperS (group1 m) = "M"
            || pyUpperS (group1 m) = "مرد") then some "Male"
        else if (pyUpperS (group1 m) = "FEMALE" || pyUpperS (group1 m) = "F"
            || pyUpperS (group1 m) = "عورت") then some "Female"
        else cur
      else genderLoop text rest cur := by
  conv_lhs => rw [genderLoop]
  rw [hr]

theorem countryLoop_cons_none {text : String} {e : PatEntry} {rest : List PatEntry}
    {cur : Option String} (hr : research e.re text = none) :
    countryLoop text (e :: rest) cur = countryLoop text rest cur := by
  conv_lhs => rw [countryLoop]
  rw [hr]

theorem countryLoop_cons_some {text : String} {e : PatEntry} {rest : List PatEntry}
    {cur : Option String} {m : MRes} (hr : research e.re text = some m) :
    countryLoop text (e :: rest) cur =
      if isFalsy cur = true then
        if pyEndsWith e.src ")" then some "Pakistan"
        else
          if (pyStripS (group1 m) ≠ ""
              && !containsAnyCI (pyStripS (group1 m)) ["IDENTITY", "NUMBER", "CARD"]) then
            formatName (pyStripS (group1 m))
          else cur
      else countryLoop text rest cur := by
  conv_lhs => rw [countryLoop]
  rw [hr]

theorem dateLoop_cons_none {text : String} {p : RE} {rest : List RE} {cur : Option String}
    (hr : research p text = none) :
    dateLoop text (p :: rest) cur = dateLoop text rest cur := by
  conv_lhs => rw [dateLoop]
  rw [hr]

theorem dateLoop_cons_some {text : String} {p : RE} {rest : List RE} {cur : Option String}
    {m : MRes} (hr : research p text = some m) :
    dateLoop text (p :: rest) cur =
      if isFalsy cur = true then formatDate (group1 m)
      else dateLoop text rest cur := by
  conv_lhs => rw [dateLoop]
  rw [hr]

/-! ## Loop output characterizations -/

theorem cnicLoop_output (text : String) :
    ∀ (ps : List RE) (cur : Option String), (∀ p ∈ ps, CapOnly isCnicChar p) →
      cnicLoop text ps cur = cur ∨
      ∃ v, cnicLoop text ps cur = some v ∧ NiceVal Field.identity_number v := by
  intro ps
  induction ps with
  | nil => intro cur _; exact Or.inl rfl
  | cons p rest ih =>
    intro cur hcap
    rcases hr : research p text with _ | m
    · rw [cnicLoop_cons_none hr]
      exact ih cur (fun q hq => hcap q (List.mem_cons_of_mem p hq))
    · rw [cnicLoop_cons_some hr]
      by_cases hf : isFalsy cur = true
      · rw [if_pos hf]
        by_cases h13 : (stripSeps (group1 m)).length = 13
        · rw [if_pos h13]
          right
          refine ⟨_, rfl, ?_⟩
          have hdig : ∀ c ∈ (stripSeps (group1 m)).data, c.isDigit = true := by
            intro c hc
            unfold stripSeps at hc
            rw [data_mk] at hc
            have hmem := List.mem_filter.mp hc
            have hcls := research_group1_class (hcap p (by simp)) hr c hmem.1
            simp only [isCnicChar, Bool.or_eq_true] at hcls
            rcases hcls with hd | hsep
            · exact hd
            · rw [hsep] at hmem
              simpa using hmem.2
          have h13' : (stripSeps (group1 m)).data.length = 13 := h13
          have := niceVal_formatCnic h13' hdig Field.identity_number
          rwa [mk_data] at this
        · rw [if_neg h13]
          exact Or.inl rfl
      · rw [if_neg hf]
        exact ih cur (fun q hq => hcap q (List.mem_cons_of_mem p hq))

theorem nameLoop_output (text : String) :
    ∀ (ps : List RE) (cur : Option String), (∀ p ∈ ps, CapOnly isAlSp p) →
      nameLoop text ps cur = cur ∨ nameLoop text ps cur = none ∨
      ∃ v, nameLoop text ps cur = some v ∧ v ≠ "" ∧ NormalB v.data = true := by
  intro ps
  induction ps with
  | nil => intro cur _; exact Or.inl rfl
  | cons p rest ih =>
    intro cur hcap
    rcases hr : research p text with _ | m
    · rw [nameLoop_cons_none hr]
      exact ih cur (fun q hq => hcap q (List.mem_cons_of_mem p hq))
    · rw [nameLoop_cons_some hr]
      by_cases hf : isFalsy cur = true
      · rw [if_pos hf]
        by_cases hb : (!containsAnyCI (pyStripS (group1 m)) nameBoiler) = true
        · rw [if_pos hb]
          have hcls : ∀ c ∈ (group1 m).data, isAlSp c = true :=
            research_group1_class (hcap p (by simp)) hr
          rcases formatName_strip_alSp hcls with hn | ⟨t, ht, htne, htn⟩
          · exact Or.inr (Or.inl hn)
          · exact Or.inr (Or.inr ⟨t, ht, htne, htn⟩)
        · rw [if_neg hb]
          exact ih cur (fun q hq => hcap q (List.mem_cons_of_mem p hq))
      · rw [if_neg hf]
        exact ih cur (fun q hq => hcap q (List.mem_cons_of_mem p hq))

theorem fatherLoop_output (text : String) :
    ∀ (ps : List RE) (cur : Option String), (∀ p ∈ ps, CapOnly isAlSp p) →
      fatherLoop text ps cur = cur ∨ fatherLoop text ps cur = none ∨
      ∃ v, fatherLoop text ps cur = some v ∧ v ≠ "" ∧ NormalB v.data = true := by
  intro ps
  induction ps with
  | nil => intro cur _; exact Or.inl rfl
  | cons p rest ih =>
    intro cur hcap
    rcases hr : research p text with _ | m
    · rw [fatherLoop_cons_none hr]
      exact ih cur (fun q hq => hcap q (List.mem_cons_of_mem p hq))
    · rw [fatherLoop_cons_some hr]
      by_cases hf : isFalsy cur = true
      · rw [if_pos hf]
        by_cases hb : (!containsAnyCI (pyStripS (group1 m)) fatherBoiler) = true
        · rw [if_pos hb]
          have hcls : ∀ c ∈ (group1 m).data, isAlSp c = true :=
            research_group1_class (hcap p (by simp)) hr
          rcases formatName_strip_alSp hcls with hn | ⟨t, ht, htne, htn⟩
          · exact Or.inr (Or.inl hn)
          · exact Or.inr (Or.inr ⟨t, ht, htne, htn⟩)
        · rw [if_neg hb]
          exact ih cur (fun q hq => hcap q (List.mem_cons_of_mem p hq))
      · rw [if_neg hf]
        exact ih cur (fun q hq => hcap q (List.mem_cons_of_mem p hq))

theorem genderLoop_output (text : String) :
    ∀ (ps : List RE) (cur : Option String),
      genderLoop text ps cur = cur ∨ genderLoop text ps cur = some "Male" ∨
      genderLoop text ps cur = some "Female" := by
  intro ps
  induction ps with
  | nil => intro cur; exact Or.inl rfl
  | cons p rest ih =>
    intro cur
    rcases hr : research p text with _ | m
    · rw [genderLoop_cons_none hr]
      exact ih cur
    · rw [genderLoop_cons_some hr]
      by_cases hf : isFalsy cur = true
      · rw [if_pos hf]
        by_cases h1 : (pyUpperS (group1 m) = "MALE" || pyUpperS (group1 m) = "M"
            || pyUpperS (group1 m) = "مرد") = true
        · rw [if_pos h1]
          exact Or.inr (Or.inl rfl)
        · rw [if_neg h1]
          by_cases h2 : (pyUpperS (group1 m) = "FEMALE" || pyUpperS (group1 m) = "F"
              || pyUpperS (group1 m) = "عورت") = true
          · rw [if_pos h2]
            exact Or.inr (Or.inr rfl)
          · rw [if_neg h2]
            exact Or.inl rfl
      · rw [if_neg hf]
        exact ih cur

theorem countryLoop_output (text : String) :
    ∀ (ps : List PatEntry) (cur : Option String),
      (∀ e ∈ ps, pyEndsWith e.src ")" = true) →
      countryLoop text ps cur = cur ∨ countryLoop text ps cur = some "Pakistan" := by
  intro ps
  induction ps with
  | nil => intro cur _; exact Or.inl rfl
  | cons e rest ih =>
    intro cur hend
    rcases hr : research e.re text with _ | m
    · rw [countryLoop_cons_none hr]
      exact ih cur (fun q hq => hend q (List.mem_cons_of_mem e hq))
    · rw [countryLoop_cons_some hr]
      by_cases hf : isFalsy cur = true
      · rw [if_pos hf, if_pos (hend e (by simp))]
        exact Or.inr rfl
      · rw [if_neg hf]
        exact ih cur (fun q hq => hend q (List.mem_cons_of_mem e hq))

theorem dateLoop_output (text : String) :
    ∀ (ps : List RE) (cur : Option String), (∀ p ∈ ps, CapOnly isDateChar p) →
      dateLoop text ps cur = cur ∨ dateLoop text ps cur = none ∨
      ∃ v, dateLoop text ps cur = some v ∧ v ≠ "" ∧ NormalB v.data = true := by
  intro ps
  induction ps with
  | nil => intro cur _; exact Or.inl rfl
  | cons p rest ih =>
    intro cur hcap
    rcases hr : research p text with _ | m
    · rw [dateLoop_cons_none hr]
      exact ih cur (fun q hq => hcap q (List.mem_cons_of_mem p hq))
    · rw [dateLoop_cons_some hr]
      by_cases hf : isFalsy cur = true
      · rw [if_pos hf]
        have hno : noWs (group1 m).data = true := by
          apply List.all_eq_true.mpr
          intro c hc
          have := research_group1_class (hcap p (by simp)) hr c hc
          simp only [isDateChar, Bool.or_eq_true] at this
          rcases this with hd | hs
          · simpa using space_of_digit hd
          · unfold isDateSep at hs
            simp only [Bool.or_eq_true, decide_eq_true_eq] at hs
            rcases hs with (rfl | rfl) | rfl <;> simp [isPySpace]
        rcases formatDate_noWs hno with hn | ⟨t, ht, htne, htn⟩
        · exact Or.inr (Or.inl hn)
        · exact Or.inr (Or.inr ⟨t, ht, htne, htn⟩)
      · rw [if_neg hf]
        exact ih cur (fun q hq => hcap q (List.mem_cons_of_mem p hq))

/-! ## Loops keep a truthy value -/

theorem cnicLoop_keeps (text : String) {v : String} (hv : v ≠ "") :
    ∀ ps : List RE, cnicLoop text ps (some v) = some v := by
  intro ps
  induction ps with
  | nil => rfl
  | cons p rest ih =>
    rcases hr : research p text with _ | m
    · rw [cnicLoop_cons_none hr]
      exact ih
    · rw [cnicLoop_cons_some hr, if_neg (by simp [isFalsy_some_ne hv])]
      exact ih

theorem nameLoop_keeps (text : String) {v : String} (hv : v ≠ "") :
    ∀ ps : List RE, nameLoop text ps (some v) = some v := by
  intro ps
  induction ps with
  | nil => rfl
  | cons p rest ih =>
    rcases hr : research p text with _ | m
    · rw [nameLoop_cons_none hr]
      exact ih
    · rw [nameLoop_cons_some hr, if_neg (by simp [isFalsy_some_ne hv])]
      exact ih

theorem fatherLoop_keeps (text : String) {v : String} (hv : v ≠ "") :
    ∀ ps : List RE, fatherLoop text ps (some v) = some v := by
  intro ps
  induction ps with
  | nil => rfl
  | cons p rest ih =>
    rcases hr : research p text with _ | m
    · rw [fatherLoop_cons_none hr]
      exact ih
    · rw [fatherLoop_cons_some hr, if_neg (by simp [isFalsy_some_ne hv])]
      exact ih

theorem genderLoop_keeps (text : String) {v : String} (hv : v ≠ "") :
    ∀ ps : List RE, genderLoop text ps (some v) = some v := by
  intro ps
  induction ps with
  | nil => rfl
  | cons p rest ih =>
    rcases hr : research p text with _ | m
    · rw [genderLoop_cons_none hr]
      exact ih
    · rw [genderLoop_cons_some hr, if_neg (by simp [isFalsy_some_ne hv])]
      exact ih

theorem countryLoop_keeps (text : String) {v : String} (hv : v ≠ "") :
    ∀ ps : List PatEntry, countryLoop text ps (some v) = some v := by
  intro ps
  induction ps with
  | nil => rfl
  | cons e rest ih =>
    rcases hr : research e.re text with _ | m
    · rw [countryLoop_cons_none hr]
      exact ih
    · rw [countryLoop_cons_some hr, if_neg (by simp [isFalsy_some_ne hv])]
      exact ih

theorem dateLoop_keeps (text : String) {v : String} (hv : v ≠ "") :
    ∀ ps : List RE, dateLoop text ps (some v) = some v := by
  intro ps
  induction ps with
  | nil => rfl
  | cons p rest ih =>
    rcases hr : research p text with _ | m
    · rw [dateLoop_cons_none hr]
      exact ih
    · rw [dateLoop_cons_some hr, if_neg (by simp [isFalsy_some_ne hv])]
      exact ih

/-! ## Strategy 1: invariants -/

theorem extractWithPatterns_fields (text : String) (r : CnicData) :
    extractWithPatterns text r =
      ⟨cnicLoop text cnicPatterns r.identity_number,
       nameLoop text namePatterns r.name,
       fatherLoop text fatherPatterns r.father_name,
       genderLoop text genderPatterns r.gender,
       countryLoop text countryPatterns r.country_of_stay,
       dateLoop text dobPatterns r.date_of_birth,
       dateLoop text doiPatterns r.date_of_issue,
       dateLoop text doePatterns r.date_of_expiry⟩ := rfl

theorem countrySrc_endsWith : ∀ e ∈ countryPatterns, pyEndsWith e.src ")" = true := by
  intro e he
  simp only [countryPatterns, List.mem_cons, List.not_mem_nil, or_false] at he
  rcases he with rfl | rfl | rfl | rfl <;> decide

theorem extractWithPatterns_mono {text : String} {r : CnicData} {f : Field} {v : String}
    (hv : v ≠ "") (h : r.get f = some v) :
    (extractWithPatterns text r).get f = some v := by
  rw [extractWithPatterns_fields]
  cases f <;> (simp only [CnicData.get] at h ⊢; rw [h])
  · exact cnicLoop_keeps text hv _
  · exact nameLoop_keeps text hv _
  · exact fatherLoop_keeps text hv _
  · exact genderLoop_keeps text hv _
  · exact countryLoop_keeps text hv _
  · exact dateLoop_keeps text hv _
  · exact dateLoop_keeps text hv _
  · exact dateLoop_keeps text hv _

theorem extractWithPatterns_nice {text : String} {r : CnicData} (h : NiceRec r) :
    NiceRec (extractWithPatterns text r) := by
  intro f v hf
  rw [extractWithPatterns_fields] at hf
  cases f
  case identity_number =>
    simp only [CnicData.get] at hf
    rcases cnicLoop_output text cnicPatterns r.identity_number capOnly_cnicPatterns with
      he | ⟨w, hw, hnice⟩
    · rw [he] at hf
      exact h Field.identity_number v hf
    · rw [hw] at hf
      cases hf
      exact hnice
  case name =>
    simp only [CnicData.get] at hf
    rcases nameLoop_output text namePatterns r.name capOnly_namePatterns with
      he | he | ⟨w, hw, hne, hn⟩
    · rw [he] at hf
      exact h Field.name v hf
    · rw [he] at hf
      cases hf
    · rw [hw] at hf
      cases hf
      exact niceVal_of_ne_normal (by intro hx; cases hx) hne hn
  case father_name =>
    simp only [CnicData.get] at hf
    rcases fatherLoop_output text fatherPatterns r.father_name capOnly_fatherPatterns with
      he | he | ⟨w, hw, hne, hn⟩
    · rw [he] at hf
      exact h Field.father_name v hf
    · rw [he] at hf
      cases hf
    · rw [hw] at hf
      cases hf
      exact niceVal_of_ne_normal (by intro hx; cases hx) hne hn
  case gender =>
    simp only [CnicData.get] at hf
    rcases genderLoop_output text genderPatterns r.gender with he | he | he
    · rw [he] at hf
      exact h Field.gender v hf
    · rw [he] at hf
      cases hf
      exact niceVal_male _ (by intro hx; cases hx)
    · rw [he] at hf
      cases hf
      exact niceVal_female _ (by intro hx; cases hx)
  case country_of_stay =>
    simp only [CnicData.get] at hf
    rcases countryLoop_output text countryPatterns r.country_of_stay countrySrc_endsWith with
      he | he
    · rw [he] at hf
      exact h Field.country_of_stay v hf
    · rw [he] at hf
      cases hf
      exact niceVal_pakistan _ (by intro hx; cases hx)
  case date_of_birth =>
    simp only [CnicData.get] at hf
    rcases dateLoop_output text dobPatterns r.date_of_birth capOnly_dobPatterns with
      he | he | ⟨w, hw, hne, hn⟩
    · rw [he] at hf
      exact h Field.date_of_birth v hf
    · rw [he] at hf
      cases hf
    · rw [hw] at hf
      cases hf
      exact niceVal_of_ne_normal (by intro hx; cases hx) hne hn
  case date_of_issue =>
    simp only [CnicData.get] at hf
    rcases dateLoop_output text doiPatterns r.date_of_issue capOnly_doiPatterns with
      he | he | ⟨w, hw, hne, hn⟩
    · rw [he] at hf
      exact h Field.date_of_issue v hf
    · rw [he] at hf
      cases hf
    · rw [hw] at hf
      cases hf
      exact niceVal_of_ne_normal (by intro hx; cases hx) hne hn
  case date_of_expiry =>
    simp only [CnicData.get] at hf
    rcases dateLoop_output text doePatterns r.date_of_expiry capOnly_doePatterns with
      he | he | ⟨w, hw, hne, hn⟩
    · rw [he] at hf
      exact h Field.date_of_expiry v hf
    · rw [he] at hf
      cases hf
    · rw [hw] at hf
      cases hf
      exact niceVal_of_ne_normal (by intro hx; cases hx) hne hn

/-! ## Record update bookkeeping -/

theorem get_set (r : CnicData) (f g : Field) (x : Option String) :
    (r.set f x).get g = if g = f then x else r.get g := by
  cases f <;> cases g <;> simp [CnicData.set, CnicData.get]

theorem set_name_eq (r : CnicData) (n : Option String) :
    ({ r with name := n } : CnicData) = r.set Field.name n := rfl

theorem set_father_eq (r : CnicData) (n : Option String) :
    ({ r with father_name := n } : CnicData) = r.set Field.father_name n := rfl

theorem set_get_self (r : CnicData) (f : Field) : r.set f (r.get f) = r := by
  cases f <;> rfl

theorem nameHalfSpec_mono {target : Field} {r out : CnicData}
    (hs : NameHalfSpec target r out) {f : Field} {v : String} (hv : v ≠ "")
    (h : r.get f = some v) : out.get f = some v := by
  obtain ⟨n, rfl, hcase⟩ := hs
  rw [get_set]
  by_cases hft : f = target
  · subst hft
    rcases hcase with hn | ⟨hfal, _⟩
    · rw [if_pos rfl, hn, h]
    · rw [h, isFalsy_some_ne hv] at hfal
      cases hfal
  · rw [if_neg hft]
    exact h

theorem nameHalfSpec_nice {target : Field} {r out : CnicData}
    (htarget : target ≠ Field.identity_number)
    (hs : NameHalfSpec target r out) (h : NiceRec r) : NiceRec out := by
  obtain ⟨n, rfl, hcase⟩ := hs
  intro f v hf
  rw [get_set] at hf
  by_cases hft : f = target
  · subst hft
    rw [if_pos rfl] at hf
    rcases hcase with hn | ⟨_, w, hw, hne, hnorm⟩
    · rw [hn] at hf
      exact h f v hf
    · rw [hw] at hf
      cases hf
      exact niceVal_of_ne_normal htarget hne hnorm
  · rw [if_neg hft] at hf
    exact h f v hf

theorem posStepName_spec (blocks : List String) (i : Nat) (block : String) (r : CnicData) :
    NameHalfSpec Field.name r (posStepName blocks i block r) := by
  unfold posStepName
  by_cases hc : ((containsCI (pyLowerS block) "name" || containsCI (pyLowerS block) "اسم"
      || containsCI (pyLowerS block) "holder") && isFalsy r.name) = true
  · rw [if_pos hc]
    have hfal : isFalsy r.name = true := by
      simp only [Bool.and_eq_true] at hc
      exact hc.2
    rcases research posNameRE block with _ | m
    · by_cases hlen : i + 1 < blocks.length
      · rw [if_pos hlen]
        by_cases hv : isValidName (pyStripS (blocks.getD (i + 1) "")) = true
        · rw [if_pos hv]
          obtain ⟨t, ht, htne, htn⟩ := formatName_of_validName hv
          exact ⟨_, set_name_eq r _, Or.inr ⟨hfal, t, ht, htne, htn⟩⟩
        · rw [if_neg hv]
          exact ⟨r.name, (set_get_self r Field.name).symm, Or.inl rfl⟩
      · rw [if_neg hlen]
        exact ⟨r.name, (set_get_self r Field.name).symm, Or.inl rfl⟩
    · show NameHalfSpec Field.name r
        (if isValidName (pyStripS (group1 m)) = true
         then { r with name := formatName (pyStripS (group1 m)) } else r)
      by_cases hv : isValidName (pyStripS (group1 m)) = true
      · rw [if_pos hv]
        obtain ⟨t, ht, htne, htn⟩ := formatName_of_validName hv
        exact ⟨_, set_name_eq r _, Or.inr ⟨hfal, t, ht, htne, htn⟩⟩
      · rw [if_neg hv]
        exact ⟨r.name, (set_get_self r Field.name).symm, Or.inl rfl⟩
  · rw [if_neg hc]
    exact ⟨r.name, (set_get_self r Field.name).symm, Or.inl rfl⟩

theorem posStepFather_spec (blocks : List String) (i : Nat) (block : String) (r : CnicData) :
    NameHalfSpec Field.father_name r (posStepFather blocks i block r) := by
  unfold posStepFather
  by_cases hc : ((containsCI (pyLowerS block) "father" || containsCI (pyLowerS block) "والد"
      || containsCI (pyLowerS block) "s/o" || containsCI (pyLowerS block) "d/o")
      && isFalsy r.father_name) = true
  · rw [if_pos hc]
    have hfal : isFalsy r.father_name = true := by
      simp only [Bool.and_eq_true] at hc
      exact hc.2
    rcases research posFatherRE block with _ | m
    · by_cases hlen : i + 1 < blocks.length
      · rw [if_pos hlen]
        by_cases hv : isValidName (pyStripS (blocks.getD (i + 1) "")) = true
        · rw [if_pos hv]
          obtain ⟨t, ht, htne, htn⟩ := formatName_of_validName hv
          exact ⟨_, set_father_eq r _, Or.inr ⟨hfal, t, ht, htne, htn⟩⟩
        · rw [if_neg hv]
          exact ⟨r.father_name, (set_get_self r Field.father_name).symm, Or.inl rfl⟩
      · rw [if_neg hlen]
        exact ⟨r.father_name, (set_get_self r Field.father_name).symm, Or.inl rfl⟩
    · show NameHalfSpec Field.father_name r
        (if isValidName (pyStripS (group1 m)) = true
         then { r with father_name := formatName (pyStripS (group1 m)) } else r)
      by_cases hv : isValidName (pyStripS (group1 m)) = true
      · rw [if_pos hv]
        obtain ⟨t, ht, htne, htn⟩ := formatName_of_validName hv
        exact ⟨_, set_father_eq r _, Or.inr ⟨hfal, t, ht, htne, htn⟩⟩
      · rw [if_neg hv]
        exact ⟨r.father_name, (set_get_self r Field.father_name).symm, Or.inl rfl⟩
  · rw [if_neg hc]
    exact ⟨r.father_name, (set_get_self r Field.father_name).symm, Or.inl rfl⟩

theorem ctxStepName_spec (lines : List String) (i : Nat) (line : String) (r : CnicData) :
    NameHalfSpec Field.name r (ctxStepName lines i line r) := by
  unfold ctxStepName
  by_cases hc : (containsCI (pyLowerS line) "name" && !containsCI (pyLowerS line) "father"
      && isFalsy r.name) = true
  · rw [if_pos hc]
    have hfal : isFalsy r.name = true := by
      simp only [Bool.and_eq_true] at hc
      exact hc.2
    rcases research ctxNameRE line with _ | m
    · by_cases hlen : i + 1 < lines.length
      · rw [if_pos hlen]
        by_cases hv : isValidName (lines.getD (i + 1) "") = true
        · rw [if_pos hv]
          obtain ⟨t, ht, htne, htn⟩ := formatName_of_validName hv
          exact ⟨_, set_name_eq r _, Or.inr ⟨hfal, t, ht, htne, htn⟩⟩
        · rw [if_neg hv]
          exact ⟨r.name, (set_get_self r Field.name).symm, Or.inl rfl⟩
      · rw [if_neg hlen]
        exact ⟨r.name, (set_get_self r Field.name).symm, Or.inl rfl⟩
    · show NameHalfSpec Field.name r
        (if isValidName (pyStripS (group1 m)) = true
         then { r with name := formatName (pyStripS (group1 m)) } else r)
      by_cases hv : isValidName (pyStripS (group1 m)) = true
      · rw [if_pos hv]
        obtain ⟨t, ht, htne, htn⟩ := formatName_of_validName hv
        exact ⟨_, set_name_eq r _, Or.inr ⟨hfal, t, ht, htne, htn⟩⟩
      · rw [if_neg hv]
        exact ⟨r.name, (set_get_self r Field.name).symm, Or.inl rfl⟩
  · rw [if_neg hc]
    exact ⟨r.name, (set_get_self r Field.name).symm, Or.inl rfl⟩

theorem ctxStepFather_spec (lines : List String) (i : Nat) (line : String) (r : CnicData) :
    NameHalfSpec Field.father_name r (ctxStepFather lines i line r) := by
  unfold ctxStepFather
  by_cases hc : (containsCI (pyLowerS line) "father" && isFalsy r.father_name) = true
  · rw [if_pos hc]
    have hfal : isFalsy r.father_name = true := by
      simp only [Bool.and_eq_true] at hc
      exact hc.2
    rcases research ctxFatherRE line with _ | m
    · by_cases hlen : i + 1 < lines.length
      · rw [if_pos hlen]
        by_cases hv : isValidName (lines.getD (i + 1) "") = true
        · rw [if_pos hv]
          obtain ⟨t, ht, htne, htn⟩ := formatName_of_validName hv
          exact ⟨_, set_father_eq r _, Or.inr ⟨hfal, t, ht, htne, htn⟩⟩
        · rw [if_neg hv]
          exact ⟨r.father_name, (set_get_self r Field.father_name).symm, Or.inl rfl⟩
      · rw [if_neg hlen]
        exact ⟨r.father_name, (set_get_self r Field.father_name).symm, Or.inl rfl⟩
    · show NameHalfSpec Field.father_name r
        (if isValidName (pyStripS (group1 m)) = true
         then { r with father_name := formatName (pyStripS (group1 m)) } else r)
      by_cases hv : isValidName (pyStripS (group1 m)) = true
      · rw [if_pos hv]
        obtain ⟨t, ht, htne, htn⟩ := formatName_of_validName hv
        exact ⟨_, set_father_eq r _, Or.inr ⟨hfal, t, ht, htne, htn⟩⟩
      · rw [if_neg hv]
        exact ⟨r.father_name, (set_get_self r Field.father_name).symm, Or.inl rfl⟩
  · rw [if_neg hc]
    exact ⟨r.father_name, (set_get_self r Field.father_name).symm, Or.inl rfl⟩

theorem posStep_mono {blocks : List String} {i : Nat} {b : String} {r : CnicData}
    {f : Field} {v : String} (hv : v ≠ "") (h : r.get f = some v) :
    (posStep blocks i b r).get f = some v := by
  unfold posStep
  exact nameHalfSpec_mono (posStepFather_spec _ _ _ _) hv
    (nameHalfSpec_mono (posStepName_spec _ _ _ _) hv h)

theorem posStep_nice {blocks : List String} {i : Nat} {b : String} {r : CnicData}
    (h : NiceRec r) : NiceRec (posStep blocks i b r) := by
  unfold posStep
  exact nameHalfSpec_nice (by intro hx; cases hx) (posStepFather_spec _ _ _ _)
    (nameHalfSpec_nice (by intro hx; cases hx) (posStepName_spec _ _ _ _) h)

theorem ctxStep_mono {lines : List String} {i : Nat} {l : String} {r : CnicData}
    {f : Field} {v : String} (hv : v ≠ "") (h : r.get f = some v) :
    (ctxStep lines i l r).get f = some v := by
  unfold ctxStep
  exact nameHalfSpec_mono (ctxStepFather_spec _ _ _ _) hv
    (nameHalfSpec_mono (ctxStepName_spec _ _ _ _) hv h)

theorem ctxStep_nice {lines : List String} {i : Nat} {l : String} {r : CnicData}
    (h : NiceRec r) : NiceRec (ctxStep lines i l r) := by
  unfold ctxStep
  exact nameHalfSpec_nice (by intro hx; cases hx) (ctxStepFather_spec _ _ _ _)
    (nameHalfSpec_nice (by intro hx; cases hx) (ctxStepName_spec _ _ _ _) h)

theorem posLoop_mono {blocks : List String} {f : Field} {v : String} (hv : v ≠ "") :
    ∀ (bs : List String) (i : Nat) (r : CnicData), r.get f = some v →
      (posLoop blocks i bs r).get f = some v := by
  intro bs
  induction bs with
  | nil => intro i r h; exact h
  | cons b rest ih =>
    intro i r h
    exact ih (i + 1) _ (posStep_mono hv h)

theorem posLoop_nice {blocks : List String} :
    ∀ (bs : List String) (i : Nat) (r : CnicData), NiceRec r →
      NiceRec (posLoop blocks i bs r) := by
  intro bs
  induction bs with
  | nil => intro i r h; exact h
  | cons b rest ih =>
    intro i r h
    exact ih (i + 1) _ (posStep_nice h)

theorem ctxLoop_mono {lines : List String} {f : Field} {v : String} (hv : v ≠ "") :
    ∀ (ls : List String) (i : Nat) (r : CnicData), r.get f = some v →
      (ctxLoop lines i ls r).get f = some v := by
  intro ls
  induction ls with
  | nil => intro i r h; exact h
  | cons l rest ih =>
    intro i r h
    exact ih (i + 1) _ (ctxStep_mono hv h)

theorem ctxLoop_nice {lines : List String} :
    ∀ (ls : List String) (i : Nat) (r : CnicData), NiceRec r →
      NiceRec (ctxLoop lines i ls r) := by
  intro ls
  induction ls with
  | nil => intro i r h; exact h
  | cons l rest ih =>
    intro i r h
    exact ih (i + 1) _ (ctxStep_nice h)

theorem extractWithPositions_mono {blocks : List String} {r : CnicData} {f : Field}
    {v : String} (hv : v ≠ "") (h : r.get f = some v) :
    (extractWithPositions blocks r).get f = some v :=
  posLoop_mono hv blocks 0 r h

theorem extractWithPositions_nice {blocks : List String} {r : CnicData}
    (h : NiceRec r) : NiceRec (extractWithPositions blocks r) :=
  posLoop_nice blocks 0 r h

theorem extractWithContext_mono {text : String} {r : CnicData} {f : Field}
    {v : String} (hv : v ≠ "") (h : r.get f = some v) :
    (extractWithContext text r).get f = some v :=
  ctxLoop_mono hv (ctxLines text) 0 r h

theorem extractWithContext_nice {text : String} {r : CnicData}
    (h : NiceRec r) : NiceRec (extractWithContext text r) :=
  ctxLoop_nice (ctxLines text) 0 r h

/-! ## Strategy 4: fallback extraction -/

theorem space_of_dateChar {c : Char} (h : isDateChar c = true) : isPySpace c = false := by
  unfold isDateChar at h
  rcases Bool.or_eq_true_iff.mp h with hd | hs
  · exact space_of_digit hd
  · unfold isDateSep at hs
    simp only [Bool.or_eq_true, decide_eq_true_eq] at hs
    rcases hs with (rfl | rfl) | rfl <;> decide

theorem dedupAux_sub : ∀ (xs seen : List String) (w : String),
    w ∈ dedupAux seen xs → w ∈ xs := by
  intro xs
  induction xs with
  | nil => intro seen w hw; simp [dedupAux] at hw
  | cons x xs ih =>
    intro seen w hw
    have hw' : w ∈ (if seen.contains x then dedupAux seen xs
        else x :: dedupAux (x :: seen) xs) := hw
    by_cases hc : seen.contains x = true
    · rw [if_pos hc] at hw'
      exact List.mem_cons_of_mem x (ih seen w hw')
    · rw [if_neg hc] at hw'
      rcases List.mem_cons.mp hw' with rfl | hw''
      · exact List.mem_cons_self w xs
      · exact List.mem_cons_of_mem x (ih (x :: seen) w hw'')

theorem dedupKeepFirst_sub {xs : List String} {w : String}
    (hw : w ∈ dedupKeepFirst xs) : w ∈ xs :=
  dedupAux_sub xs [] w hw

theorem assignFallbackDates_not_mem :
    ∀ (fs : List Field) (ds : List String) (r : CnicData) (f : Field), f ∉ fs →
      (assignFallbackDates r fs ds).get f = r.get f := by
  intro fs
  induction fs with
  | nil => intro ds r f _; cases ds <;> rfl
  | cons g fs ih =>
    intro ds r f hf
    cases ds with
    | nil => rfl
    | cons d ds =>
      have hfg : f ≠ g := fun h => hf (h ▸ List.mem_cons_self g fs)
      have hfm : f ∉ fs := fun h => hf (List.mem_cons_of_mem g h)
      show (assignFallbackDates (r.set g (formatDate d)) fs ds).get f = r.get f
      rw [ih ds _ f hfm, get_set, if_neg hfg]

theorem assignFallbackDates_mem_get :
    ∀ (fs : List Field) (ds : List String) (r : CnicData) (f : Field),
      (assignFallbackDates r fs ds).get f = r.get f ∨
      (f ∈ fs ∧ ∃ d ∈ ds, (assignFallbackDates r fs ds).get f = formatDate d) := by
  intro fs
  induction fs with
  | nil => intro ds r f; left; cases ds <;> rfl
  | cons g fs ih =>
    intro ds r f
    cases ds with
    | nil => left; rfl
    | cons d ds =>
      have heq : assignFallbackDates r (g :: fs) (d :: ds)
          = assignFallbackDates (r.set g (formatDate d)) fs ds := rfl
      rw [heq]
      rcases ih ds (r.set g (formatDate d)) f with h | ⟨hmem, d', hd', hget⟩
      · rw [h, get_set]
        by_cases hfg : f = g
        · right
          refine ⟨?_, d, List.mem_cons_self d ds, if_pos hfg⟩
          rw [hfg]
          exact List.mem_cons_self g fs
        · left
          exact if_neg hfg
      · right
        exact ⟨List.mem_cons_of_mem g hmem, d', List.mem_cons_of_mem d hd', hget⟩

theorem fallbackDates_mono {text : String} {r : CnicData} {f : Field} {v : String}
    (hv : v ≠ "") (h : r.get f = some v) : (fallbackDates text r).get f = some v := by
  show (assignFallbackDates r (dateFieldOrder.filter (fun g => isFalsy (r.get g)))
    (dedupKeepFirst (refindall dateCap text))).get f = some v
  have hnot : f ∉ dateFieldOrder.filter (fun g => isFalsy (r.get g)) := by
    intro hf
    have hfal := List.of_mem_filter hf
    rw [h, isFalsy_some_ne hv] at hfal
    cases hfal
  rw [assignFallbackDates_not_mem _ _ r f hnot]
  exact h

theorem fallbackDates_nice {text : String} {r : CnicData} (h : NiceRec r) :
    NiceRec (fallbackDates text r) := by
  intro f v hf
  have hf' : (assignFallbackDates r (dateFieldOrder.filter (fun g => isFalsy (r.get g)))
      (dedupKeepFirst (refindall dateCap text))).get f = some v := hf
  rcases assignFallbackDates_mem_get (dateFieldOrder.filter (fun g => isFalsy (r.get g)))
      (dedupKeepFirst (refindall dateCap text)) r f with he | ⟨hmem, d, hd, hget⟩
  · rw [he] at hf'
    exact h f v hf'
  · rw [hget] at hf'
    have hclass : ∀ c ∈ d.data, isDateChar c = true :=
      refindall_class capOnly_dateCap _ _ _ d (dedupKeepFirst_sub hd)
    have hno : noWs d.data = true := by
      unfold noWs
      rw [List.all_eq_true]
      intro c hc
      rw [space_of_dateChar (hclass c hc)]
      rfl
    rcases formatDate_noWs hno with hn | ⟨t, ht, htne, htn⟩
    · rw [hn] at hf'
      cases hf'
    · rw [ht] at hf'
      cases hf'
      have hfne : f ≠ Field.identity_number := by
        have hmem' := List.mem_of_mem_filter hmem
        intro he
        rw [he] at hmem'
        simp [dateFieldOrder] at hmem'
      exact niceVal_of_ne_normal hfne htne htn

theorem take3_ne_nil {xs : List String} (h : xs ≠ []) : xs.take 3 ≠ [] := by
  cases xs with
  | nil => exact absurd rfl h
  | cons a l => simp [List.take]

theorem fallbackName_spec (text : String) (r : CnicData) :
    NameHalfSpec Field.name r (fallbackName text r) := by
  unfold fallbackName
  by_cases h1 : isFalsy r.name = true
  · rw [if_pos h1]
    by_cases h2 : (!((pySplitWs text).filter isNameWord).isEmpty) = true
    · rw [if_pos h2]
      have hne : (pySplitWs text).filter isNameWord ≠ [] := by
        intro he
        rw [he] at h2
        simp at h2
      have hgood : ∀ w ∈ ((pySplitWs text).filter isNameWord).take 3,
          w.data ≠ [] ∧ noWs w.data = true := fun w hw =>
        pySplitWs_good w (List.mem_of_mem_filter (List.take_subset _ _ hw))
      obtain ⟨hjne, hjn⟩ := joinSpS_good (take3_ne_nil hne) hgood
      exact ⟨_, set_name_eq r _, Or.inr ⟨h1, _, rfl, hjne, hjn⟩⟩
    · rw [if_neg h2]
      exact ⟨r.name, (set_get_self r Field.name).symm, Or.inl rfl⟩
  · rw [if_neg h1]
    exact ⟨r.name, (set_get_self r Field.name).symm, Or.inl rfl⟩

theorem collectRun_sub : ∀ (ws acc : List String) (x : String),
    x ∈ collectRun acc ws → x ∈ acc ∨ x ∈ ws := by
  intro ws
  induction ws with
  | nil => intro acc x hx; exact Or.inl hx
  | cons w rest ih =>
    intro acc x hx
    have hx' : x ∈ (if isFatherWord w then collectRun (acc ++ [w]) rest
        else if !acc.isEmpty then acc else collectRun acc rest) := hx
    by_cases hw : isFatherWord w = true
    · rw [if_pos hw] at hx'
      rcases ih (acc ++ [w]) x hx' with h | h
      · rcases List.mem_append.mp h with h | h
        · exact Or.inl h
        · right
          simp only [List.mem_singleton] at h
          rw [h]
          exact List.mem_cons_self w rest
      · exact Or.inr (List.mem_cons_of_mem w h)
    · rw [if_neg hw] at hx'
      by_cases ha : (!acc.isEmpty) = true
      · rw [if_pos ha] at hx'
        exact Or.inl hx'
      · rw [if_neg ha] at hx'
        rcases ih acc x hx' with h | h
        · exact Or.inl h
        · exact Or.inr (List.mem_cons_of_mem w h)

theorem fatherScan_some (allWords : List String) (nw : String) (len : Nat) :
    ∀ (ws : List String) (i : Nat) (v : String),
      fatherScan allWords nw len ws i = some v →
      ∃ got : List String, got ≠ [] ∧ (∀ x ∈ got, x ∈ allWords) ∧
        v = joinSpS (got.take 3) := by
  intro ws
  induction ws with
  | nil => intro i v hv; cases hv
  | cons w rest ih =>
    intro i v hv
    have hv' : (if pyLowerS w = nw then
        (if !(collectRun [] ((allWords.drop (i + len)).take 5)).isEmpty then
          some (joinSpS ((collectRun [] ((allWords.drop (i + len)).take 5)).take 3))
        else fatherScan allWords nw len rest (i + 1))
      else fatherScan allWords nw len rest (i + 1)) = some v := hv
    by_cases h1 : pyLowerS w = nw
    · rw [if_pos h1] at hv'
      by_cases h2 : (!(collectRun [] ((allWords.drop (i + len)).take 5)).isEmpty) = true
      · rw [if_pos h2] at hv'
        injection hv' with hveq
        refine ⟨collectRun [] ((allWords.drop (i + len)).take 5), ?_, ?_, hveq.symm⟩
        · intro he
          rw [he] at h2
          simp at h2
        · intro x hx
          rcases collectRun_sub _ [] x hx with h | h
          · cases h
          · exact List.drop_subset _ _ (List.take_subset _ _ h)
      · rw [if_neg h2] at hv'
        exact ih (i + 1) v hv'
    · rw [if_neg h1] at hv'
      exact ih (i + 1) v hv'

theorem fallbackFather_spec (text : String) (r : CnicData) :
    NameHalfSpec Field.father_name r (fallbackFather text r) := by
  unfold fallbackFather
  by_cases h1 : (isFalsy r.father_name && !isFalsy r.name) = true
  · rw [if_pos h1]
    have hfal : isFalsy r.father_name = true := by
      simp only [Bool.and_eq_true] at h1
      exact h1.1
    rcases hnw : pySplitWs ((r.name).getD "") with _ | ⟨nw0, nwrest⟩
    · exact ⟨r.father_name, (set_get_self r Field.father_name).symm, Or.inl rfl⟩
    · dsimp only []
      rcases hscan : fatherScan (pySplitWs text) (pyLowerS nw0)
          (nw0 :: nwrest).length (pySplitWs text) 0 with _ | v
      · exact ⟨r.father_name, (set_get_self r Field.father_name).symm, Or.inl rfl⟩
      · obtain ⟨got, hgne, hsub, hveq⟩ := fatherScan_some _ _ _ _ _ v hscan
        have hgood : ∀ w ∈ got.take 3, w.data ≠ [] ∧ noWs w.data = true := fun w hw =>
          pySplitWs_good w (hsub w (List.take_subset _ _ hw))
        obtain ⟨hjne, hjn⟩ := joinSpS_good (take3_ne_nil hgne) hgood
        refine ⟨some v, rfl, Or.inr ⟨hfal, v, rfl, ?_, ?_⟩⟩
        · rw [hveq]
          exact hjne
        · rw [hveq]
          exact hjn
  · rw [if_neg h1]
    exact ⟨r.father_name, (set_get_self r Field.father_name).symm, Or.inl rfl⟩

theorem fallbackExtraction_mono {text : String} {r : CnicData} {f : Field}
    {v : String} (hv : v ≠ "") (h : r.get f = some v) :
    (fallbackExtraction text r).get f = some v := by
  unfold fallbackExtraction
  exact nameHalfSpec_mono (fallbackFather_spec _ _) hv
    (nameHalfSpec_mono (fallbackName_spec _ _) hv (fallbackDates_mono hv h))

theorem fallbackExtraction_nice {text : String} {r : CnicData}
    (h : NiceRec r) : NiceRec (fallbackExtraction text r) := by
  unfold fallbackExtraction
  exact nameHalfSpec_nice (by intro hx; cases hx) (fallbackFather_spec _ _)
    (nameHalfSpec_nice (by intro hx; cases hx) (fallbackName_spec _ _)
      (fallbackDates_nice h))

/-! ## Cleanup lemmas -/

theorem mk_length (l : List Char) : (String.mk l).length = l.length := rfl

theorem strip_of_normalS {t : String} (h : NormalB t.data = true) : pyStripS t = t := by
  unfold pyStripS
  rw [strip_of_normal h, mk_data]

theorem joinSplitS_strip (s : String) : pyStripS (joinSplitS s) = joinSplitS s := by
  unfold pyStripS joinSplitS
  rw [data_mk, strip_joinSplit]

theorem joinSplitS_of_normal {v : String} (h : NormalB v.data = true) :
    joinSplitS v = v := by
  unfold joinSplitS joinSplitL
  have h' : joinSplitL v.data = v.data := joinSplit_of_normal h
  unfold joinSplitL at h'
  rw [h', mk_data]

theorem joinSplitS_normal (s : String) : NormalB (joinSplitS s).data = true := by
  unfold joinSplitS
  rw [data_mk]
  exact normal_joinSplit _

theorem digitsOnly_all (s : String) : ∀ c ∈ (digitsOnly s).data, c.isDigit = true := by
  unfold digitsOnly
  rw [data_mk]
  intro c hc
  exact List.of_mem_filter hc

theorem formatCnicL_length {l : List Char} (h13 : l.length = 13) :
    (formatCnicL l).length = 15 := by
  rw [formatCnicL_decomp]
  simp [List.length_append, List.length_take, List.length_drop, h13]

theorem cnicFormatB_mk (a b c d e f g h i j k l m : Char) :
    CnicFormatB (String.mk [a, b, c, d, e, '-', f, g, h, i, j, k, l, '-', m])
      = [a, b, c, d, e, f, g, h, i, j, k, l, m].all Char.isDigit := by
  show ([a, b, c, d, e, f, g, h, i, j, k, l, m].all Char.isDigit
      && decide (('-' : Char) = '-') && decide (('-' : Char) = '-'))
    = [a, b, c, d, e, f, g, h, i, j, k, l, m].all Char.isDigit
  simp

theorem cnicFormatB_of_digits {l : List Char} (h13 : l.length = 13)
    (hd : ∀ c ∈ l, c.isDigit = true) :
    CnicFormatB (formatCnicS (String.mk l)) = true := by
  rcases l with _ | ⟨c1, l⟩; · simp at h13
  rcases l with _ | ⟨c2, l⟩; · simp at h13
  rcases l with _ | ⟨c3, l⟩; · simp at h13
  rcases l with _ | ⟨c4, l⟩; · simp at h13
  rcases l with _ | ⟨c5, l⟩; · simp at h13
  rcases l with _ | ⟨c6, l⟩; · simp at h13
  rcases l with _ | ⟨c7, l⟩; · simp at h13
  rcases l with _ | ⟨c8, l⟩; · simp at h13
  rcases l with _ | ⟨c9, l⟩; · simp at h13
  rcases l with _ | ⟨c10, l⟩; · simp at h13
  rcases l with _ | ⟨c11, l⟩; · simp at h13
  rcases l with _ | ⟨c12, l⟩; · simp at h13
  rcases l with _ | ⟨c13, l⟩; · simp at h13
  rcases l with _ | ⟨c14, l⟩
  · have hform : formatCnicS (String.mk
        [c1, c2, c3, c4, c5, c6, c7, c8, c9, c10, c11, c12, c13])
        = String.mk [c1, c2, c3, c4, c5, '-', c6, c7, c8, c9, c10, c11, c12, '-', c13] :=
      rfl
    rw [hform, cnicFormatB_mk, List.all_eq_true]
    intro c hc
    exact hd c hc
  · simp at h13

theorem cleanupValue_of_nice {f : Field} {v : String} (hv : NiceVal f v) :
    cleanupValue f (some v) = some v ∨ cleanupValue f (some v) = none := by
  obtain ⟨hne, hnorm, hid⟩ := hv
  have hs1 : pyStripS (joinSplitS v) = v := by
    rw [joinSplitS_of_normal hnorm]
    exact strip_of_normalS hnorm
  unfold cleanupValue
  dsimp only []
  rw [if_neg hne, hs1]
  by_cases hlen : (v.length < 2 || v.length > 50) = true
  · rw [if_pos hlen]
    cases f <;> exact Or.inr rfl
  · rw [if_neg hlen]
    cases f
    · obtain ⟨h13, hfmt⟩ := hid rfl
      left
      show (if (digitsOnly v).length = 13
          then some (formatCnicS (digitsOnly v)) else none) = some v
      rw [if_pos h13, hfmt]
    · by_cases hvn : isValidName v = true
      · left
        show (if isValidName v = true then some v else none) = some v
        rw [if_pos hvn]
      · right
        show (if isValidName v = true then some v else none) = none
        rw [if_neg hvn]
    · by_cases hvn : isValidName v = true
      · left
        show (if isValidName v = true then some v else none) = some v
        rw [if_pos hvn]
      · right
        show (if isValidName v = true then some v else none) = none
        rw [if_neg hvn]
    · exact Or.inl rfl
    · exact Or.inl rfl
    · exact Or.inl rfl
    · exact Or.inl rfl
    · exact Or.inl rfl

theorem cleanupValue_quality {f : Field} {v t : String} (hne : v ≠ "")
    (h : cleanupValue f (some v) = some t) :
    2 ≤ t.length ∧ t.length ≤ 50 ∧ pyStripS t = t ∧ NormalB t.data = true ∧
    (f = Field.identity_number → CnicFormatB t = true) ∧
    ((f = Field.name ∨ f = Field.father_name) → isValidName t = true) := by
  unfold cleanupValue at h
  dsimp only [] at h
  rw [if_neg hne, joinSplitS_strip v] at h
  have hstrip : pyStripS (joinSplitS v) = joinSplitS v := joinSplitS_strip v
  have hnorm : NormalB (joinSplitS v).data = true := joinSplitS_normal v
  generalize hgen : joinSplitS v = w at h hstrip hnorm
  by_cases hlen : (w.length < 2 || w.length > 50) = true
  · rw [if_pos hlen] at h
    cases f <;> exact Option.noConfusion h
  · rw [if_neg hlen] at h
    have hbounds : 2 ≤ w.length ∧ w.length ≤ 50 := by
      simp only [Bool.or_eq_true, decide_eq_true_eq, not_or, not_lt] at hlen
      omega
    cases f
    · have h2 : (if (digitsOnly w).length = 13
          then some (formatCnicS (digitsOnly w)) else none) = some t := h
      by_cases h13 : (digitsOnly w).length = 13
      · rw [if_pos h13] at h2
        injection h2 with h2
        have hd := digitsOnly_all w
        have h13' : (digitsOnly w).data.length = 13 := h13
        have hfmt : formatCnicS (digitsOnly w)
            = formatCnicS (String.mk (digitsOnly w).data) := by rw [mk_data]
        have htlen : t.length = 15 := by
          rw [← h2]
          show (formatCnicL (digitsOnly w).data).length = 15
          exact formatCnicL_length h13'
        have htn : NormalB t.data = true := by
          rw [← h2]
          show NormalB (formatCnicL (digitsOnly w).data) = true
          exact noWs_normal (noWs_formatCnicL hd)
        refine ⟨by omega, by omega, strip_of_normalS htn, htn, fun _ => ?_, ?_⟩
        · rw [← h2, hfmt]
          exact cnicFormatB_of_digits h13' hd
        · rintro (hx | hx) <;> exact Field.noConfusion hx
      · rw [if_neg h13] at h2
        exact Option.noConfusion h2
    · have h2 : (if isValidName w = true then some w else none) = some t := h
      by_cases hvn : isValidName w = true
      · rw [if_pos hvn] at h2
        injection h2 with h2
        subst h2
        exact ⟨hbounds.1, hbounds.2, hstrip, hnorm,
          fun hx => Field.noConfusion hx, fun _ => hvn⟩
      · rw [if_neg hvn] at h2
        exact Option.noConfusion h2
    · have h2 : (if isValidName w = true then some w else none) = some t := h
      by_cases hvn : isValidName w = true
      · rw [if_pos hvn] at h2
        injection h2 with h2
        subst h2
        exact ⟨hbounds.1, hbounds.2, hstrip, hnorm,
          fun hx => Field.noConfusion hx, fun _ => hvn⟩
      · rw [if_neg hvn] at h2
        exact Option.noConfusion h2
    · have h2 : some w = some t := h
      injection h2 with h2
      subst h2
      exact ⟨hbounds.1, hbounds.2, hstrip, hnorm, fun hx => Field.noConfusion hx,
        by rintro (hx | hx) <;> exact Field.noConfusion hx⟩
    · have h2 : some w = some t := h
      injection h2 with h2
      subst h2
      exact ⟨hbounds.1, hbounds.2, hstrip, hnorm, fun hx => Field.noConfusion hx,
        by rintro (hx | hx) <;> exact Field.noConfusion hx⟩
    · have h2 : some w = some t := h
      injection h2 with h2
      subst h2
      exact ⟨hbounds.1, hbounds.2, hstrip, hnorm, fun hx => Field.noConfusion hx,
        by rintro (hx | hx) <;> exact Field.noConfusion hx⟩
    · have h2 : some w = some t := h
      injection h2 with h2
      subst h2
      exact ⟨hbounds.1, hbounds.2, hstrip, hnorm, fun hx => Field.noConfusion hx,
        by rintro (hx | hx) <;> exact Field.noConfusion hx⟩
    · have h2 : some w = some t := h
      injection h2 with h2
      subst h2
      exact ⟨hbounds.1, hbounds.2, hstrip, hnorm, fun hx => Field.noConfusion hx,
        by rintro (hx | hx) <;> exact Field.noConfusion hx⟩

theorem cleanup_get (r : CnicData) (f : Field) :
    (cleanupExtractedData r).get f = cleanupValue f (r.get f) := by
  cases f <;> rfl

theorem initData_nice : NiceRec initData := by
  intro f v hf
  cases f <;> exact Option.noConfusion hf

/-! ## Pipeline-level lemmas -/

theorem parse_eq_cleanup (text : String) (blocks : List String) :
    parseCnicTextEnhanced text blocks = cleanupExtractedData (preCleanup text blocks) := rfl

theorem preCleanup_nice (text : String) (blocks : List String) :
    NiceRec (preCleanup text blocks) :=
  fallbackExtraction_nice (extractWithContext_nice (extractWithPositions_nice
    (extractWithPatterns_nice initData_nice)))

theorem parse_get_quality {text : String} {blocks : List String} {f : Field} {t : String}
    (h : (parseCnicTextEnhanced text blocks).get f = some t) :
    2 ≤ t.length ∧ t.length ≤ 50 ∧ pyStripS t = t ∧ NormalB t.data = true ∧
    (f = Field.identity_number → CnicFormatB t = true) ∧
    ((f = Field.name ∨ f = Field.father_name) → isValidName t = true) := by
  rw [parse_eq_cleanup, cleanup_get] at h
  rcases hv : (preCleanup text blocks).get f with _ | v
  · rw [hv] at h
    exact Option.noConfusion h
  · rw [hv] at h
    exact cleanupValue_quality (preCleanup_nice text blocks f v hv).1 h

theorem parse_get_ne_empty {text : String} {blocks : List String} {f : Field} {t : String}
    (h : (parseCnicTextEnhanced text blocks).get f = some t) : t ≠ "" := by
  intro he
  subst he
  have := (parse_get_quality h).1
  simp [String.length] at this

theorem nameHalfSpec_get_other {target : Field} {r out : CnicData}
    (hs : NameHalfSpec target r out) {f : Field} (hft : f ≠ target) :
    out.get f = r.get f := by
  obtain ⟨n, rfl, _⟩ := hs
  rw [get_set, if_neg hft]

theorem posStep_other {blocks : List String} {i : Nat} {b : String} {r : CnicData}
    {f : Field} (hn : f ≠ Field.name) (hfa : f ≠ Field.father_name) :
    (posStep blocks i b r).get f = r.get f := by
  unfold posStep
  rw [nameHalfSpec_get_other (posStepFather_spec _ _ _ _) hfa,
    nameHalfSpec_get_other (posStepName_spec _ _ _ _) hn]

theorem ctxStep_other {lines : List String} {i : Nat} {l : String} {r : CnicData}
    {f : Field} (hn : f ≠ Field.name) (hfa : f ≠ Field.father_name) :
    (ctxStep lines i l r).get f = r.get f := by
  unfold ctxStep
  rw [nameHalfSpec_get_other (ctxStepFather_spec _ _ _ _) hfa,
    nameHalfSpec_get_other (ctxStepName_spec _ _ _ _) hn]

theorem posLoop_other {blocks : List String} {f : Field}
    (hn : f ≠ Field.name) (hfa : f ≠ Field.father_name) :
    ∀ (bs : List String) (i : Nat) (r : CnicData),
      (posLoop blocks i bs r).get f = r.get f := by
  intro bs
  induction bs with
  | nil => intro i r; rfl
  | cons b rest ih =>
    intro i r
    rw [show posLoop blocks i (b :: rest) r
      = posLoop blocks (i + 1) rest (posStep blocks i b r) from rfl,
      ih (i + 1) _, posStep_other hn hfa]

theorem ctxLoop_other {lines : List String} {f : Field}
    (hn : f ≠ Field.name) (hfa : f ≠ Field.father_name) :
    ∀ (ls : List String) (i : Nat) (r : CnicData),
      (ctxLoop lines i ls r).get f = r.get f := by
  intro ls
  induction ls with
  | nil => intro i r; rfl
  | cons l rest ih =>
    intro i r
    rw [show ctxLoop lines i (l :: rest) r
      = ctxLoop lines (i + 1) rest (ctxStep lines i l r) from rfl,
      ih (i + 1) _, ctxStep_other hn hfa]

theorem fallbackDates_not_date {text : String} {r : CnicData} {f : Field}
    (hf : f ∉ dateFieldOrder) : (fallbackDates text r).get f = r.get f := by
  show (assignFallbackDates r (dateFieldOrder.filter (fun g => isFalsy (r.get g)))
    (dedupKeepFirst (refindall dateCap text))).get f = r.get f
  exact assignFallbackDates_not_mem _ _ r f
    (fun hmem => hf (List.mem_of_mem_filter hmem))

theorem preCleanup_country (text : String) (blocks : List String) :
    (preCleanup text blocks).get Field.country_of_stay
      = (stage1 text).get Field.country_of_stay := by
  have h4 : (preCleanup text blocks).get Field.country_of_stay
      = (stage3 text blocks).get Field.country_of_stay := by
    show (fallbackExtraction (cleanText text) (stage3 text blocks)).get _ = _
    unfold fallbackExtraction
    rw [nameHalfSpec_get_other (fallbackFather_spec _ _) (by intro hx; cases hx),
      nameHalfSpec_get_other (fallbackName_spec _ _) (by intro hx; cases hx),
      fallbackDates_not_date (by decide)]
  have h3 : (stage3 text blocks).get Field.country_of_stay
      = (stage2 text blocks).get Field.country_of_stay :=
    ctxLoop_other (by intro hx; cases hx) (by intro hx; cases hx) _ _ _
  have h2 : (stage2 text blocks).get Field.country_of_stay
      = (stage1 text).get Field.country_of_stay :=
    posLoop_other (by intro hx; cases hx) (by intro hx; cases hx) _ _ _
  rw [h4, h3, h2]

theorem stripSeps_formatCnic {l : List Char} (hd : ∀ c ∈ l, c.isDigit = true) :
    (formatCnicL l).filter (fun c => !isCnicSep c) = l := by
  rw [formatCnicL_decomp, List.filter_append, List.filter_cons, List.filter_append,
    List.filter_cons]
  have hdash : (!isCnicSep '-') = false := by decide
  rw [hdash]
  simp only [Bool.false_eq_true, if_false]
  have hkeep : ∀ {m : List Char}, (∀ c ∈ m, c.isDigit = true) →
      m.filter (fun c => !isCnicSep c) = m := by
    intro m hm
    apply List.filter_eq_self.mpr
    intro c hc
    rw [digit_not_cnicSep (hm c hc)]
    rfl
  have h1 := @hkeep (l.take 5) (fun c hc => hd c (List.mem_of_mem_take hc))
  have h2 := @hkeep ((l.drop 5).take 7)
    (fun c hc => hd c (List.mem_of_mem_drop (List.mem_of_mem_take hc)))
  have h3 := @hkeep (l.drop 12) (fun c hc => hd c (List.mem_of_mem_drop hc))
  rw [h1, h2, h3]
  have hdd : (l.drop 5).drop 7 = l.drop 12 := by rw [List.drop_drop]
  rw [← hdd, take_drop_parts]

/-! ## Confidence-score lemmas -/

theorem totalFields_eq : totalFields = 8 := rfl

theorem rhe_intCast (n : ℤ) : rhe ((n : ℚ)) = n := by
  unfold rhe
  dsimp only []
  rw [Int.floor_intCast]
  rw [if_pos (by norm_num : (n : ℚ) - (n : ℚ) < 1 / 2)]

theorem pyRound2_exact {q : ℚ} {n : ℤ} (hn : q * 100 = (n : ℚ)) : pyRound2 q = q := by
  unfold pyRound2
  rw [hn, rhe_intCast, ← hn]
  field_simp

theorem filledFields_le (r : CnicData) : filledFields r ≤ 8 := by
  have h := List.length_filter_le (fun f => !isFalsy (r.get f)) allFields
  simpa [allFields] using h

theorem confidenceScore_eq (r : CnicData) :
    confidenceScore r = (filledFields r : ℚ) * 25 / 2 := by
  unfold confidenceScore
  rw [if_pos (by decide : 0 < totalFields)]
  have ht : ((totalFields : ℕ) : ℚ) = 8 := by
    rw [totalFields_eq]
    norm_num
  rw [ht]
  rw [show ((filledFields r : ℚ) / 8) * 100 = (filledFields r : ℚ) * 25 / 2 by ring]
  exact @pyRound2_exact _ ((filledFields r : ℤ) * 1250) (by push_cast; ring)

theorem score_zero_iff (r : CnicData) :
    confidenceScore r = 0 ↔ filledFields r = 0 := by
  rw [confidenceScore_eq]
  constructor
  · intro h
    rcases div_eq_zero_iff.mp h with h' | h'
    · rcases mul_eq_zero.mp h' with h'' | h''
      · exact Nat.cast_eq_zero.mp h''
      · norm_num at h''
    · norm_num at h'
  · intro h
    rw [h]
    norm_num

theorem filledFields_zero_iff (r : CnicData) :
    filledFields r = 0 ↔ ∀ f : Field, isFalsy (r.get f) = true := by
  unfold filledFields
  rw [List.length_eq_zero, List.filter_eq_nil_iff]
  constructor
  · intro h f
    have hm : f ∈ allFields := by cases f <;> simp [allFields]
    have := h f hm
    simpa using this
  · intro h f _
    simp [h f]

theorem falsy_eq_none {o : Option String} (hf : isFalsy o = true) (hne : o ≠ some "") :
    o = none := by
  rcases o with _ | s
  · rfl
  · exfalso
    apply hne
    have hs : s = "" := by simpa [isFalsy] using hf
    rw [hs]

/-! ## The fallback date phase against the specification comparator -/

theorem fill3 (r : CnicData) (ds : List String)
    (h1 : r.date_of_birth ≠ some "") (h2 : r.date_of_issue ≠ some "")
    (h3 : r.date_of_expiry ≠ some "") :
    [(assignFallbackDates r (dateFieldOrder.filter (fun f => isFalsy (r.get f))) ds).date_of_birth,
     (assignFallbackDates r (dateFieldOrder.filter (fun f => isFalsy (r.get f))) ds).date_of_issue,
     (assignFallbackDates r (dateFieldOrder.filter (fun f => isFalsy (r.get f))) ds).date_of_expiry]
      = specFillDates [r.date_of_birth, r.date_of_issue, r.date_of_expiry] ds := by
  by_cases fA : isFalsy r.date_of_birth = true
  · have hA := falsy_eq_none fA h1
    by_cases fB : isFalsy r.date_of_issue = true
    · have hB := falsy_eq_none fB h2
      by_cases fC : isFalsy r.date_of_expiry = true
      · have hC := falsy_eq_none fC h3
        have hfil : dateFieldOrder.filter (fun f => isFalsy (r.get f))
            = [Field.date_of_birth, Field.date_of_issue, Field.date_of_expiry] := by
          simp [dateFieldOrder, CnicData.get, fA, fB, fC]
        rw [hfil, hA, hB, hC]
        rcases ds with _ | ⟨d1, ds⟩
        · simp [assignFallbackDates, specFillDates, hA, hB, hC]
        rcases ds with _ | ⟨d2, ds⟩
        · simp [assignFallbackDates, specFillDates, CnicData.set, hB, hC]
        rcases ds with _ | ⟨d3, ds⟩
        · simp [assignFallbackDates, specFillDates, CnicData.set, hC]
        · simp [assignFallbackDates, specFillDates, CnicData.set]
      · have hfc : isFalsy r.date_of_expiry = false := by
          cases h : isFalsy r.date_of_expiry
          · rfl
          · exact absurd h fC
        rcases hC : r.date_of_expiry with _ | vc
        · rw [hC] at hfc
          cases hfc
        have hfil : dateFieldOrder.filter (fun f => isFalsy (r.get f))
            = [Field.date_of_birth, Field.date_of_issue] := by
          simp [dateFieldOrder, CnicData.get, fA, fB, hfc]
        rw [hfil, hA, hB]
        rcases ds with _ | ⟨d1, ds⟩
        · simp [assignFallbackDates, specFillDates, hA, hB, hC]
        rcases ds with _ | ⟨d2, ds⟩
        · simp [assignFallbackDates, specFillDates, CnicData.set, hB, hC]
        · simp [assignFallbackDates, specFillDates, CnicData.set, hC]
    · have hfb : isFalsy r.date_of_issue = false := by
        cases h : isFalsy r.date_of_issue
        · rfl
        · exact absurd h fB
      rcases hB : r.date_of_issue with _ | vb
      · rw [hB] at hfb
        cases hfb
      by_cases fC : isFalsy r.date_of_expiry = true
      · have hC := falsy_eq_none fC h3
        have hfil : dateFieldOrder.filter (fun f => isFalsy (r.get f))
            = [Field.date_of_birth, Field.date_of_expiry] := by
          simp [dateFieldOrder, CnicData.get, fA, hfb, fC]
        rw [hfil, hA, hC]
        rcases ds with _ | ⟨d1, ds⟩
        · simp [assignFallbackDates, specFillDates, hA, hB, hC]
        rcases ds with _ | ⟨d2, ds⟩
        · simp [assignFallbackDates, specFillDates, CnicData.set, hB, hC]
        · simp [assignFallbackDates, specFillDates, CnicData.set, hB]
      · have hfc : isFalsy r.date_of_expiry = false := by
          cases h : isFalsy r.date_of_expiry
          · rfl
          · exact absurd h fC
        rcases hC : r.date_of_expiry with _ | vc
        · rw [hC] at hfc
          cases hfc
        have hfil : dateFieldOrder.filter (fun f => isFalsy (r.get f))
            = [Field.date_of_birth] := by
          simp [dateFieldOrder, CnicData.get, fA, hfb, hfc]
        rw [hfil, hA]
        rcases ds with _ | ⟨d1, ds⟩
        · simp [assignFallbackDates, specFillDates, hA, hB, hC]
        · simp [assignFallbackDates, specFillDates, CnicData.set, hB, hC]
  · have hfa : isFalsy r.date_of_birth = false := by
      cases h : isFalsy r.date_of_birth
      · rfl
      · exact absurd h fA
    rcases hA : r.date_of_birth with _ | va
    · rw [hA] at hfa
      cases hfa
    by_cases fB : isFalsy r.date_of_issue = true
    · have hB := falsy_eq_none fB h2
      by_cases fC : isFalsy r.date_of_expiry = true
      · have hC := falsy_eq_none fC h3
        have hfil : dateFieldOrder.filter (fun f => isFalsy (r.get f))
            = [Field.date_of_issue, Field.date_of_expiry] := by
          simp [dateFieldOrder, CnicData.get, hfa, fB, fC]
        rw [hfil, hB, hC]
        rcases ds with _ | ⟨d1, ds⟩
        · simp [assignFallbackDates, specFillDates, hA, hB, hC]
        rcases ds with _ | ⟨d2, ds⟩
        · simp [assignFallbackDates, specFillDates, CnicData.set, hA, hC]
        · simp [assignFallbackDates, specFillDates, CnicData.set, hA]
      · have hfc : isFalsy r.date_of_expiry = false := by
          cases h : isFalsy r.date_of_expiry
          · rfl
          · exact absurd h fC
        rcases hC : r.date_of_expiry with _ | vc
        · rw [hC] at hfc
          cases hfc
        have hfil : dateFieldOrder.filter (fun f => isFalsy (r.get f))
            = [Field.date_of_issue] := by
          simp [dateFieldOrder, CnicData.get, hfa, fB, hfc]
        rw [hfil, hB]
        rcases ds with _ | ⟨d1, ds⟩
        · simp [assignFallbackDates, specFillDates, hA, hB, hC]
        · simp [assignFallbackDates, specFillDates, CnicData.set, hA, hC]
    · have hfb : isFalsy r.date_of_issue = false := by
        cases h : isFalsy r.date_of_issue
        · rfl
        · exact absurd h fB
      rcases hB : r.date_of_issue with _ | vb
      · rw [hB] at hfb
        cases hfb
      by_cases fC : isFalsy r.date_of_expiry = true
      · have hC := falsy_eq_none fC h3
        have hfil : dateFieldOrder.filter (fun f => isFalsy (r.get f))
            = [Field.date_of_expiry] := by
          simp [dateFieldOrder, CnicData.get, hfa, hfb, fC]
        rw [hfil, hC]
        rcases ds with _ | ⟨d1, ds⟩
        · simp [assignFallbackDates, specFillDates, hA, hB, hC]
        · simp [assignFallbackDates, specFillDates, CnicData.set, hA, hB]
      · have hfc : isFalsy r.date_of_expiry = false := by
          cases h : isFalsy r.date_of_expiry
          · rfl
          · exact absurd h fC
        rcases hC : r.date_of_expiry with _ | vc
        · rw [hC] at hfc
          cases hfc
        have hfil : dateFieldOrder.filter (fun f => isFalsy (r.get f))
            = [] := by
          simp [dateFieldOrder, CnicData.get, hfa, hfb, hfc]
        rw [hfil]
        cases ds <;> simp [assignFallbackDates, specFillDates, hA, hB, hC]

theorem fallbackDates_refines (text : String) (r : CnicData)
    (h1 : r.date_of_birth ≠ some "") (h2 : r.date_of_issue ≠ some "")
    (h3 : r.date_of_expiry ≠ some "") :
    [(fallbackDates text r).date_of_birth, (fallbackDates text r).date_of_issue,
     (fallbackDates text r).date_of_expiry]
      = specFillDates [r.date_of_birth, r.date_of_issue, r.date_of_expiry]
          (dedupKeepFirst (refindall dateCap text)) := by
  show [(assignFallbackDates r (dateFieldOrder.filter (fun f => isFalsy (r.get f)))
      (dedupKeepFirst (refindall dateCap text))).date_of_birth, _, _] = _
  exact fill3 r (dedupKeepFirst (refindall dateCap text)) h1 h2 h3

theorem stage1_country (text : String) :
    (stage1 text).get Field.country_of_stay = none ∨
    (stage1 text).get Field.country_of_stay = some "Pakistan" := by
  have h := congrArg CnicData.country_of_stay
    (extractWithPatterns_fields (cleanText text) initData)
  dsimp only [initData] at h
  show (extractWithPatterns (cleanText text)
      ⟨none, none, none, none, none, none, none, none⟩).country_of_stay = none ∨
    (extractWithPatterns (cleanText text)
      ⟨none, none, none, none, none, none, none, none⟩).country_of_stay = some "Pakistan"
  rw [h]
  exact countryLoop_output (cleanText text) countryPatterns none countrySrc_endsWith

/-! ## The claims -/

/-- C1: the spec says a 14-digit run is rejected and `identity_number`
stays null.  The acceptance rule itself is real — the first conjunct
shows every extracted identity number has the dashed 13-digit shape
`DDDDD-DDDDDDD-D` — but the claimed rejection is false: the unanchored
regex matches the first thirteen digits of a fourteen-digit run, so the
field is filled, as the second conjunct shows on the concrete input. -/
theorem C1_identity_accepts_exactly_13 :
    (∀ (text : String) (blocks : List String) (t : String),
      (parseCnicTextEnhanced text blocks).identity_number = some t →
      CnicFormatB t = true) ∧
    (parseCnicTextEnhanced "12345678901234" []).identity_number
      = some "12345-6789012-3" := by
  constructor
  · intro text blocks t h
    have h' : (parseCnicTextEnhanced text blocks).get Field.identity_number = some t := h
    exact (parse_get_quality h').2.2.2.2.1 rfl
  · rfl

/-- C1, witness: the acceptance rule applied to the concrete extraction
of the fourteen-digit input. -/
theorem C1_identity_accepts_exactly_13_witness :
    CnicFormatB "12345-6789012-3" = true :=
  C1_identity_accepts_exactly_13.1 "12345678901234" [] "12345-6789012-3"
    C1_identity_accepts_exactly_13.2

/-- C1, counterexample to the claimed rejection: a text that is exactly
one 14-digit numeric string produces a non-null identity number (the
first 13 digits, dash-formatted) instead of the claimed null. -/
theorem C1_fourteen_digit_rejected_cex :
    (parseCnicTextEnhanced "12345678901234" []).identity_number
        = some "12345-6789012-3" ∧
    (parseCnicTextEnhanced "12345678901234" []).identity_number ≠ none := by
  constructor
  · rfl
  · intro h
    cases (rfl : (parseCnicTextEnhanced "12345678901234" []).identity_number
      = some "12345-6789012-3") ▸ h

/-- C2: the full parse is a total function of the text and the block
list — the embedding of `_parse_cnic_text_enhanced` is executable and
returns a record for every input — and every field of the returned
record is the cleanup of that same field of the pre-cleanup record, so a
non-matching or failing pattern for one field only affects that field
and never aborts the extraction of the others. -/
theorem C2_parse_total : ∀ (text : String) (blocks : List String),
    ∃ r : CnicData, parseCnicTextEnhanced text blocks = r ∧
      ∀ f : Field, r.get f = cleanupValue f ((preCleanup text blocks).get f) := by
  intro text blocks
  refine ⟨parseCnicTextEnhanced text blocks, rfl, fun f => ?_⟩
  rw [parse_eq_cleanup, cleanup_get]

/-- C3: once a strategy sets a field to a non-null (nonempty) value, the
later strategies keep it unchanged, and the final cleanup pass returns
either that very value or null, never a different non-null value. -/
theorem C3_field_monotonicity (text : String) (blocks : List String)
    (f : Field) (v : String) (hv : v ≠ "") :
    ((stage1 text).get f = some v → (stage2 text blocks).get f = some v) ∧
    ((stage2 text blocks).get f = some v → (stage3 text blocks).get f = some v) ∧
    ((stage3 text blocks).get f = some v → (preCleanup text blocks).get f = some v) ∧
    ((preCleanup text blocks).get f = some v →
      (parseCnicTextEnhanced text blocks).get f = some v ∨
      (parseCnicTextEnhanced text blocks).get f = none) := by
  refine ⟨fun h => extractWithPositions_mono hv h,
    fun h => extractWithContext_mono hv h,
    fun h => fallbackExtraction_mono hv h,
    fun h => ?_⟩
  have hnice : NiceVal f v := preCleanup_nice text blocks f v h
  rw [parse_eq_cleanup, cleanup_get, h]
  exact cleanupValue_of_nice hnice

/-- C3, witness: the cleanup clause at scenario A's name field. -/
theorem C3_field_monotonicity_witness :
    ("John Smith" : String) ≠ "" ∧
    ((preCleanup
        "Name: JOHN SMITH Father: ROBERT SMITH Gender: Male 12345-1234567-1 01/01/1990"
        []).get Field.name = some "John Smith" →
      (parseCnicTextEnhanced
        "Name: JOHN SMITH Father: ROBERT SMITH Gender: Male 12345-1234567-1 01/01/1990"
        []).get Field.name = some "John Smith" ∨
      (parseCnicTextEnhanced
        "Name: JOHN SMITH Father: ROBERT SMITH Gender: Male 12345-1234567-1 01/01/1990"
        []).get Field.name = none) :=
  ⟨by decide, (C3_field_monotonicity
    "Name: JOHN SMITH Father: ROBERT SMITH Gender: Male 12345-1234567-1 01/01/1990"
    [] Field.name "John Smith" (by decide)).2.2.2⟩

/-- C4: empty text and an empty block list give the all-null record and
confidence score 0 (and, the embedding being total, no exception). -/
theorem C4_empty_input :
    parseCnicTextEnhanced "" [] = initData ∧
    confidenceScore (parseCnicTextEnhanced "" []) = 0 := by
  constructor
  · rfl
  · rw [show parseCnicTextEnhanced "" [] = initData from rfl, confidenceScore_eq,
      show filledFields initData = 0 from rfl]
    norm_num

/-- C5: scenario A — the pipeline extracts the five expected fields (and
leaves the other three null) on the given text with empty blocks. -/
theorem C5_scenario_a :
    parseCnicTextEnhanced
        "Name: JOHN SMITH Father: ROBERT SMITH Gender: Male 12345-1234567-1 01/01/1990"
        []
      = ⟨some "12345-1234567-1", some "John Smith", some "Robert Smith",
         some "Male", none, some "01/01/1990", none, none⟩ := by
  rfl

/-- C6: the fallback date phase equals the comparator written from the
specification sentence — all date-shaped tokens of the text are
collected, deduplicated keeping first occurrences, and assigned
positionally to the still-null fields in birth, issue, expiry order
until either list runs out — and on scenario B's three unlabelled dates
the full pipeline fills the three fields in order. -/
theorem C6_fallback_dates_refine (text : String) (r : CnicData)
    (h1 : r.date_of_birth ≠ some "") (h2 : r.date_of_issue ≠ some "")
    (h3 : r.date_of_expiry ≠ some "") :
    ([(fallbackDates text r).date_of_birth, (fallbackDates text r).date_of_issue,
      (fallbackDates text r).date_of_expiry]
        = specFillDates [r.date_of_birth, r.date_of_issue, r.date_of_expiry]
            (dedupKeepFirst (refindall dateCap text))) ∧
    parseCnicTextEnhanced "01/01/1990 02/02/1991 03/03/1992" []
      = ⟨none, none, none, none, none, some "01/01/1990", some "02/02/1991",
         some "03/03/1992"⟩ :=
  ⟨fallbackDates_refines text r h1 h2 h3, by rfl⟩

/-- C6, witness: the refinement equation at the all-null record and
scenario B's text. -/
theorem C6_fallback_dates_refine_witness :
    [(fallbackDates "01/01/1990 02/02/1991 03/03/1992" initData).date_of_birth,
     (fallbackDates "01/01/1990 02/02/1991 03/03/1992" initData).date_of_issue,
     (fallbackDates "01/01/1990 02/02/1991 03/03/1992" initData).date_of_expiry]
      = specFillDates [initData.date_of_birth, initData.date_of_issue,
          initData.date_of_expiry]
          (dedupKeepFirst (refindall dateCap "01/01/1990 02/02/1991 03/03/1992")) :=
  (C6_fallback_dates_refine "01/01/1990 02/02/1991 03/03/1992" initData
    (by decide) (by decide) (by decide)).1

/-- C7: the confidence score is the rounded percentage of filled fields
over the eight counted fields, lies in [0, 100], and is 0 exactly when
every field of the final record is null. -/
theorem C7_confidence_score (text : String) (blocks : List String) :
    confidenceScore (parseCnicTextEnhanced text blocks)
      = pyRound2 (((filledFields (parseCnicTextEnhanced text blocks) : ℚ)
          / totalFields) * 100) ∧
    0 ≤ confidenceScore (parseCnicTextEnhanced text blocks) ∧
    confidenceScore (parseCnicTextEnhanced text blocks) ≤ 100 ∧
    (confidenceScore (parseCnicTextEnhanced text blocks) = 0 ↔
      ∀ f : Field, (parseCnicTextEnhanced text blocks).get f = none) := by
  refine ⟨?_, ?_, ?_, ?_⟩
  · unfold confidenceScore
    rw [if_pos (by decide : 0 < totalFields)]
  · rw [confidenceScore_eq]
    positivity
  · rw [confidenceScore_eq]
    have hk : (filledFields (parseCnicTextEnhanced text blocks) : ℚ) ≤ 8 := by
      exact_mod_cast filledFields_le (parseCnicTextEnhanced text blocks)
    linarith
  · constructor
    · intro h f
      have hk := (score_zero_iff (parseCnicTextEnhanced text blocks)).mp h
      have hfal := (filledFields_zero_iff (parseCnicTextEnhanced text blocks)).mp hk f
      exact falsy_eq_none hfal (fun he => parse_get_ne_empty he rfl)
    · intro h
      apply (score_zero_iff (parseCnicTextEnhanced text blocks)).mpr
      apply (filledFields_zero_iff (parseCnicTextEnhanced text blocks)).mpr
      intro f
      rw [h f]
      rfl

/-- C8: every non-null value of the final record has already passed its
field check — its trimmed length is between 2 and 50 (trimming is the
identity on it), a non-null identity number has the dashed 13-digit
shape, and non-null name and father name satisfy the name-validity
predicate. -/
theorem C8_final_record_valid (text : String) (blocks : List String)
    (f : Field) (t : String)
    (h : (parseCnicTextEnhanced text blocks).get f = some t) :
    2 ≤ (pyStripS t).length ∧ (pyStripS t).length ≤ 50 ∧ pyStripS t = t ∧
    (f = Field.identity_number → CnicFormatB t = true) ∧
    ((f = Field.name ∨ f = Field.father_name) → isValidName t = true) := by
  obtain ⟨h1, h2, h3, _, h5, h6⟩ := parse_get_quality h
  refine ⟨?_, ?_, h3, h5, h6⟩
  · rw [h3]
    exact h1
  · rw [h3]
    exact h2

/-- C8, witness: the invariant at scenario A's name field. -/
theorem C8_final_record_valid_witness :
    2 ≤ (pyStripS "John Smith").length ∧ (pyStripS "John Smith").length ≤ 50 ∧
    pyStripS "John Smith" = "John Smith" ∧
    (Field.name = Field.identity_number → CnicFormatB "John Smith" = true) ∧
    ((Field.name = Field.name ∨ Field.name = Field.father_name) →
      isValidName "John Smith" = true) :=
  C8_final_record_valid
    "Name: JOHN SMITH Father: ROBERT SMITH Gender: Male 12345-1234567-1 01/01/1990"
    [] Field.name "John Smith" (by rfl)

/-- C9: formatting any 13 digits as `DDDDD-DDDDDDD-D` and then removing
the separators — with the extractor's separator strip as well as with
the cleanup's digit filter — recovers the original 13 digits. -/
theorem C9_cnic_roundtrip (l : List Char) (h13 : l.length = 13)
    (hd : ∀ c ∈ l, c.isDigit = true) :
    stripSeps (formatCnicS (String.mk l)) = String.mk l ∧
    digitsOnly (formatCnicS (String.mk l)) = String.mk l := by
  constructor
  · unfold stripSeps formatCnicS
    rw [data_mk, data_mk, stripSeps_formatCnic hd]
  · unfold digitsOnly formatCnicS
    rw [data_mk, data_mk, digitsOnly_formatCnic hd]

/-- C9, witness: the round trip on the digits 1234567890123. -/
theorem C9_cnic_roundtrip_witness :
    stripSeps (formatCnicS (String.mk
        ['1', '2', '3', '4', '5', '6', '7', '8', '9', '0', '1', '2', '3']))
      = String.mk ['1', '2', '3', '4', '5', '6', '7', '8', '9', '0', '1', '2', '3'] ∧
    digitsOnly (formatCnicS (String.mk
        ['1', '2', '3', '4', '5', '6', '7', '8', '9', '0', '1', '2', '3']))
      = String.mk ['1', '2', '3', '4', '5', '6', '7', '8', '9', '0', '1', '2', '3'] :=
  C9_cnic_roundtrip ['1', '2', '3', '4', '5', '6', '7', '8', '9', '0', '1', '2', '3']
    (by decide) (by decide)

/-- C10: every country pattern's source string ends with the `)` of its
capture group, so the extractor's `endswith` branch always assigns the
literal "Pakistan" and the alternative branch is dead; for every input
the final country_of_stay is null or exactly "Pakistan". -/
theorem C10_country_pakistan :
    countryPatterns.all (fun e => pyEndsWith e.src ")") = true ∧
    ∀ (text : String) (blocks : List String),
      (parseCnicTextEnhanced text blocks).get Field.country_of_stay = none ∨
      (parseCnicTextEnhanced text blocks).get Field.country_of_stay = some "Pakistan" := by
  constructor
  · decide
  · intro text blocks
    have hc : (parseCnicTextEnhanced text blocks).get Field.country_of_stay
        = cleanupValue Field.country_of_stay
            ((preCleanup text blocks).get Field.country_of_stay) := by
      rw [parse_eq_cleanup, cleanup_get]
    rw [hc, preCleanup_country]
    rcases stage1_country text with h | h
    · rw [h]
      left
      rfl
    · rw [h]
      right
      decide

end CNIC
